import Mathlib

/-!
Verification of the Guard-vertices repository: a shallow embedding of its
link-vertex (Blandford et al.) and guard-vertex (Batista) triangulation data
structures, of the Bowyer-Watson driver helpers, and of the BRIO kD-tree
reorderer, together with theorems settling the specification claims.

Modelling conventions:
* Python ints are Nat (vertex indices) or Int (coordinates);
* Python lists are Lean lists; in-place mutation becomes functional update;
* Python assertions and uncaught exceptions become an Except result;
* IEEE-754 coordinates only flow into sign computations and comparisons, so
  points are modelled with integer coordinates (the exact predicates are
  black boxes returning a sign, per the specification);
* Python set objects are modelled as duplicate-free lists; CPython iteration
  order over a set is unspecified, the model fixes insertion order;
* point payloads of vertices are carried only where a claim mentions them.
-/

namespace GuardVerticesRepo

/-- Embedding of utils.cw: the Python value (i-1) % 3 equals (i+2) % 3 on Nat. -/
def cw (i : Nat) : Nat := (i + 2) % 3

/-- Embedding of utils.ccw: (i+1) % 3. -/
def ccw (i : Nat) : Nat := (i + 1) % 3

/-- Python list.insert clamps the position to the list length; Lean insertIdx
is the identity past the end, so the clamp is explicit. -/
def pyInsertIdx (l : List α) (i : Nat) (x : α) : List α :=
  l.insertIdx (min i l.length) x

/-- Python set.add on a set modelled as a duplicate-free list. -/
def addSet [DecidableEq α] (l : List α) (x : α) : List α :=
  if x ∈ l then l else l ++ [x]

/-- A link is the Python list of paths (lists of vertex indices) stored by a
vertex, as in links.Vertex.links / guards.Vertex.links. -/
abbrev Link := List (List Nat)

/-- Scan of a link for a vertex, as in the loop of LinkVertices.__insert_face
(links.py 246-252) and of the remove/guard counterparts: the loop has no
break, so for the returned pair (path index, index inside path) the LAST
containing path wins, while Python list.index gives the first occurrence
inside that path. -/
def scanLink (links : Link) (v : Nat) : Option (Nat × Nat) :=
  ((links.enum.filter (fun ip => ip.2.contains v)).getLast?).map
    (fun ip => (ip.1, ip.2.indexOf v))

/-- Scan of a link for a vertex, as in LinkVertices.__find_up (links.py
156-160) and GuardVertices.__find_up_guard: this loop breaks at the first
containing path. -/
def scanLinkFirst (links : Link) (v : Nat) : Option (Nat × Nat) :=
  ((links.enum.filter (fun ip => ip.2.contains v)).head?).map
    (fun ip => (ip.1, ip.2.indexOf v))

/-- Embedding of LinkVertices.__insert_face (links.py 222-275): the four-case
extension of the link of one vertex by the face (v0,v1,v2); only v1 and v2
matter for the link surgery.  The same-path non-extreme configuration is the
Python assert at line 273, modelled as an error. -/
def __insert_face (links : Link) (v1 v2 : Nat) : Except String Link :=
  match scanLink links v1, scanLink links v2 with
  | none, none => .ok (links ++ [[v1, v2]])
  | some (p1, i1), none =>
      .ok (links.modify (fun p => pyInsertIdx p (i1 + 1) v2) p1)
  | none, some (p2, i2) =>
      .ok (links.modify (fun p => pyInsertIdx p i2 v1) p2)
  | some (p1, i1), some (p2, i2) =>
      if p1 ≠ p2 then
        let pmin := if p1 < p2 then p1 else p2
        let pmax := if p1 < p2 then p2 else p1
        let pos := if p1 < p2 then i1 + 1 else i2
        let moved := links.getD pmax []
        .ok ((links.modify (fun p => p.take pos ++ moved ++ p.drop pos) pmin).eraseIdx pmax)
      else
        if i2 = 0 ∧ i1 + 1 = (links.getD p1 []).length then
          .ok (links.modify (fun p => p ++ [v2]) p1)
        else
          .error "can only join extreme neighbors"

/-- Embedding of GuardVertices.__insert_face_into_guard (guards.py 511-564):
identical to the link-variant extension except in the same-path non-extreme
configuration, where it only logs a warning and leaves the link unchanged
(guards.py 560-564), so the function is total. -/
def __insert_face_into_guard (links : Link) (v1 v2 : Nat) : Link :=
  match scanLink links v1, scanLink links v2 with
  | none, none => links ++ [[v1, v2]]
  | some (p1, i1), none =>
      links.modify (fun p => pyInsertIdx p (i1 + 1) v2) p1
  | none, some (p2, i2) =>
      links.modify (fun p => pyInsertIdx p i2 v1) p2
  | some (p1, i1), some (p2, i2) =>
      if p1 ≠ p2 then
        let pmin := if p1 < p2 then p1 else p2
        let pmax := if p1 < p2 then p2 else p1
        let pos := if p1 < p2 then i1 + 1 else i2
        let moved := links.getD pmax []
        (links.modify (fun p => p.take pos ++ moved ++ p.drop pos) pmin).eraseIdx pmax
      else
        if i2 = 0 ∧ i1 + 1 = (links.getD p1 []).length then
          links.modify (fun p => p ++ [v2]) p1
        else
          links

/-- Embedding of LinkVertices.__remove_face (links.py 302-346); the identical
path surgery also occurs verbatim in GuardVertices.__remove_face_from_guard
(guards.py 632-664).  The two asserts "Face does not exist" and the length
assert are modelled as errors. -/
def __remove_face (links : Link) (v1 v2 : Nat) : Except String Link :=
  match scanLink links v1, scanLink links v2 with
  | some (p1, _i1), some (p2, i2) =>
      if p1 = p2 then
        let path := links.getD p1 []
        let first := path.take i2
        let latest := path.drop i2
        let rest := links.eraseIdx p1
        if first.length + latest.length ≤ 1 then
          .error "degenerate path"
        else if path.headD 0 = path.getLastD 0 then
          .ok (rest ++ [latest.dropLast ++ first])
        else
          let rest1 := if 1 < first.length then pyInsertIdx rest p1 first else rest
          let rest2 := if 1 < latest.length then pyInsertIdx rest1 (p1 + 1) latest else rest1
          .ok rest2
      else .error "Face does not exist"
  | _, _ => .error "Face does not exist"

/-- Embedding of LinkVertices.__find_up with both arguments given (links.py
151-173), shared verbatim by GuardVertices.__find_up_guard (guards.py
177-198).  When v1 lies in no path, p1 stays None and Python evaluates
links[None], raising an uncaught TypeError, modelled as the error case;
when the first occurrence of v1 is the last entry of its path the code
returns None (no face on that side). -/
def __find_up (links : Link) (v0 v1 : Nat) : Except String (Option (Nat × Nat × Nat)) :=
  match scanLinkFirst links v1 with
  | none => .error "TypeError: list indices must be integers, not NoneType"
  | some (p1, i1) =>
      let link := links.getD p1 []
      if i1 = link.length - 1 then .ok none
      else .ok (some (v0, v1, link.getD (i1 + 1) 0))

/-- Vertex record of the link-based structure (links.Vertex): its link paths.
The point payload is omitted here; no claim about this variant mentions it. -/
structure LVertex where
  links : Link := []
  deriving DecidableEq, Repr

/-- State of links.LinkVertices: the list of vertices.  Construction creates
the infinite vertex at index 0 (links.py 99-103). -/
structure LinkVertices where
  vertices : List LVertex := [⟨[]⟩]
  deriving DecidableEq, Repr

/-- Fresh link-variant structure, as built by LinkVertices.__init__. -/
def LinkVertices.init : LinkVertices := {}

/-- Link paths of vertex i. -/
def LinkVertices.links (s : LinkVertices) (i : Nat) : Link :=
  (s.vertices.getD i ⟨[]⟩).links

/-- Functional update of the link paths of vertex i. -/
def LinkVertices.setLinks (s : LinkVertices) (i : Nat) (l : Link) : LinkVertices :=
  ⟨s.vertices.modify (fun _ => ⟨l⟩) i⟩

/-- Embedding of LinkVertices.number_of_vertices. -/
def LinkVertices.number_of_vertices (s : LinkVertices) : Nat :=
  s.vertices.length

/-- Embedding of LinkVertices.create_vertex (links.py 194-196): the method
appends a fresh vertex and has no return statement, so its Python return
value is None; the second component models that returned object (an index
or None). -/
def LinkVertices.create_vertex (s : LinkVertices) : LinkVertices × Option Nat :=
  (⟨s.vertices ++ [⟨[]⟩]⟩, none)

/-- Embedding of LinkVertices.insert_face (links.py 198-220): three
extensions, one per rotation of the face. -/
def LinkVertices.insert_face (s : LinkVertices) (v0 v1 v2 : Nat) :
    Except String LinkVertices := do
  let l0 ← __insert_face (s.links v0) v1 v2
  let s := s.setLinks v0 l0
  let l1 ← __insert_face (s.links v1) v2 v0
  let s := s.setLinks v1 l1
  let l2 ← __insert_face (s.links v2) v0 v1
  return s.setLinks v2 l2

/-- Embedding of LinkVertices.remove_face (links.py 277-299). -/
def LinkVertices.remove_face (s : LinkVertices) (v0 v1 v2 : Nat) :
    Except String LinkVertices := do
  let l0 ← __remove_face (s.links v0) v1 v2
  let s := s.setLinks v0 l0
  let l1 ← __remove_face (s.links v1) v2 v0
  let s := s.setLinks v1 l1
  let l2 ← __remove_face (s.links v2) v0 v1
  return s.setLinks v2 l2

/-- Embedding of LinkVertices.neighbor (links.py 121-123). -/
def LinkVertices.neighbor (s : LinkVertices) (i : Nat) (f : List Nat) :
    Except String (Option (Nat × Nat × Nat)) :=
  __find_up (s.links (f.getD (cw i) 0)) (f.getD (cw i) 0) (f.getD (ccw i) 0)

/-- Value of guards.ORDINARY_VERTEX. -/
def ORDINARY_VERTEX : Nat := 0

/-- Value of guards.GUARD_VERTEX. -/
def GUARD_VERTEX : Nat := 1

/-- Value of guards.UNGUARDED_FACE. -/
def UNGUARDED_FACE : Nat := 0

/-- Vertex record of the guard-based structure (guards.Vertex): link paths,
guard set (a Python set of vertex indices, modelled as a duplicate-free
list) and status.  The point payload is omitted; no claim about this
variant mentions it. -/
structure GVertex where
  links : Link := []
  guards : List Nat := []
  status : Nat := ORDINARY_VERTEX
  deriving DecidableEq, Repr

/-- State of guards.GuardVertices.  Construction creates the infinite vertex
at index 0 with GUARD status (guards.py 130-135). -/
structure GuardVertices where
  vertices : List GVertex := [⟨[], [], GUARD_VERTEX⟩]
  deriving DecidableEq, Repr

/-- Fresh guard-variant structure, as built by GuardVertices.__init__. -/
def GuardVertices.init : GuardVertices := {}

/-- Vertex record at index i. -/
def GuardVertices.vertex (s : GuardVertices) (i : Nat) : GVertex :=
  s.vertices.getD i ⟨[], [], ORDINARY_VERTEX⟩

/-- Embedding of GuardVertices.number_of_vertices. -/
def GuardVertices.number_of_vertices (s : GuardVertices) : Nat :=
  s.vertices.length

/-- Functional update of the vertex record at index i. -/
def GuardVertices.setVertex (s : GuardVertices) (i : Nat) (f : GVertex → GVertex) :
    GuardVertices :=
  ⟨s.vertices.modify f i⟩

/-- Embedding of GuardVertices.create_vertex (guards.py 313-315): appends a
fresh ORDINARY vertex; the method has no return statement, so its Python
return value is None, modelled by the second component. -/
def GuardVertices.create_vertex (s : GuardVertices) : GuardVertices × Option Nat :=
  (⟨s.vertices ++ [⟨[], [], ORDINARY_VERTEX⟩]⟩, none)

/-- Embedding of GuardVertices.is_infinite with one argument. -/
def GuardVertices.is_infinite (v0 : Nat) : Bool := v0 == 0

/-- Embedding of GuardVertices.__incident_faces_to_guard (guards.py 336-344):
one face (a, path[i], path[i+1]) per consecutive pair of each path. -/
def GuardVertices.__incident_faces_to_guard (s : GuardVertices) (a : Nat) :
    List (Nat × Nat × Nat) :=
  (s.vertex a).links.flatMap (fun path =>
    (path.zip path.tail).map (fun bc => (a, bc.1, bc.2)))

/-- Embedding of GuardVertices.__incident_faces_to_ordinary (guards.py
318-332): faces of all guards of a, filtered to those containing a, each
rotated (by the first position of a in the triple) so that a comes first,
collected into a Python set, modelled as a duplicate-free list in insertion
order. -/
def GuardVertices.__incident_faces_to_ordinary (s : GuardVertices) (a : Nat) :
    List (Nat × Nat × Nat) :=
  let all_around := (s.vertex a).guards.flatMap
    (fun g => s.__incident_faces_to_guard g)
  all_around.foldl (fun acc face =>
    let f := [face.1, face.2.1, face.2.2]
    if a ∈ f then
      let i := f.indexOf a
      addSet acc (f.getD i 0, f.getD (ccw i) 0, f.getD (cw i) 0)
    else acc) []

/-- Embedding of GuardVertices.incident_faces (guards.py 346-354): dispatch
on the status of the vertex. -/
def GuardVertices.incident_faces (s : GuardVertices) (a : Nat) :
    List (Nat × Nat × Nat) :=
  if (s.vertex a).status = GUARD_VERTEX then s.__incident_faces_to_guard a
  else s.__incident_faces_to_ordinary a

/-- Embedding of GuardVertices.__insert_face_into_ordinary (guards.py
482-508): record in the guard set of v0 whichever of v1, v2 is a guard. -/
def GuardVertices.__insert_face_into_ordinary (s : GuardVertices) (v0 v1 v2 : Nat) :
    GuardVertices :=
  let s := if (s.vertex v1).status = GUARD_VERTEX then
    s.setVertex v0 (fun v => { v with guards := addSet v.guards v1 }) else s
  if (s.vertex v2).status = GUARD_VERTEX then
    s.setVertex v0 (fun v => { v with guards := addSet v.guards v2 }) else s

/-- Embedding of GuardVertices.__insert_face (guards.py 456-479): dispatch on
the status of v0. -/
def GuardVertices.__insert_face_dispatch (s : GuardVertices) (v0 v1 v2 : Nat) :
    GuardVertices :=
  if (s.vertex v0).status = ORDINARY_VERTEX then
    s.__insert_face_into_ordinary v0 v1 v2
  else
    s.setVertex v0 (fun v => { v with links := __insert_face_into_guard v.links v1 v2 })

/-- Broadcast step of the promotion in GuardVertices.insert_face (guards.py
444-448): the new guard i is added to the guard set of neighbor n when n is
ordinary. -/
def GuardVertices.addGuardTo (i : Nat) (s : GuardVertices) (n : Nat) : GuardVertices :=
  if (s.vertex n).status = ORDINARY_VERTEX then
    s.setVertex n (fun v => { v with guards := addSet v.guards i })
  else s

/-- Embedding of GuardVertices.insert_face (guards.py 394-454).  When the
face status (bitwise or of the three vertex statuses) is UNGUARDED the
promotion target is i = v0 (guards.py 424; the random / greedy choices are
commented out in the source): the faces incident to i are collected through
its guards, i becomes a GUARD, those faces are inserted into its empty link,
its guard set is cleared, and i is added to the guard set of every ordinary
vertex of its link.  Then the face is inserted into all three rotations. -/
def GuardVertices.insert_face (s : GuardVertices) (v0 v1 v2 : Nat) : GuardVertices :=
  let status := (s.vertex v0).status ||| (s.vertex v1).status ||| (s.vertex v2).status
  let s :=
    if status = UNGUARDED_FACE then
      let i := v0
      let faces := s.incident_faces i
      let s := s.setVertex i (fun v => { v with status := GUARD_VERTEX })
      let grown := faces.foldl (fun l f => __insert_face_into_guard l f.2.1 f.2.2)
        (s.vertex i).links
      let s := s.setVertex i (fun v => { v with links := grown })
      let s := s.setVertex i (fun v => { v with guards := [] })
      let neighbors := ((s.vertex i).links.flatMap id).dedup
      neighbors.foldl (GuardVertices.addGuardTo i) s
    else s
  let s := s.__insert_face_dispatch v0 v1 v2
  let s := s.__insert_face_dispatch v1 v2 v0
  s.__insert_face_dispatch v2 v0 v1

/-- Embedding of GuardVertices.__update_guard_set (guards.py 600-618): drop
from the guard set of (ordinary) v0 every entry that is no longer a guard
or whose link no longer contains v0. -/
def GuardVertices.__update_guard_set (s : GuardVertices) (v0 : Nat) : GuardVertices :=
  s.setVertex v0 (fun v =>
    { v with guards := v.guards.filter (fun g =>
        (s.vertex g).status = GUARD_VERTEX ∧
        (s.vertex g).links.any (fun path => path.contains v0)) })

/-- Embedding of GuardVertices.__remove_face_from_guard (guards.py 620-670):
the link-path surgery of the link variant, followed by demotion to ORDINARY
with a cleared link when the link set of a finite vertex becomes empty. -/
def GuardVertices.__remove_face_from_guard (s : GuardVertices) (v0 v1 v2 : Nat) :
    Except String GuardVertices := do
  let links ← __remove_face (s.vertex v0).links v1 v2
  let s := s.setVertex v0 (fun v => { v with links := links })
  if ¬ GuardVertices.is_infinite v0 ∧ links.length = 0 then
    return (s.setVertex v0 (fun v =>
      { v with status := ORDINARY_VERTEX, links := [] }))
  else
    return s

/-- Loop body of GuardVertices.remove_face (guards.py 589-593): position i
of the face f is either a GUARD, in which case the face is removed from its
link, or ordinary, in which case i is queued for the guard-set refresh. -/
def GuardVertices.removeStep (f : List Nat) (acc : GuardVertices × List Nat) (i : Nat) :
    Except String (GuardVertices × List Nat) :=
  if ((acc.1).vertex (f.getD i 0)).status = GUARD_VERTEX then do
    let s' ← acc.1.__remove_face_from_guard (f.getD i 0) (f.getD (ccw i) 0) (f.getD (cw i) 0)
    return (s', acc.2)
  else
    return (acc.1, acc.2 ++ [i])

/-- Embedding of GuardVertices.remove_face (guards.py 566-597): first remove
the face from each vertex of the face that is currently a GUARD (statuses
are read on the evolving state, in order i = 0,1,2), collecting the
positions of the ordinary ones; then refresh the guard set of each of those
ordinary vertices. -/
def GuardVertices.remove_face (s : GuardVertices) (v0 v1 v2 : Nat) :
    Except String GuardVertices := do
  let f := [v0, v1, v2]
  let (s, ords) ← [0, 1, 2].foldlM (GuardVertices.removeStep f) ((s, []) : GuardVertices × List Nat)
  return ords.foldl (fun s i => s.__update_guard_set (f.getD i 0)) s

/-- Python tuple swap points[i], points[j] = points[j], points[i] on a list;
out-of-range indices (which raise IndexError in Python and are unreachable
at every call site) leave the list unchanged. -/
def swapList (l : List α) (i j : Nat) : List α :=
  match l.get? i, l.get? j with
  | some a, some b => (l.set i b).set j a
  | _, _ => l

/-- Embedding of DelaunayTriangulation.__in_conflict (delaunay.py 330-368),
parameterized by the exact predicates (black boxes returning a sign, per the
specification) and by the vertex-to-point assignment pt.  For an infinite
face the triple is rotated by i = first position of vertex 0, giving the
pair (face[ccw i], face[cw i]).  When the orientation is negative in the
infinite case the Python function falls through and returns None, which is
falsy at its unique call site; the embedding returns false there. -/
def __in_conflict (orient : α → α → α → Int) (incircle : α → α → α → α → Int)
    (in_between : α → α → α → Bool) (pt : Nat → α) (p : α) (v0 v1 v2 : Nat) :
    Bool :=
  if v0 = 0 ∨ v1 = 0 ∨ v2 = 0 then
    let face := [v0, v1, v2]
    let i := face.indexOf 0
    let a := face.getD (ccw i) 0
    let b := face.getD (cw i) 0
    let s := orient (pt a) (pt b) p
    if 0 < s then true
    else if s = 0 then in_between (pt a) (pt b) p
    else false
  else
    0 ≤ incircle (pt v0) (pt v1) (pt v2) p

/-- Result of the bootstrap DelaunayTriangulation.__insert_first_three:
how many vertices were created, the insert_face calls it issued in order,
the points array after the position-2 swap, and the points assigned to
vertices 1, 2, 3. -/
structure BootResult (α : Type) where
  createdVertices : Nat
  facesInserted : List (Nat × Nat × Nat)
  points : List α
  assigned : α × α × α
  deriving DecidableEq, Repr

/-- Embedding of DelaunayTriangulation.__insert_first_three (delaunay.py
278-322): create three vertices; scan points[2..] for the first index i with
orient2d(points[0], points[1], points[i]) > 0; if none, retry with the two
roles swapped; if still none the assert at line 308 fails (error case);
otherwise swap the found point into position 2 (delaunay.py 310-311), insert
the faces (1,2,3), (0,2,1), (0,3,2), (0,1,3), and assign p0, p1, p2 to
vertices 1, 2, 3. -/
def __insert_first_three (orient : α → α → α → Int) (points : List α) :
    Except String (BootResult α) :=
  match points with
  | p0 :: p1 :: rest =>
      let scan1 := rest.findIdx? (fun q => 0 < orient p0 p1 q)
      let pick := match scan1 with
        | some j => some (p0, p1, j)
        | none =>
            match rest.findIdx? (fun q => 0 < orient p1 p0 q) with
            | some j => some (p1, p0, j)
            | none => none
      match pick with
      | none => .error "assert found == True"
      | some (q0, q1, j) =>
          let i := j + 2
          let pts := if i ≠ 2 then swapList points 2 i else points
          .ok { createdVertices := 3
                facesInserted := [(1, 2, 3), (0, 2, 1), (0, 3, 2), (0, 1, 3)]
                points := pts
                assigned := (q0, q1, rest.getD j q0) }
  | _ => .error "index out of range"

/-- Planar point as consumed by the BRIO kD-tree (geometry.Point plus the
optional integer identity of the data model).  Coordinates feed only order
comparisons and sign computations, so IEEE-754 doubles are modelled by Int. -/
structure Pt where
  x : Int
  y : Int
  id : Option Nat := none
  deriving DecidableEq, Repr

instance : Inhabited Pt := ⟨⟨0, 0, none⟩⟩

/-- Modelled from the spec: Point.set_id is called by KdTree.insert
(kdtree.py 135) but its definition is absent from src/ (geometry.Point has
no identity field there); per the data model a point carries an optional
integer identity assigned externally, so set_id stores that identity.  It
does not touch the coordinates. -/
def Pt.set_id (p : Pt) (i : Nat) : Pt := { p with id := some i }

/-- Geometric content of a point: its coordinate pair, without the mutable
identity. -/
def Pt.coords (p : Pt) : Int × Int := (p.x, p.y)

/-- Python p.coords[axis], with X_AXIS = 0 and Y_AXIS = 1. -/
def Pt.coordAlong (p : Pt) (axis : Nat) : Int := if axis = 0 then p.x else p.y

/-- Binary tree of kD-tree nodes: kdtree.Node stores a point and two
(possibly None) children; a leaf is a node whose children are both None. -/
inductive KdNode where
  | nil : KdNode
  | node (point : Pt) (left right : KdNode) : KdNode
  deriving DecidableEq, Repr

/-- Embedding of KdTree.__partition (kdtree.py 223-242), the Lomuto
partition of points[left..right] along an axis.  The initial random index
from randint(left, right+1) is supplied by the oracle pick; the pivot value
is read before the first swap.  Returns the updated list and the final
pivot position i + 1 (tracked as iNext = i + 1, since i starts at left-1). -/
def partitionStep (axis : Nat) (pivot : Pt) (acc : List Pt × Nat) (j : Nat) :
    List Pt × Nat :=
  if (acc.1.getD j default).coordAlong axis ≤ pivot.coordAlong axis then
    (swapList acc.1 acc.2 j, acc.2 + 1)
  else acc

def __partition (pickIdx : Nat) (axis : Nat) (pts : List Pt) (left right : Nat) :
    List Pt × Nat :=
  let pivot := pts.getD pickIdx default
  let pts1 := swapList pts pickIdx right
  let res := (List.range' left (right - left)).foldl (partitionStep axis pivot) (pts1, left)
  (swapList res.1 res.2 right, res.2)

/-- Embedding of KdTree.__select_median_along_axis (kdtree.py 195-221),
randomized quickselect for the i-th smallest along an axis inside
[left, right].  The Python recursion always terminates because the pivot
lies in [left, right]; the embedding carries fuel (any amount at least the
interval length suffices, see select_idx below) and returns the list
unchanged when it runs out, which no reachable call does.  The assert i == 1
of the left == right base case does not affect the returned value and holds
on every reachable call. -/
def __select_median (pick : Nat → Nat → Nat) (axis : Nat) :
    Nat → Nat → List Pt → Nat → Nat → List Pt × Nat
  | 0, _, pts, left, _ => (pts, left)
  | fuel + 1, i, pts, left, right =>
      if left = right then (pts, left)
      else
        let (pts1, pivot) := __partition (pick left right) axis pts left right
        let k := pivot - left
        if i < k + 1 then __select_median pick axis fuel i pts1 left (pivot - 1)
        else if k + 1 < i then
          __select_median pick axis fuel (i - k - 1) pts1 (pivot + 1) right
        else (pts1, pivot)

/-- Embedding of KdTree.__insert (kdtree.py 140-187): build the subtree of
points[begin..end), selecting the median ((n + n mod 2) / 2-th smallest;
the Python float division is exact here) along the longest axis of the
bounding box, storing it at the node, and recursing on [begin, median) and
(median, end) with the split boxes.  Fuel at least end - begin suffices for
every reachable call; when it runs out the embedding returns a None child. -/
def __insertKd (pick : Nat → Nat → Nat) :
    Nat → List Pt → Nat → Nat → Int × Int × Int × Int → KdNode × List Pt
  | 0, pts, _, _, _ => (.nil, pts)
  | fuel + 1, pts, begin_, end_, (xmin, ymin, xmax, ymax) =>
      let n := end_ - begin_
      if n = 1 then (.node (pts.getD begin_ default) .nil .nil, pts)
      else
        let axis := if ymax - ymin < xmax - xmin then 0 else 1
        let k := (n + n % 2) / 2
        let sel := __select_median pick axis (end_ - 1 - begin_ + 1) k pts begin_ (end_ - 1)
        let pts1 := sel.1
        let median := sel.2
        let m := pts1.getD median default
        let lbox := if axis = 0 then (xmin, ymin, m.x, ymax) else (xmin, ymin, xmax, m.y)
        let rbox := if axis = 0 then (m.x, ymin, xmax, ymax) else (xmin, m.y, xmax, ymax)
        let lres :=
          if begin_ < median then __insertKd pick fuel pts1 begin_ median lbox
          else (.nil, pts1)
        let rres :=
          if median + 1 < end_ then __insertKd pick fuel lres.2 (median + 1) end_ rbox
          else (.nil, lres.2)
        (.node m lres.1 rres.1, rres.2)

/-- Embedding of KdTree.__sort_inorder_alternating2 (kdtree.py 275-290).
Every call passes swap = 0 (the default; the swap = 1 branch is dead code
that would raise NameError), so the emission is: left subtree, node point,
reversed emission of the right subtree. -/
def __sort_inorder_alternating2 : KdNode → List Pt
  | .nil => []
  | .node p l r => __sort_inorder_alternating2 l ++ [p] ++ (__sort_inorder_alternating2 r).reverse

/-- Embedding of KdTree.sort (kdtree.py 317-329) together with KdTree.insert
(kdtree.py 128-138): assign identities 0, 1, ... to the block, fit the
bounding box (geometry.BoundingBox.fit starts from points[0]), build the
tree over [0, n) and emit the alternating in-order traversal.  The empty
block (on which Python raises IndexError inside fit) is unreachable: every
caller passes a block of size at least 2. -/
def KdTree.sort (pick : Nat → Nat → Nat) (points : List Pt) : List Pt :=
  match points with
  | [] => []
  | p :: rest =>
      let pts := points.enum.map (fun ip => ip.2.set_id ip.1)
      let xmin := rest.foldl (fun a q => min q.x a) p.x
      let ymin := rest.foldl (fun a q => min q.y a) p.y
      let xmax := rest.foldl (fun a q => max q.x a) p.x
      let ymax := rest.foldl (fun a q => max q.y a) p.y
      let res := __insertKd pick pts.length pts 0 pts.length (xmin, ymin, xmax, ymax)
      __sort_inorder_alternating2 res.1

/-- Embedding of the loop of Brio.__create_rounds (brio/__init__.py 90-99)
that fixes the size of each round: for i = r-1 down to 1 draw k from
Binomial(remaining, 1/2) - the oracle draws i clamped to its support - and
take it from the remaining count; round 0 receives the rest.  Returns
(final remaining, [k_1, ..., k_i]). -/
def drawLoop (draws : Nat → Nat) (rem : Nat) : Nat → Nat × List Nat
  | 0 => (rem, [])
  | j + 1 =>
      let k := min (draws (j + 1)) rem
      let (rem', ks) := drawLoop draws (rem - k) j
      (rem', ks ++ [k])

/-- Embedding of Brio.__create_rounds (brio/__init__.py 90-107): the list
sizes[0], ..., sizes[r-1] of round sizes, with r = floor(log2 n).  For an
input of fewer than two points the method fails: r = 0, the sizes array is
empty, and the store sizes[0] = n at line 99 raises IndexError (for n = 0
the conversion int(numpy.log2(0)) already overflows); the error case models
this.  The round ranges are the consecutive intervals of these sizes, left
to right. -/
def create_round_sizes (draws : Nat → Nat) (n : Nat) : Except String (List Nat) :=
  let r := Nat.log2 n
  if r = 0 then .error "index 0 is out of bounds"
  else
    let (rem, ks) := drawLoop draws n (r - 1)
    .ok (rem :: ks)

/-- Embedding of the loop of Brio.__brio_kdtree (brio/__init__.py 116-120):
each round range of size above 1 is replaced in place by its kD-tree sort,
with a fresh tree and fresh randomness (oracle component pick r for round
index r). -/
def applyRounds (pick : Nat → Nat → Nat → Nat) :
    Nat → List Nat → List Pt → List Pt
  | _, [], pts => pts
  | r, s :: rest, pts =>
      let block := pts.take s
      let blk := if 1 < s then KdTree.sort (pick r) block else block
      blk ++ applyRounds pick (r + 1) rest (pts.drop s)

/-- Embedding of Brio.__brio_kdtree (brio/__init__.py 112-122) as reached
through Brio.__call__ with BRIO_KDTREE: compute the rounds of the copied
input array and sort each round block of size at least 2 in place. -/
def __brio_kdtree (pick : Nat → Nat → Nat → Nat) (draws : Nat → Nat)
    (points : List Pt) : Except String (List Pt) :=
  (create_round_sizes draws points.length).map
    (fun sizes => applyRounds pick 0 sizes points)

/-! Basic lemmas about the state accessors. -/

theorem vertex_setVertex (s : GuardVertices) (i : Nat) (f : GVertex → GVertex) (j : Nat) :
    (s.setVertex i f).vertex j =
      if i = j ∧ i < s.vertices.length then f (s.vertex j) else s.vertex j := by
  unfold GuardVertices.setVertex GuardVertices.vertex
  show (s.vertices.modify f i).getD j _ = _
  rcases Nat.lt_or_ge i s.vertices.length with hi | hi
  · rcases Nat.decEq i j with h | h
    · simp [List.getD, List.getElem?_modify, h, hi]
    · subst h
      simp [List.getD, List.getElem?_modify, hi, List.getElem?_eq_getElem hi]
  · have : s.vertices.modify f i = s.vertices := by
      rw [List.modify_eq_set_get? f i, List.get?_eq_none.mpr hi]
      rfl
    simp [this, Nat.not_lt.mpr hi]

theorem length_setVertex (s : GuardVertices) (i : Nat) (f : GVertex → GVertex) :
    (s.setVertex i f).vertices.length = s.vertices.length := by
  simp [GuardVertices.setVertex]

/-! Claim C8: create_vertex. -/

/-- Claim C8, counterexample.  The claim states that create_vertex returns
the index of the newly created vertex; on the freshly constructed TDS of
either variant that index would be number_of_vertices = 1, but both Python
methods have no return statement and return None. -/
theorem create_vertex_no_index :
    (LinkVertices.init.create_vertex).2 ≠ some LinkVertices.init.number_of_vertices ∧
    (GuardVertices.init.create_vertex).2 ≠ some GuardVertices.init.number_of_vertices := by
  decide

/-- Claim C8, amended: in both variants create_vertex appends one fresh
vertex with an empty link (ordinary status and empty guard set in the guard
variant), detached from any face and leaving all existing vertices
untouched, increases number_of_vertices by exactly one, and returns None
(the index of the new vertex is the previous number_of_vertices, but it is
not returned). -/
theorem create_vertex_spec (s : LinkVertices) (g : GuardVertices) :
    (s.create_vertex).1.number_of_vertices = s.number_of_vertices + 1 ∧
    (s.create_vertex).1.links s.number_of_vertices = [] ∧
    (s.create_vertex).2 = none ∧
    (g.create_vertex).1.number_of_vertices = g.number_of_vertices + 1 ∧
    (g.create_vertex).1.vertex g.number_of_vertices = ⟨[], [], ORDINARY_VERTEX⟩ ∧
    (g.create_vertex).2 = none ∧
    (∀ i, i < s.number_of_vertices → (s.create_vertex).1.links i = s.links i) ∧
    (∀ i, i < g.number_of_vertices → (g.create_vertex).1.vertex i = g.vertex i) := by
  refine ⟨?_, ?_, rfl, ?_, ?_, rfl, ?_, ?_⟩
  · simp [LinkVertices.create_vertex, LinkVertices.number_of_vertices]
  · simp [LinkVertices.create_vertex, LinkVertices.number_of_vertices,
      LinkVertices.links, List.getD]
  · simp [GuardVertices.create_vertex, GuardVertices.number_of_vertices]
  · simp [GuardVertices.create_vertex, GuardVertices.number_of_vertices,
      GuardVertices.vertex, List.getD]
  · intro i hi
    have hi' : i < s.vertices.length := hi
    simp [LinkVertices.create_vertex, LinkVertices.links, List.getD,
      List.getElem?_append_left hi']
  · intro i hi
    have hi' : i < g.vertices.length := hi
    simp [GuardVertices.create_vertex, GuardVertices.vertex, List.getD,
      List.getElem?_append_left hi']

/-- Claim C8, witness for the amended theorem at the fresh states. -/
theorem create_vertex_spec_witness :
    (LinkVertices.init.create_vertex).1.links 0 = LinkVertices.init.links 0 ∧
    (GuardVertices.init.create_vertex).1.vertex 0 = GuardVertices.init.vertex 0 := by
  obtain ⟨-, -, -, -, -, -, hl, hg⟩ := create_vertex_spec LinkVertices.init GuardVertices.init
  exact ⟨hl 0 (by decide), hg 0 (by decide)⟩

/-! Claim C3: duplicate insertion and absent removal. -/

/-- Guard-variant structure with three created finite vertices. -/
def threeVertexGuardState : GuardVertices :=
  (((GuardVertices.init.create_vertex).1.create_vertex).1.create_vertex).1

/-- Guard-variant structure holding the single finite triangle (1,2,3) of the
guards.py docstring example: faces (0,2,1), (0,3,2), (0,1,3), (1,2,3). -/
def exampleGuardState : GuardVertices :=
  (((threeVertexGuardState.insert_face 0 2 1).insert_face 0 3 2).insert_face 0 1 3).insert_face 1 2 3

/-- Claim C3, counterexample.  In the guard variant, inserting the already
present face (1,2,3) again does not halt the program: insert_face returns
normally (its two link neighbors 2, 3 lie in the same path of the link of
guard 1 in a non-extreme configuration, which guards.py 560-564 handles by
logging a warning and skipping), leaving the state unchanged. -/
theorem insert_duplicate_face_guard_no_halt :
    exampleGuardState.insert_face 1 2 3 = exampleGuardState := by
  decide

/-- Claim C3, amended: in the link variant, insert_face with a face whose two
link neighbors lie in the same path in a configuration other than v1 ending
the path and v2 beginning it halts with a fatal assertion failure, but in
the guard variant the same configuration only logs a warning and leaves the
link unchanged; remove_face with a face that is absent (v1 and v2 not both
found in one common path of the link of v0; the surgery is shared verbatim
by both variants) halts with a fatal assertion failure. -/
theorem duplicate_insert_and_absent_remove (links : Link) (v1 v2 : Nat) :
    (∀ p1 i1 i2, scanLink links v1 = some (p1, i1) → scanLink links v2 = some (p1, i2) →
      ¬(i2 = 0 ∧ i1 + 1 = (links.getD p1 []).length) →
      (∃ e, __insert_face links v1 v2 = .error e) ∧
        __insert_face_into_guard links v1 v2 = links) ∧
    ((¬ ∃ p i1 i2, scanLink links v1 = some (p, i1) ∧ scanLink links v2 = some (p, i2)) →
      ∃ e, __remove_face links v1 v2 = .error e) := by
  constructor
  · intro p1 i1 i2 h1 h2 hno
    have hno' : ¬(i2 = 0 ∧ i1 + 1 = (links[p1]?.getD []).length) := by
      simpa [List.getD] using hno
    constructor
    · exact ⟨"can only join extreme neighbors", by simp [__insert_face, h1, h2, hno']⟩
    · simp [__insert_face_into_guard, h1, h2, hno']
  · intro habs
    rcases hs1 : scanLink links v1 with - | ⟨p1, i1⟩ <;>
      rcases hs2 : scanLink links v2 with - | ⟨p2, i2⟩
    · exact ⟨"Face does not exist", by simp [__remove_face, hs1, hs2]⟩
    · exact ⟨"Face does not exist", by simp [__remove_face, hs1, hs2]⟩
    · exact ⟨"Face does not exist", by simp [__remove_face, hs1, hs2]⟩
    · have hne : p1 ≠ p2 := by
        intro h
        exact habs ⟨p1, i1, i2, hs1, by rw [h]; exact hs2⟩
      exact ⟨"Face does not exist", by simp [__remove_face, hs1, hs2, hne]⟩

/-- Claim C3, witness for the amended theorem: the link [[2,3]] (face
(v,2,3) present): re-inserting (2,3) errors in the link variant and is
skipped in the guard variant; removing with v1 = 5 absent errors. -/
theorem duplicate_insert_and_absent_remove_witness :
    (∃ e, __insert_face [[2, 3]] 2 3 = .error e) ∧
    __insert_face_into_guard [[2, 3]] 2 3 = [[2, 3]] ∧
    (∃ e, __remove_face [[5, 3]] 2 3 = .error e) := by
  obtain ⟨hins, -⟩ := duplicate_insert_and_absent_remove [[2, 3]] 2 3
  obtain ⟨-, hrem⟩ := duplicate_insert_and_absent_remove [[5, 3]] 2 3
  obtain ⟨he, hg⟩ := hins 0 0 1 (by decide) (by decide) (by decide)
  refine ⟨he, hg, hrem ?_⟩
  rintro ⟨p, i1, i2, hp1, hp2⟩
  have hnone : scanLink [[5, 3]] 2 = none := by decide
  rw [hnone] at hp1
  simp at hp1

/-! Claim C1: the promotion policy of the guard-variant insert_face. -/

theorem mem_addSet_self [DecidableEq α] (l : List α) (x : α) : x ∈ addSet l x := by
  unfold addSet
  split <;> simp [*]

theorem mem_addSet_mono [DecidableEq α] {l : List α} {x : α} (y : α) (h : x ∈ l) :
    x ∈ addSet l y := by
  unfold addSet
  split <;> simp [h]

theorem addGuardTo_status (i : Nat) (s : GuardVertices) (n j : Nat) :
    ((s.addGuardTo i n).vertex j).status = (s.vertex j).status := by
  unfold GuardVertices.addGuardTo
  split
  · rw [vertex_setVertex]
    split <;> rfl
  · rfl

theorem addGuardTo_links (i : Nat) (s : GuardVertices) (n j : Nat) :
    ((s.addGuardTo i n).vertex j).links = (s.vertex j).links := by
  unfold GuardVertices.addGuardTo
  split
  · rw [vertex_setVertex]
    split <;> rfl
  · rfl

theorem addGuardTo_length (i : Nat) (s : GuardVertices) (n : Nat) :
    (s.addGuardTo i n).vertices.length = s.vertices.length := by
  unfold GuardVertices.addGuardTo
  split
  · exact length_setVertex ..
  · rfl

theorem addGuardTo_guards_mono (i : Nat) (s : GuardVertices) (n j g : Nat)
    (h : g ∈ ((s.vertex j).guards)) : g ∈ ((s.addGuardTo i n).vertex j).guards := by
  unfold GuardVertices.addGuardTo
  split
  · rw [vertex_setVertex]
    split
    · exact mem_addSet_mono _ h
    · exact h
  · exact h

theorem foldl_addGuardTo_status (i : Nat) (ns : List Nat) (s : GuardVertices) (j : Nat) :
    ((ns.foldl (GuardVertices.addGuardTo i) s).vertex j).status = (s.vertex j).status := by
  induction ns generalizing s with
  | nil => rfl
  | cons n ns ih => rw [List.foldl_cons, ih, addGuardTo_status]

theorem foldl_addGuardTo_links (i : Nat) (ns : List Nat) (s : GuardVertices) (j : Nat) :
    ((ns.foldl (GuardVertices.addGuardTo i) s).vertex j).links = (s.vertex j).links := by
  induction ns generalizing s with
  | nil => rfl
  | cons n ns ih => rw [List.foldl_cons, ih, addGuardTo_links]

theorem foldl_addGuardTo_length (i : Nat) (ns : List Nat) (s : GuardVertices) :
    (ns.foldl (GuardVertices.addGuardTo i) s).vertices.length = s.vertices.length := by
  induction ns generalizing s with
  | nil => rfl
  | cons n ns ih => rw [List.foldl_cons, ih, addGuardTo_length]

theorem foldl_addGuardTo_guards_mono (i : Nat) (ns : List Nat) (s : GuardVertices)
    (j g : Nat) (h : g ∈ (s.vertex j).guards) :
    g ∈ ((ns.foldl (GuardVertices.addGuardTo i) s).vertex j).guards := by
  induction ns generalizing s with
  | nil => exact h
  | cons n ns ih => exact ih _ (addGuardTo_guards_mono _ _ _ _ _ h)

theorem foldl_addGuardTo_mem (i : Nat) (ns : List Nat) (s : GuardVertices) (n : Nat)
    (hn : n ∈ ns) (hlen : n < s.vertices.length)
    (hord : (s.vertex n).status = ORDINARY_VERTEX) :
    i ∈ ((ns.foldl (GuardVertices.addGuardTo i) s).vertex n).guards := by
  induction ns generalizing s with
  | nil => cases hn
  | cons m ns ih =>
      rw [List.foldl_cons]
      rcases List.mem_cons.mp hn with rfl | hn'
      · apply foldl_addGuardTo_guards_mono
        unfold GuardVertices.addGuardTo
        rw [if_pos hord, vertex_setVertex, if_pos ⟨rfl, hlen⟩]
        exact mem_addSet_self _ _
      · exact ih _ hn' (by rw [addGuardTo_length]; exact hlen)
          (by rw [addGuardTo_status]; exact hord)

theorem foldl_addGuardTo_guards_of_guard (i : Nat) (ns : List Nat) (s : GuardVertices)
    (j : Nat) (hj : (s.vertex j).status ≠ ORDINARY_VERTEX) :
    ((ns.foldl (GuardVertices.addGuardTo i) s).vertex j).guards = (s.vertex j).guards := by
  induction ns generalizing s with
  | nil => rfl
  | cons n ns ih =>
      rw [List.foldl_cons, ih _ (by rw [addGuardTo_status]; exact hj)]
      unfold GuardVertices.addGuardTo
      split
      · rw [vertex_setVertex]
        split
        · rename_i hcond heq
          obtain ⟨rfl, -⟩ := heq
          exact absurd hcond hj
        · rfl
      · rfl

theorem into_ordinary_status (s : GuardVertices) (v0 v1 v2 j : Nat) :
    ((s.__insert_face_into_ordinary v0 v1 v2).vertex j).status = (s.vertex j).status := by
  have hst : ∀ (t : GuardVertices) (x : Nat),
      ((t.setVertex v0 (fun v => { v with guards := addSet v.guards x })).vertex j).status =
        (t.vertex j).status := by
    intro t x
    rw [vertex_setVertex]
    split <;> rfl
  simp only [GuardVertices.__insert_face_into_ordinary]
  split <;> split <;> simp [hst]

theorem into_ordinary_links (s : GuardVertices) (v0 v1 v2 j : Nat) :
    ((s.__insert_face_into_ordinary v0 v1 v2).vertex j).links = (s.vertex j).links := by
  have hst : ∀ (t : GuardVertices) (x : Nat),
      ((t.setVertex v0 (fun v => { v with guards := addSet v.guards x })).vertex j).links =
        (t.vertex j).links := by
    intro t x
    rw [vertex_setVertex]
    split <;> rfl
  simp only [GuardVertices.__insert_face_into_ordinary]
  split <;> split <;> simp [hst]

theorem into_ordinary_length (s : GuardVertices) (v0 v1 v2 : Nat) :
    (s.__insert_face_into_ordinary v0 v1 v2).vertices.length = s.vertices.length := by
  simp only [GuardVertices.__insert_face_into_ordinary]
  split <;> split <;> simp [length_setVertex]

theorem into_ordinary_guards_ne (s : GuardVertices) (v0 v1 v2 j : Nat) (hj : j ≠ v0) :
    ((s.__insert_face_into_ordinary v0 v1 v2).vertex j).guards = (s.vertex j).guards := by
  have hne : ∀ (t : GuardVertices) (f : GVertex → GVertex),
      ((t.setVertex v0 f).vertex j) = t.vertex j := by
    intro t f
    rw [vertex_setVertex]
    split
    · rename_i hc
      exact absurd hc.1.symm hj
    · rfl
  simp only [GuardVertices.__insert_face_into_ordinary]
  split <;> split <;> simp [hne]

theorem into_ordinary_guards_mono (s : GuardVertices) (v0 v1 v2 j g : Nat)
    (h : g ∈ (s.vertex j).guards) :
    g ∈ ((s.__insert_face_into_ordinary v0 v1 v2).vertex j).guards := by
  have step : ∀ (t : GuardVertices) (x : Nat), g ∈ (t.vertex j).guards →
      g ∈ ((t.setVertex v0 (fun v => { v with guards := addSet v.guards x })).vertex j).guards := by
    intro t x ht
    rw [vertex_setVertex]
    split
    · rename_i hc
      obtain ⟨rfl, -⟩ := hc
      exact mem_addSet_mono _ ht
    · exact ht
  simp only [GuardVertices.__insert_face_into_ordinary]
  split <;> split <;> first
    | exact h
    | exact step _ _ h
    | exact step _ _ (step _ _ h)

theorem dispatch_status (s : GuardVertices) (v0 v1 v2 j : Nat) :
    ((s.__insert_face_dispatch v0 v1 v2).vertex j).status = (s.vertex j).status := by
  unfold GuardVertices.__insert_face_dispatch
  split
  · exact into_ordinary_status ..
  · rw [vertex_setVertex]
    split <;> rfl

theorem dispatch_length (s : GuardVertices) (v0 v1 v2 : Nat) :
    (s.__insert_face_dispatch v0 v1 v2).vertices.length = s.vertices.length := by
  unfold GuardVertices.__insert_face_dispatch
  split
  · exact into_ordinary_length ..
  · exact length_setVertex ..

theorem dispatch_guards_ne (s : GuardVertices) (v0 v1 v2 j : Nat) (hj : j ≠ v0) :
    ((s.__insert_face_dispatch v0 v1 v2).vertex j).guards = (s.vertex j).guards := by
  unfold GuardVertices.__insert_face_dispatch
  split
  · exact into_ordinary_guards_ne _ _ _ _ _ hj
  · rw [vertex_setVertex]
    split <;> rfl

theorem dispatch_guards_mono (s : GuardVertices) (v0 v1 v2 j g : Nat)
    (h : g ∈ (s.vertex j).guards) :
    g ∈ ((s.__insert_face_dispatch v0 v1 v2).vertex j).guards := by
  unfold GuardVertices.__insert_face_dispatch
  split
  · exact into_ordinary_guards_mono _ _ _ _ _ _ h
  · rw [vertex_setVertex]
    split <;> exact h

theorem dispatch_guards_keep (s : GuardVertices) (v0 v1 v2 j : Nat)
    (hj : (s.vertex j).status = GUARD_VERTEX) :
    ((s.__insert_face_dispatch v0 v1 v2).vertex j).guards = (s.vertex j).guards := by
  rcases Nat.decEq j v0 with hne | rfl
  · exact dispatch_guards_ne _ _ _ _ _ hne
  · unfold GuardVertices.__insert_face_dispatch
    split
    · rename_i hc
      rw [hj] at hc
      exact absurd hc (by decide)
    · rw [vertex_setVertex]
      split <;> rfl

theorem dispatch_links_ne (s : GuardVertices) (v0 v1 v2 j : Nat) (hj : j ≠ v0) :
    ((s.__insert_face_dispatch v0 v1 v2).vertex j).links = (s.vertex j).links := by
  unfold GuardVertices.__insert_face_dispatch
  split
  · exact into_ordinary_links ..
  · rw [vertex_setVertex]
    split
    · rename_i hc
      exact absurd hc.1.symm hj
    · rfl

theorem dispatch_links_guard (s : GuardVertices) (v0 v1 v2 : Nat)
    (hg : (s.vertex v0).status = GUARD_VERTEX) (hlen : v0 < s.vertices.length) :
    ((s.__insert_face_dispatch v0 v1 v2).vertex v0).links =
      __insert_face_into_guard (s.vertex v0).links v1 v2 := by
  unfold GuardVertices.__insert_face_dispatch
  split
  · rename_i hc
    rw [hg] at hc
    exact absurd hc (by decide)
  · rw [vertex_setVertex, if_pos ⟨rfl, hlen⟩]

/-- Claim C1, counterexample.  On the fresh guard structure with three
created finite vertices, insert_face(2,1,3) finds all of 2, 1, 3 ORDINARY
with link degree 0, so the GREEDY policy of the claim (largest link degree,
ties broken by lowest index) would promote vertex 1; the code (guards.py
424: i = v0, the random and greedy choices being commented out) promotes
vertex 2 and leaves vertex 1 ORDINARY. -/
theorem promotion_is_not_greedy :
    ((threeVertexGuardState.insert_face 2 1 3).vertex 2).status = GUARD_VERTEX ∧
    ((threeVertexGuardState.insert_face 2 1 3).vertex 1).status = ORDINARY_VERTEX := by
  decide

/-- Claim C1, amended: when insert_face(v0,v1,v2) finds all three vertices
ORDINARY, the vertex promoted to GUARD is always v0, the first vertex of
the call (not the GREEDY choice); after promotion its incident faces
recovered via its existing guards are inserted into its newly-empty link,
its guard set is cleared, its index is added to the guard set of every
ordinary vertex appearing in its link, and finally the new face itself is
inserted, v1 and v2 keeping ORDINARY status. -/
theorem insert_face_unguarded_promotes_v0
    (s : GuardVertices) (v0 v1 v2 : Nat)
    (h0 : (s.vertex v0).status = ORDINARY_VERTEX)
    (h1 : (s.vertex v1).status = ORDINARY_VERTEX)
    (h2 : (s.vertex v2).status = ORDINARY_VERTEX)
    (h01 : v0 ≠ v1) (h02 : v0 ≠ v2)
    (hlen : v0 < s.vertices.length)
    (hL0 : (s.vertex v0).links = []) :
    ((s.insert_face v0 v1 v2).vertex v0).status = GUARD_VERTEX ∧
    ((s.insert_face v0 v1 v2).vertex v0).guards = [] ∧
    ((s.insert_face v0 v1 v2).vertex v0).links =
      __insert_face_into_guard
        ((s.__incident_faces_to_ordinary v0).foldl
          (fun l f => __insert_face_into_guard l f.2.1 f.2.2) []) v1 v2 ∧
    ((s.insert_face v0 v1 v2).vertex v1).status = ORDINARY_VERTEX ∧
    ((s.insert_face v0 v1 v2).vertex v2).status = ORDINARY_VERTEX ∧
    (∀ n, n < s.vertices.length → n ≠ v0 →
      (s.vertex n).status = ORDINARY_VERTEX →
      n ∈ ((s.__incident_faces_to_ordinary v0).foldl
          (fun l f => __insert_face_into_guard l f.2.1 f.2.2) []).flatMap id →
      v0 ∈ ((s.insert_face v0 v1 v2).vertex n).guards) := by
  have hstat : (s.vertex v0).status ||| (s.vertex v1).status ||| (s.vertex v2).status =
      UNGUARDED_FACE := by
    rw [h0, h1, h2]
    rfl
  have hfaces : s.incident_faces v0 = s.__incident_faces_to_ordinary v0 := by
    unfold GuardVertices.incident_faces
    rw [h0]
    simp [GUARD_VERTEX, ORDINARY_VERTEX]
  -- name the intermediate states of the promotion
  set s1 := s.setVertex v0 (fun v => { v with status := GUARD_VERTEX }) with hs1
  have hs1len : s1.vertices.length = s.vertices.length := length_setVertex ..
  have hv0s1 : s1.vertex v0 = { s.vertex v0 with status := GUARD_VERTEX } := by
    rw [hs1, vertex_setVertex, if_pos ⟨rfl, hlen⟩]
  set L := (s.__incident_faces_to_ordinary v0).foldl
    (fun l f => __insert_face_into_guard l f.2.1 f.2.2) [] with hLdef
  have hgrown : (s.incident_faces v0).foldl
      (fun l f => __insert_face_into_guard l f.2.1 f.2.2) (s1.vertex v0).links = L := by
    rw [hfaces, hv0s1]
    simp [hL0, hLdef]
  set grownval := (s.incident_faces v0).foldl
    (fun l f => __insert_face_into_guard l f.2.1 f.2.2) (s1.vertex v0).links with hgv
  set s2 := s1.setVertex v0 (fun v => { v with links := grownval }) with hs2
  set s3 := s2.setVertex v0 (fun v => { v with guards := [] }) with hs3
  have hs2len : s2.vertices.length = s.vertices.length := by
    rw [hs2, length_setVertex, hs1len]
  have hs3len : s3.vertices.length = s.vertices.length := by
    rw [hs3, length_setVertex, hs2len]
  have hv0s2 : s2.vertex v0 = { s.vertex v0 with status := GUARD_VERTEX, links := L } := by
    rw [hs2, vertex_setVertex, if_pos ⟨rfl, by rw [hs1len]; exact hlen⟩, hgrown, hv0s1]
  have hv0s3 : s3.vertex v0 =
      { s.vertex v0 with status := GUARD_VERTEX, links := L, guards := [] } := by
    rw [hs3, vertex_setVertex, if_pos ⟨rfl, by rw [hs2len]; exact hlen⟩, hv0s2]
  have hvjs3 : ∀ j, j ≠ v0 → s3.vertex j = s.vertex j := by
    intro j hj
    have hne : ∀ (t : GuardVertices) (f : GVertex → GVertex),
        (t.setVertex v0 f).vertex j = t.vertex j := by
      intro t f
      rw [vertex_setVertex]
      split
      · rename_i hc
        exact absurd hc.1.symm hj
      · rfl
    rw [hs3, hs2, hs1, hne, hne, hne]
  set ns := ((s3.vertex v0).links.flatMap id).dedup with hns
  set s4 := ns.foldl (GuardVertices.addGuardTo v0) s3 with hs4
  have hkey : s.insert_face v0 v1 v2 =
      ((s4.__insert_face_dispatch v0 v1 v2).__insert_face_dispatch v1 v2 v0).__insert_face_dispatch
        v2 v0 v1 := by
    unfold GuardVertices.insert_face
    rw [hstat]
    simp only [eq_self_iff_true, if_true]
  -- facts about the broadcast result s4
  have hs4v0 : s4.vertex v0 =
      { s.vertex v0 with status := GUARD_VERTEX, links := L, guards := [] } := by
    have hstat4 : (s4.vertex v0).status = (s3.vertex v0).status := foldl_addGuardTo_status ..
    have hlinks4 : (s4.vertex v0).links = (s3.vertex v0).links := foldl_addGuardTo_links ..
    have hguards4 : (s4.vertex v0).guards = (s3.vertex v0).guards := by
      apply foldl_addGuardTo_guards_of_guard
      rw [hv0s3]
      simp [GUARD_VERTEX, ORDINARY_VERTEX]
    rw [hv0s3] at hstat4 hlinks4 hguards4
    cases hv : s4.vertex v0
    rw [hv] at hstat4 hlinks4 hguards4
    simp_all
  have hs4len : s4.vertices.length = s.vertices.length := by
    rw [hs4, foldl_addGuardTo_length, hs3len]
  have hs4status : ∀ j, j ≠ v0 → (s4.vertex j).status = (s.vertex j).status := by
    intro j hj
    rw [hs4, foldl_addGuardTo_status, hvjs3 j hj]
  have hg4 : (s4.vertex v0).status = GUARD_VERTEX := by rw [hs4v0]
  -- dispatch of the face into the three vertices
  have hd1status : ∀ j, ((s4.__insert_face_dispatch v0 v1 v2).vertex j).status =
      (s4.vertex j).status := fun j => dispatch_status ..
  refine ⟨?_, ?_, ?_, ?_, ?_, ?_⟩
  · rw [hkey, dispatch_status, dispatch_status, dispatch_status, hs4v0]
  · rw [hkey, dispatch_guards_ne _ _ _ _ _ h02,
      dispatch_guards_ne _ _ _ _ _ h01,
      dispatch_guards_keep _ _ _ _ _ hg4, hs4v0]
  · rw [hkey, dispatch_links_ne _ _ _ _ _ h02,
      dispatch_links_ne _ _ _ _ _ h01,
      dispatch_links_guard _ _ _ _ hg4 (by rw [hs4len]; exact hlen), hs4v0]
  · rw [hkey, dispatch_status, dispatch_status, dispatch_status,
      hs4status v1 (Ne.symm h01), h1]
  · rw [hkey, dispatch_status, dispatch_status, dispatch_status,
      hs4status v2 (Ne.symm h02), h2]
  · intro n hn hnv0 hnord hnL
    rw [hkey]
    apply dispatch_guards_mono
    apply dispatch_guards_mono
    apply dispatch_guards_mono
    rw [hs4]
    apply foldl_addGuardTo_mem
    · rw [hns]
      have : (s3.vertex v0).links = L := by rw [hv0s3]
      rw [this]
      exact List.mem_dedup.mpr hnL
    · rw [hs3len]
      exact hn
    · rw [hvjs3 n hnv0]
      exact hnord

/-- Claim C1, witness for the amended theorem: inserting (1,2,3) into the
fresh three-vertex guard structure promotes vertex 1, the first of the
triple, and leaves vertex 2 ordinary. -/
theorem insert_face_unguarded_promotes_v0_witness :
    ((threeVertexGuardState.insert_face 1 2 3).vertex 1).status = GUARD_VERTEX ∧
    ((threeVertexGuardState.insert_face 1 2 3).vertex 2).status = ORDINARY_VERTEX := by
  obtain ⟨hg, -, -, ho, -, -⟩ := insert_face_unguarded_promotes_v0 threeVertexGuardState 1 2 3
    (by decide) (by decide) (by decide) (by decide) (by decide) (by decide) (by decide)
  exact ⟨hg, ho⟩

/-! Claim C9: the infinite vertex stays GUARD; empty finite guards demote. -/

theorem vertex_setVertex_ne (s : GuardVertices) (i : Nat) (f : GVertex → GVertex)
    (j : Nat) (h : i ≠ j) : (s.setVertex i f).vertex j = s.vertex j := by
  rw [vertex_setVertex]
  split
  · rename_i hc
    exact absurd hc.1 h
  · rfl

theorem setVertex_oob (s : GuardVertices) (i : Nat) (f : GVertex → GVertex)
    (h : s.vertices.length ≤ i) : s.setVertex i f = s := by
  unfold GuardVertices.setVertex
  rw [List.modify_eq_set_get? f i, List.get?_eq_none.mpr h]
  rfl

theorem vertex_oob (s : GuardVertices) (i : Nat) (h : s.vertices.length ≤ i) :
    s.vertex i = ⟨[], [], ORDINARY_VERTEX⟩ := by
  unfold GuardVertices.vertex
  simp [List.getD, List.getElem?_eq_none h]

theorem status_setVertex_guards (s : GuardVertices) (i j : Nat) (g : List Nat) :
    ((s.setVertex i (fun v => { v with guards := g })).vertex j).status =
      (s.vertex j).status := by
  rw [vertex_setVertex]
  split <;> rfl

theorem status_setVertex_links (s : GuardVertices) (i j : Nat) (l : Link) :
    ((s.setVertex i (fun v => { v with links := l })).vertex j).status =
      (s.vertex j).status := by
  rw [vertex_setVertex]
  split <;> rfl

theorem remove_from_guard_status0 (s : GuardVertices) (v0 v1 v2 : Nat)
    (s' : GuardVertices) (h : s.__remove_face_from_guard v0 v1 v2 = .ok s')
    (h0 : (s.vertex 0).status = GUARD_VERTEX) :
    (s'.vertex 0).status = GUARD_VERTEX := by
  unfold GuardVertices.__remove_face_from_guard at h
  rcases hrm : __remove_face (s.vertex v0).links v1 v2 with e | links
  · rw [hrm] at h
    exact absurd h (by simp [Bind.bind, Except.bind])
  · rw [hrm] at h
    simp only [Bind.bind, Except.bind] at h
    rcases Nat.decEq v0 0 with hv | hv
    · -- v0 ≠ 0: vertex 0 is never touched
      split at h <;> injection h with h <;> subst h
      · rw [vertex_setVertex_ne _ _ _ _ hv, vertex_setVertex_ne _ _ _ _ hv]
        exact h0
      · rw [vertex_setVertex_ne _ _ _ _ hv]
        exact h0
    · -- v0 = 0: the demotion branch is impossible (vertex 0 is infinite)
      subst hv
      split at h
      · rename_i hc
        exact absurd rfl hc.1
      · injection h with h
        subst h
        rw [status_setVertex_links]
        exact h0

theorem update_guard_set_status (s : GuardVertices) (v0 j : Nat) :
    ((s.__update_guard_set v0).vertex j).status = (s.vertex j).status := by
  unfold GuardVertices.__update_guard_set
  rw [vertex_setVertex]
  split <;> rfl

theorem removeStep_status0 (f : List Nat) (acc res : GuardVertices × List Nat) (i : Nat)
    (h : GuardVertices.removeStep f acc i = .ok res)
    (h0 : (acc.1.vertex 0).status = GUARD_VERTEX) :
    (res.1.vertex 0).status = GUARD_VERTEX := by
  unfold GuardVertices.removeStep at h
  split at h
  · rcases hrm : acc.1.__remove_face_from_guard (f.getD i 0) (f.getD (ccw i) 0) (f.getD (cw i) 0)
      with e | s'
    · rw [hrm] at h
      exact absurd h (by simp [Bind.bind, Except.bind])
    · rw [hrm] at h
      simp only [Bind.bind, Except.bind, pure, Except.pure] at h
      injection h with h
      subst h
      exact remove_from_guard_status0 _ _ _ _ _ hrm h0
  · simp only [pure, Except.pure] at h
    injection h with h
    subst h
    exact h0

theorem foldlM_removeStep_status0 (f : List Nat) (idxs : List Nat)
    (acc res : GuardVertices × List Nat)
    (h : idxs.foldlM (GuardVertices.removeStep f) acc = .ok res)
    (h0 : (acc.1.vertex 0).status = GUARD_VERTEX) :
    (res.1.vertex 0).status = GUARD_VERTEX := by
  induction idxs generalizing acc with
  | nil =>
      simp only [List.foldlM, pure, Except.pure] at h
      injection h with h
      subst h
      exact h0
  | cons i idxs ih =>
      simp only [List.foldlM_cons, Bind.bind, Except.bind] at h
      rcases hstep : GuardVertices.removeStep f acc i with e | acc2
      · rw [hstep] at h
        exact absurd h (by simp)
      · rw [hstep] at h
        exact ih _ h (removeStep_status0 _ _ _ _ hstep h0)

/-- Claim C9: vertex 0 has GUARD status at construction and keeps it across
every insert_face call and every successful remove_face call (it is never
demoted); and whenever __remove_face_from_guard leaves a finite vertex v0
with an empty link-path list, the vertex ends with ORDINARY status and a
cleared link. -/
theorem infinite_vertex_always_guard :
    ((GuardVertices.init.vertex 0).status = GUARD_VERTEX) ∧
    (∀ (s : GuardVertices) (v0 v1 v2 : Nat), (s.vertex 0).status = GUARD_VERTEX →
      ((s.insert_face v0 v1 v2).vertex 0).status = GUARD_VERTEX) ∧
    (∀ (s s' : GuardVertices) (v0 v1 v2 : Nat), s.remove_face v0 v1 v2 = .ok s' →
      (s.vertex 0).status = GUARD_VERTEX → (s'.vertex 0).status = GUARD_VERTEX) ∧
    (∀ (s s' : GuardVertices) (v0 v1 v2 : Nat), v0 ≠ 0 →
      s.__remove_face_from_guard v0 v1 v2 = .ok s' → (s'.vertex v0).links = [] →
      (s'.vertex v0).status = ORDINARY_VERTEX ∧ (s'.vertex v0).links = []) := by
  refine ⟨rfl, ?_, ?_, ?_⟩
  · intro s v0 v1 v2 h0
    unfold GuardVertices.insert_face
    simp only [dispatch_status]
    split
    · rw [foldl_addGuardTo_status]
      rcases Nat.decEq v0 0 with hv | hv
      · rw [vertex_setVertex_ne _ _ _ _ hv, vertex_setVertex_ne _ _ _ _ hv,
          vertex_setVertex_ne _ _ _ _ hv]
        exact h0
      · subst hv
        rw [status_setVertex_guards, status_setVertex_links]
        rcases Nat.lt_or_ge 0 s.vertices.length with hlt | hge
        · rw [vertex_setVertex, if_pos ⟨rfl, hlt⟩]
        · rw [setVertex_oob _ _ _ (by simpa using hge)]
          exact h0
    · exact h0
  · intro s s' v0 v1 v2 h h0
    unfold GuardVertices.remove_face at h
    simp only [Bind.bind, Except.bind] at h
    rcases hfold : [0, 1, 2].foldlM (GuardVertices.removeStep [v0, v1, v2]) (s, [])
      with e | acc
    · rw [hfold] at h
      exact absurd h (by simp)
    · rw [hfold] at h
      simp only [pure, Except.pure] at h
      injection h with h
      have hmid := foldlM_removeStep_status0 _ _ _ _ hfold h0
      subst h
      have hupd : ∀ (ords : List Nat) (t : GuardVertices),
          (t.vertex 0).status = GUARD_VERTEX →
          ((ords.foldl (fun u i => u.__update_guard_set ([v0, v1, v2].getD i 0)) t).vertex 0).status
            = GUARD_VERTEX := by
        intro ords
        induction ords with
        | nil => intro t ht; exact ht
        | cons o ords ih =>
            intro t ht
            rw [List.foldl_cons]
            exact ih _ (by rw [update_guard_set_status]; exact ht)
      exact hupd _ _ hmid
  · intro s s' v0 v1 v2 hv h hempty
    unfold GuardVertices.__remove_face_from_guard at h
    rcases hrm : __remove_face (s.vertex v0).links v1 v2 with e | links
    · rw [hrm] at h
      exact absurd h (by simp [Bind.bind, Except.bind])
    · rw [hrm] at h
      simp only [Bind.bind, Except.bind] at h
      refine ⟨?_, hempty⟩
      split at h
      · -- demotion branch
        injection h with h
        subst h
        rcases Nat.lt_or_ge v0 s.vertices.length with hlt | hge
        · rw [vertex_setVertex, if_pos ⟨rfl, by rw [length_setVertex]; exact hlt⟩]
        · rw [setVertex_oob _ _ _ (by rw [length_setVertex]; exact hge),
            setVertex_oob _ _ _ hge, vertex_oob _ _ hge]
      · -- no demotion: v0 finite forces a non-empty link, contradicting hempty
        rename_i hcond
        injection h with h
        subst h
        rcases Nat.lt_or_ge v0 s.vertices.length with hlt | hge
        · exfalso
          rw [vertex_setVertex, if_pos ⟨rfl, hlt⟩] at hempty
          simp only at hempty
          apply hcond
          constructor
          · simp [GuardVertices.is_infinite, hv]
          · rw [hempty]
            rfl
        · rw [setVertex_oob _ _ _ hge, vertex_oob _ _ hge]

/-- State reached from threeVertexGuardState by inserting face (1,2,3) and
then removing it from the link of guard vertex 1: vertex 1 has been demoted
back to ORDINARY with a cleared link. -/
def demotedGuardState : GuardVertices :=
  { vertices := [{ status := GUARD_VERTEX }, {}, { guards := [1] }, { guards := [1] }] }

/-- Claim C9, witness: concrete instances of the preservation and demotion
conjuncts.  Removing face (1,2,3) from the link of guard 1 leaves it with an
empty link, so vertex 1 is demoted to ORDINARY, while vertex 0 stays GUARD
through an insert_face call. -/
theorem infinite_vertex_always_guard_witness :
    ((threeVertexGuardState.insert_face 0 2 1).vertex 0).status = GUARD_VERTEX ∧
    ((threeVertexGuardState.insert_face 1 2 3).__remove_face_from_guard 1 2 3 =
      .ok demotedGuardState) ∧
    (demotedGuardState.vertex 1).status = ORDINARY_VERTEX := by
  refine ⟨infinite_vertex_always_guard.2.1 threeVertexGuardState 0 2 1 (by decide),
    by rfl, ?_⟩
  exact (infinite_vertex_always_guard.2.2.2
    (threeVertexGuardState.insert_face 1 2 3) demotedGuardState 1 2 3 (by decide)
    (by rfl) (by decide)).1

/-! Characterization of the link scans. -/

theorem filter_enumFrom_nil_iff (v : Nat) (L : List (List Nat)) (n : Nat) :
    (L.enumFrom n).filter (fun ip => ip.2.contains v) = [] ↔ ∀ p ∈ L, v ∉ p := by
  induction L generalizing n with
  | nil => simp
  | cons p t ih =>
      rw [List.enumFrom_cons]
      by_cases hp : v ∈ p
      · rw [List.filter_cons_of_pos (by simpa using hp)]
        simp [hp]
      · rw [List.filter_cons_of_neg (by simpa using hp)]
        rw [ih (n + 1)]
        constructor
        · intro h q hq
          rcases List.mem_cons.mp hq with rfl | hq'
          · exact hp
          · exact h q hq'
        · intro h q hq
          exact h q (List.mem_cons_of_mem _ hq)

theorem filter_enumFrom_unique (v : Nat) (L : List (List Nat)) (n pi : Nat)
    (hlt : pi < L.length) (hmem : v ∈ L[pi])
    (huniq : ∀ j (hj : j < L.length), v ∈ L[j] → j = pi) :
    (L.enumFrom n).filter (fun ip => ip.2.contains v) = [(n + pi, L[pi])] := by
  induction L generalizing n pi with
  | nil => exact absurd hlt (by simp)
  | cons p t ih =>
      rw [List.enumFrom_cons]
      by_cases hp : v ∈ p
      · have hpi0 : pi = 0 := (huniq 0 (by simp) (by simpa using hp)).symm
        subst hpi0
        rw [List.filter_cons_of_pos (by simpa using hp)]
        have htail : (t.enumFrom (n + 1)).filter (fun ip => ip.2.contains v) = [] := by
          rw [filter_enumFrom_nil_iff]
          intro q hq hv
          obtain ⟨j, hj, rfl⟩ := List.getElem_of_mem (l := t) hq
          have := huniq (j + 1) (by simpa using hj) (by simpa using hv)
          omega
        rw [htail]
        simp
      · have hpi : pi ≠ 0 := by
          intro h
          subst h
          exact hp (by simpa using hmem)
        obtain ⟨pi', rfl⟩ := Nat.exists_eq_succ_of_ne_zero hpi
        rw [List.filter_cons_of_neg (by simpa using hp)]
        have := ih (n + 1) pi' (by simpa using hlt) (by simpa using hmem)
          (fun j hj hv => by
            have := huniq (j + 1) (by simpa using hj) (by simpa using hv)
            omega)
        rw [this]
        simp only [List.cons.injEq, Prod.mk.injEq, and_true]
        exact ⟨by omega, by simp⟩

theorem scanLink_none_iff (L : Link) (v : Nat) :
    scanLink L v = none ↔ ∀ p ∈ L, v ∉ p := by
  unfold scanLink
  rw [Option.map_eq_none', List.getLast?_eq_none_iff,
    show L.enum = L.enumFrom 0 from rfl, filter_enumFrom_nil_iff]

theorem scanLinkFirst_none_iff (L : Link) (v : Nat) :
    scanLinkFirst L v = none ↔ ∀ p ∈ L, v ∉ p := by
  unfold scanLinkFirst
  rw [Option.map_eq_none', List.head?_eq_none_iff,
    show L.enum = L.enumFrom 0 from rfl, filter_enumFrom_nil_iff]

theorem scanLink_unique (L : Link) (v pi : Nat) (hlt : pi < L.length) (hmem : v ∈ L[pi])
    (huniq : ∀ j (hj : j < L.length), v ∈ L[j] → j = pi) :
    scanLink L v = some (pi, L[pi].indexOf v) ∧
    scanLinkFirst L v = some (pi, L[pi].indexOf v) := by
  unfold scanLink scanLinkFirst
  rw [show L.enum = L.enumFrom 0 from rfl,
    filter_enumFrom_unique v L 0 pi hlt hmem huniq]
  simp

theorem scanLinkFirst_some (L : Link) (v pi idx : Nat)
    (h : scanLinkFirst L v = some (pi, idx)) :
    ∃ hlt : pi < L.length, v ∈ L[pi] ∧ idx = L[pi].indexOf v := by
  unfold scanLinkFirst at h
  obtain ⟨⟨a, p⟩, hhead, hmap⟩ := Option.map_eq_some'.mp h
  simp only [Prod.mk.injEq] at hmap
  obtain ⟨rfl, rfl⟩ := hmap
  have hmem : (a, p) ∈ L.enum.filter (fun ip => ip.2.contains v) :=
    List.mem_of_mem_head? hhead
  have hfil := List.of_mem_filter hmem
  have henum := (List.mem_filter.mp hmem).1
  obtain ⟨-, hlt, hp⟩ := List.mem_enumFrom (by simpa using henum)
  simp only [Nat.zero_add, Nat.sub_zero] at hlt hp
  refine ⟨by simpa using hlt, ?_, ?_⟩
  · have hfil2 := hfil
    rw [hp] at hfil2
    simpa using hfil2
  · rw [hp]

theorem mem_of_getLast_opt {l : List Nat} {a : Nat} (h : l.getLast? = some a) : a ∈ l := by
  rw [List.getLast?_eq_getElem?] at h
  exact List.getElem?_mem h

theorem head_some_indexOf_zero {l : List Nat} {a : Nat} (h : l.head? = some a) :
    l.indexOf a = 0 := by
  cases l with
  | nil => cases h
  | cons b t =>
      injection h with h
      subst h
      simp

theorem getLast_opt_of_indexOf {l : List Nat} {a : Nat} (hm : a ∈ l)
    (h : l.indexOf a = l.length - 1) : l.getLast? = some a := by
  have hio : l.indexOf a < l.length := List.indexOf_lt_length.mpr hm
  rw [List.getLast?_eq_getElem?, ← h, List.getElem?_eq_getElem hio]
  rw [List.getElem_indexOf]

theorem indexOf_of_getLast_opt {l : List Nat} {a : Nat} (hn : l.Nodup)
    (h : l.getLast? = some a) : l.indexOf a = l.length - 1 := by
  have hm : a ∈ l := mem_of_getLast_opt h
  have hio : l.indexOf a < l.length := List.indexOf_lt_length.mpr hm
  have hne : l ≠ [] := by
    intro hnil
    rw [hnil] at hm
    cases hm
  have hlen : 0 < l.length := List.length_pos.mpr hne
  have hgl : l.get ⟨l.length - 1, by omega⟩ = a := by
    rw [List.getLast?_eq_getElem?, List.getElem?_eq_getElem (by omega)] at h
    exact Option.some.inj h
  have hidx : l.get ⟨l.indexOf a, hio⟩ = a := List.getElem_indexOf _
  exact (List.Nodup.getElem_inj_iff hn).mp (hidx.trans hgl.symm)

/-! Claim C10: the neighbor query on link paths. -/

/-- Claim C10: for a neighbor(i, f) query answered from the link paths of
v0 = f(cw i) (the link variant; guards in the guard variant answer through
the identical __find_up_guard), under the path well-formedness invariant
(each path has length at least 2 and is either duplicate-free or closed,
head equal to last) and with v1 = f(ccw i) occurring in at most one path:
the call returns None exactly when v1 is the last entry of an open path of
the link of v0 (the edge has no further face on that side); whereas when v1
occurs in no path the lookup does not return None but fails with an
uncaught TypeError (the path index is still None when used to subscript
the link list). -/
theorem neighbor_none_iff (s : LinkVertices) (i : Nat) (f : List Nat) (v0 v1 : Nat)
    (L : Link) (hv0 : v0 = f.getD (cw i) 0) (hv1 : v1 = f.getD (ccw i) 0)
    (hL : L = s.links v0)
    (hwf : ∀ p ∈ L, 2 ≤ p.length ∧ (p.Nodup ∨ p.head? = p.getLast?))
    (huniq : ∀ j k (hj : j < L.length) (hk : k < L.length),
      v1 ∈ L[j] → v1 ∈ L[k] → j = k) :
    ((∃ e, s.neighbor i f = .error e) ↔ ∀ p ∈ L, v1 ∉ p) ∧
    (s.neighbor i f = .ok none ↔
      ∃ p ∈ L, p.head? ≠ p.getLast? ∧ p.getLast? = some v1) := by
  subst hv0 hv1 hL
  unfold LinkVertices.neighbor __find_up
  rcases hscan : scanLinkFirst (s.links (f.getD (cw i) 0)) (f.getD (ccw i) 0)
    with - | ⟨p1, i1⟩
  · simp only [hscan]
    constructor
    · constructor
      · intro _
        exact (scanLinkFirst_none_iff _ _).mp hscan
      · intro _
        exact ⟨_, rfl⟩
    · constructor
      · intro h
        exact absurd h (by simp)
      · rintro ⟨p, hp, -, hlast⟩
        exfalso
        exact (scanLinkFirst_none_iff _ _).mp hscan p hp (mem_of_getLast_opt hlast)
  · obtain ⟨hlt, hmem, hidx⟩ := scanLinkFirst_some _ _ _ _ hscan
    simp only [hscan]
    set L := s.links (f.getD (cw i) 0) with hLs
    set v1 := f.getD (ccw i) 0 with hv1s
    have hgetD : L.getD p1 [] = L[p1] := by
      simp [List.getD, List.getElem?_eq_getElem hlt]
    rw [hgetD]
    have hiwf := hwf L[p1] (List.getElem_mem hlt)
    constructor
    · constructor
      · rintro ⟨e, he⟩
        split at he <;> exact absurd he (by simp)
      · intro hnone
        exact absurd hmem (hnone _ (List.getElem_mem hlt))
    · constructor
      · intro hok
        split at hok
        · rename_i hlen
          rw [hidx] at hlen
          refine ⟨L[p1], List.getElem_mem hlt, ?_, getLast_opt_of_indexOf hmem hlen⟩
          rcases hiwf.2 with hnodup | hclosed
          · -- an open nodup path: show head differs from last
            intro hho
            have hhead : L[p1].head? = some v1 :=
              hho.trans (getLast_opt_of_indexOf hmem hlen)
            have hzero := head_some_indexOf_zero hhead
            rw [hzero] at hlen
            have := hiwf.1
            omega
          · -- a closed path cannot answer None
            exfalso
            have hhead : L[p1].head? = some v1 :=
              hclosed.trans (getLast_opt_of_indexOf hmem hlen)
            have hzero := head_some_indexOf_zero hhead
            rw [hzero] at hlen
            have := hiwf.1
            omega
        · exact absurd hok (by simp)
      · rintro ⟨p, hp, hopen, hlast⟩
        obtain ⟨j, hj, rfl⟩ := List.getElem_of_mem hp
        have hj1 : j = p1 := huniq j p1 hj hlt (mem_of_getLast_opt hlast) hmem
        subst hj1
        have hnodup : L[j].Nodup := by
          rcases (hwf L[j] (List.getElem_mem hj)).2 with hnd | hcl
          · exact hnd
          · exact absurd hcl hopen
        rw [hidx, if_pos (indexOf_of_getLast_opt hnodup hlast)]

/-- Link-variant state holding only the finite face (1,2,3). -/
def linkTriangleOnly : LinkVertices :=
  { vertices := [⟨[]⟩, ⟨[[2, 3]]⟩, ⟨[[3, 1]]⟩, ⟨[[1, 2]]⟩] }

/-- Claim C10, witness: in the triangle-only state, the edge (3,2) has no
face on its side, so neighbor(0,[1,2,3]) is None; the query neighbor with
v1 = 5 absent from the link of vertex 3 raises the TypeError. -/
theorem neighbor_none_iff_witness :
    linkTriangleOnly.neighbor 0 [1, 2, 3] = .ok none ∧
    (∃ e, linkTriangleOnly.neighbor 0 [9, 5, 3] = .error e) := by
  constructor
  · refine (neighbor_none_iff linkTriangleOnly 0 [1, 2, 3] 3 2 (linkTriangleOnly.links 3)
      rfl rfl rfl (by decide) ?_).2.mpr ⟨[1, 2], by decide, by decide, by decide⟩
    intro j k hj hk _ _
    have h1 : (linkTriangleOnly.links 3).length = 1 := rfl
    omega
  · refine (neighbor_none_iff linkTriangleOnly 0 [9, 5, 3] 3 5 (linkTriangleOnly.links 3)
      rfl rfl rfl (by decide) ?_).1.mpr (by decide)
    intro j k hj hk _ _
    have h1 : (linkTriangleOnly.links 3).length = 1 := rfl
    omega

/-! Claim C6: the four-case link extension. -/

theorem insertIdx_eq_take_cons_drop (l : List α) (i : Nat) (x : α) (h : i ≤ l.length) :
    l.insertIdx i x = l.take i ++ x :: l.drop i := by
  induction l generalizing i with
  | nil =>
      have : i = 0 := by simpa using h
      subst this
      rfl
  | cons a t ih =>
      cases i with
      | zero => rfl
      | succ i =>
          rw [List.insertIdx_succ_cons, ih i (by simpa using h)]
          rfl

theorem pyInsertIdx_le (l : List α) (i : Nat) (x : α) (h : i ≤ l.length) :
    pyInsertIdx l i x = l.take i ++ x :: l.drop i := by
  unfold pyInsertIdx
  rw [Nat.min_eq_left h, insertIdx_eq_take_cons_drop _ _ _ h]

theorem mem_of_head_opt {l : List Nat} {a : Nat} (h : l.head? = some a) : a ∈ l := by
  cases l with
  | nil => cases h
  | cons b t =>
      injection h with h
      rw [← h]
      exact List.mem_cons_self _ _

/-- Claim C6: adding face (v0,v1,v2) to a link applies exactly one of four
cases as a function of where v1 and v2 occur, identically in
LinkVertices.__insert_face and GuardVertices.__insert_face_into_guard:
(i) neither occurs: a new path [v1,v2] is appended; (ii) only v1 occurs, at
index idx of path pi: v2 is inserted at position idx+1 of that path;
(ii-bis) only v2 occurs, at index idx of path pj: v1 is inserted at
position idx; (iii) they occur in two different paths, v1 ending its
(duplicate-free) path P and v2 beginning its path Q: the paths are spliced
into P ++ Q at the smaller position - so that v1 is immediately followed by
v2 - and the vacated path is deleted; (iv) they occur in the same path,
v1 as its last entry and v2 as its first: the path is closed into a cycle
by appending v2. -/
theorem link_extension_four_cases (L : Link) (v1 v2 : Nat) :
    ((∀ p ∈ L, v1 ∉ p) → (∀ p ∈ L, v2 ∉ p) →
      __insert_face L v1 v2 = .ok (L ++ [[v1, v2]]) ∧
      __insert_face_into_guard L v1 v2 = L ++ [[v1, v2]]) ∧
    (∀ pi idx (hlt : pi < L.length), v1 ∈ L[pi] → L[pi].indexOf v1 = idx →
      (∀ j (hj : j < L.length), v1 ∈ L[j] → j = pi) → (∀ p ∈ L, v2 ∉ p) →
      __insert_face L v1 v2 =
        .ok (L.modify (fun p => p.take (idx + 1) ++ v2 :: p.drop (idx + 1)) pi) ∧
      __insert_face_into_guard L v1 v2 =
        L.modify (fun p => p.take (idx + 1) ++ v2 :: p.drop (idx + 1)) pi) ∧
    (∀ pj idx (hlt : pj < L.length), v2 ∈ L[pj] → L[pj].indexOf v2 = idx →
      (∀ j (hj : j < L.length), v2 ∈ L[j] → j = pj) → (∀ p ∈ L, v1 ∉ p) →
      __insert_face L v1 v2 =
        .ok (L.modify (fun p => p.take idx ++ v1 :: p.drop idx) pj) ∧
      __insert_face_into_guard L v1 v2 =
        L.modify (fun p => p.take idx ++ v1 :: p.drop idx) pj) ∧
    (∀ pi pj (hi : pi < L.length) (hj : pj < L.length), pi ≠ pj →
      L[pi].Nodup → L[pi].getLast? = some v1 → L[pj].head? = some v2 →
      (∀ j (hjj : j < L.length), v1 ∈ L[j] → j = pi) →
      (∀ j (hjj : j < L.length), v2 ∈ L[j] → j = pj) →
      __insert_face L v1 v2 =
        .ok ((L.modify (fun _ => L[pi] ++ L[pj]) (min pi pj)).eraseIdx (max pi pj)) ∧
      __insert_face_into_guard L v1 v2 =
        (L.modify (fun _ => L[pi] ++ L[pj]) (min pi pj)).eraseIdx (max pi pj) ∧
      (L[pi] ++ L[pj]).getD (L[pi].length - 1) 0 = v1 ∧
      (L[pi] ++ L[pj]).getD L[pi].length 0 = v2) ∧
    (∀ pi (hi : pi < L.length), L[pi].Nodup → 2 ≤ L[pi].length →
      L[pi].getLast? = some v1 → L[pi].head? = some v2 →
      (∀ j (hjj : j < L.length), v1 ∈ L[j] → j = pi) →
      (∀ j (hjj : j < L.length), v2 ∈ L[j] → j = pi) →
      __insert_face L v1 v2 = .ok (L.modify (fun p => p ++ [v2]) pi) ∧
      __insert_face_into_guard L v1 v2 = L.modify (fun p => p ++ [v2]) pi) := by
  refine ⟨?_, ?_, ?_, ?_, ?_⟩
  · intro h1 h2
    have hs1 := (scanLink_none_iff L v1).mpr h1
    have hs2 := (scanLink_none_iff L v2).mpr h2
    constructor <;> simp [__insert_face, __insert_face_into_guard, hs1, hs2]
  · intro pi idx hlt hmem hidx huniq h2
    have hs1 := (scanLink_unique L v1 pi hlt hmem huniq).1
    rw [hidx] at hs1
    have hs2 := (scanLink_none_iff L v2).mpr h2
    have hle : idx + 1 ≤ L[pi].length := by
      rw [← hidx]
      exact List.indexOf_lt_length.mpr hmem
    have hmod : L.modify (fun p => pyInsertIdx p (idx + 1) v2) pi =
        L.modify (fun p => p.take (idx + 1) ++ v2 :: p.drop (idx + 1)) pi := by
      rw [List.modify_eq_set_get _ hlt, List.modify_eq_set_get _ hlt]
      rw [show (L.get ⟨pi, hlt⟩) = L[pi] from rfl, pyInsertIdx_le _ _ _ hle]
    constructor <;> simp [__insert_face, __insert_face_into_guard, hs1, hs2, hmod]
  · intro pj idx hlt hmem hidx huniq h1
    have hs2 := (scanLink_unique L v2 pj hlt hmem huniq).1
    rw [hidx] at hs2
    have hs1 := (scanLink_none_iff L v1).mpr h1
    have hle : idx ≤ L[pj].length := by
      rw [← hidx]
      exact Nat.le_of_lt (List.indexOf_lt_length.mpr hmem)
    have hmod : L.modify (fun p => pyInsertIdx p idx v1) pj =
        L.modify (fun p => p.take idx ++ v1 :: p.drop idx) pj := by
      rw [List.modify_eq_set_get _ hlt, List.modify_eq_set_get _ hlt]
      rw [show (L.get ⟨pj, hlt⟩) = L[pj] from rfl, pyInsertIdx_le _ _ _ hle]
    constructor <;> simp [__insert_face, __insert_face_into_guard, hs1, hs2, hmod]
  · intro pi pj hi hj hne hnodup hlast hhead huniq1 huniq2
    have hmem1 : v1 ∈ L[pi] := mem_of_getLast_opt hlast
    have hmem2 : v2 ∈ L[pj] := mem_of_head_opt hhead
    have hi1 : L[pi].indexOf v1 = L[pi].length - 1 := indexOf_of_getLast_opt hnodup hlast
    have hi2 : L[pj].indexOf v2 = 0 := head_some_indexOf_zero hhead
    have hs1 := (scanLink_unique L v1 pi hi hmem1 huniq1).1
    have hs2 := (scanLink_unique L v2 pj hj hmem2 huniq2).1
    rw [hi1] at hs1
    rw [hi2] at hs2
    have hP1 : 1 ≤ L[pi].length := by
      have := List.indexOf_lt_length.mpr hmem1
      omega
    have hgetDi : L.getD pi [] = L[pi] := by
      simp [List.getD, List.getElem?_eq_getElem hi]
    have hgetDj : L.getD pj [] = L[pj] := by
      simp [List.getD, List.getElem?_eq_getElem hj]
    have hfollow1 : (L[pi] ++ L[pj]).getD (L[pi].length - 1) 0 = v1 := by
      have hlt2 : L[pi].length - 1 < L[pi].length := by omega
      have := hlast
      rw [List.getLast?_eq_getElem?, List.getElem?_eq_getElem hlt2] at this
      injection this with hval
      simp [List.getD, List.getElem?_append_left hlt2, List.getElem?_eq_getElem hlt2, hval]
    have hfollow2 : (L[pi] ++ L[pj]).getD L[pi].length 0 = v2 := by
      have hne2 : L[pj] ≠ [] := by
        intro hnil
        rw [hnil] at hmem2
        cases hmem2
      have hlt0 : 0 < L[pj].length := List.length_pos.mpr hne2
      have hget : (L[pj]).get ⟨0, hlt0⟩ = v2 := by
        have := hhead
        rw [List.head?_eq_getElem?, List.getElem?_eq_getElem hlt0] at this
        exact Option.some.inj this
      have hval : L[pj][0] = v2 := hget
      have : (L[pi] ++ L[pj])[L[pi].length]? = L[pj][0]? := by
        rw [List.getElem?_append_right (Nat.le_refl _)]
        simp
      simp [List.getD, this, List.getElem?_eq_getElem hlt0, hval]
    rcases Nat.lt_or_ge pi pj with hlt | hge
    · have hmin : min pi pj = pi := Nat.min_eq_left (Nat.le_of_lt hlt)
      have hmax : max pi pj = pj := Nat.max_eq_right (Nat.le_of_lt hlt)
      refine ⟨?_, ?_, hfollow1, hfollow2⟩ <;>
        (simp [__insert_face, __insert_face_into_guard, hs1, hs2, hne, hlt, hmin, hmax];
          (congr 1;
           rw [List.modify_eq_set_get _ hi, List.modify_eq_set_get _ hi];
           congr 1;
           simp [Nat.sub_add_cancel hP1, List.getElem?_eq_getElem hj]))
    · have hlt2 : pj < pi := by omega
      have hmin : min pi pj = pj := Nat.min_eq_right (Nat.le_of_lt hlt2)
      have hmax : max pi pj = pi := Nat.max_eq_left (Nat.le_of_lt hlt2)
      have hnotlt : ¬ pi < pj := by omega
      refine ⟨?_, ?_, hfollow1, hfollow2⟩ <;>
        (simp [__insert_face, __insert_face_into_guard, hs1, hs2, hne, hnotlt, hmin, hmax];
          (congr 1;
           rw [List.modify_eq_set_get _ hj, List.modify_eq_set_get _ hj];
           congr 1;
           simp [List.getElem?_eq_getElem hi]))
  · intro pi hi hnodup hlen2 hlast hhead huniq1 huniq2
    have hmem1 : v1 ∈ L[pi] := mem_of_getLast_opt hlast
    have hmem2 : v2 ∈ L[pi] := mem_of_head_opt hhead
    have hi1 : L[pi].indexOf v1 = L[pi].length - 1 := indexOf_of_getLast_opt hnodup hlast
    have hi2 : L[pi].indexOf v2 = 0 := head_some_indexOf_zero hhead
    have hs1 := (scanLink_unique L v1 pi hi hmem1 huniq1).1
    have hs2 := (scanLink_unique L v2 pi hi hmem2 huniq2).1
    rw [hi1] at hs1
    rw [hi2] at hs2
    have hgetDi : L.getD pi [] = L[pi] := by
      simp [List.getD, List.getElem?_eq_getElem hi]
    have hcond : L[pi].length - 1 + 1 = (L.getD pi []).length := by
      rw [hgetDi]
      omega
    constructor <;>
      simp [__insert_face, __insert_face_into_guard, hs1, hs2, hcond]

/-- Claim C6, witness: the four cases at concrete links.  Case (i) on an
empty link, case (ii) with v1 = 2 inside [1,2], case (iii) splicing [1,2]
and [3,4] by the face edge (2,3), case (iv) closing [2,3,1] by the edge
(1,2). -/
theorem link_extension_four_cases_witness :
    __insert_face [] 1 2 = .ok [[1, 2]] ∧
    __insert_face [[1, 2]] 2 3 = .ok [[1, 2, 3]] ∧
    __insert_face [[1, 2], [3, 4]] 2 3 = .ok [[1, 2, 3, 4]] ∧
    __insert_face_into_guard [[2, 3, 1]] 1 2 = [[2, 3, 1, 2]] := by
  obtain ⟨h1, h2, -, h4, h5⟩ := link_extension_four_cases ([] : Link) 1 2
  obtain ⟨-, h2b, -, -, -⟩ := link_extension_four_cases [[1, 2]] 2 3
  obtain ⟨-, -, -, h4b, -⟩ := link_extension_four_cases [[1, 2], [3, 4]] 2 3
  obtain ⟨-, -, -, -, h5b⟩ := link_extension_four_cases [[2, 3, 1]] 1 2
  refine ⟨(h1 (by decide) (by decide)).1, ?_, ?_, ?_⟩
  · have := (h2b 0 1 (by decide) (by decide) (by decide) ?_ (by decide)).1
    · simpa using this
    · intro j hj _
      have hj1 : j < 1 := by simpa using hj
      omega
  · have := (h4b 0 1 (by decide) (by decide) (by decide) (by decide) (by decide) (by decide)
      ?_ ?_).1
    · simpa using this
    · intro j hj hm
      have hj2 : j < 2 := by simpa using hj
      interval_cases j
      · rfl
      · simp at hm
    · intro j hj hm
      have hj2 : j < 2 := by simpa using hj
      interval_cases j
      · simp at hm
      · rfl
  · have := (h5b 0 (by decide) (by decide) (by decide) (by decide) (by decide) ?_ ?_).2
    · simpa using this
    · intro j hj _
      have hj1 : j < 1 := by simpa using hj
      omega
    · intro j hj _
      have hj1 : j < 1 := by simpa using hj
      omega

/-! Claim C5: the conflict test. -/

/-- Specification-side conflict predicate of an infinite face: conflict iff
the orientation sign is positive, or zero with p between the two hull
points (spec, section on point location). -/
def conflictEdge (orient : α → α → α → Int) (in_between : α → α → α → Bool)
    (a b p : α) : Bool :=
  decide (0 < orient a b p) || (decide (orient a b p = 0) && in_between a b p)

/-- Specification-side restatement of the conflict test: a finite face is in
conflict iff incircle is nonnegative; an infinite face is rotated so that
vertex 0 comes last, leaving the ordered hull pair, and tested by
conflictEdge. -/
def in_conflict_specification (orient : α → α → α → Int)
    (incircle : α → α → α → α → Int) (in_between : α → α → α → Bool)
    (pt : Nat → α) (p : α) (v0 v1 v2 : Nat) : Bool :=
  if v0 = 0 then conflictEdge orient in_between (pt v1) (pt v2) p
  else if v1 = 0 then conflictEdge orient in_between (pt v2) (pt v0) p
  else if v2 = 0 then conflictEdge orient in_between (pt v0) (pt v1) p
  else decide (0 ≤ incircle (pt v0) (pt v1) (pt v2) p)

/-- Claim C5: on every face with pairwise-distinct vertices the conflict
test of delaunay.py 330-368 computes exactly the specification: finite face
(no vertex 0) iff incircle(v0,v1,v2,p) is nonnegative; infinite face
rotated so vertex 0 is last, conflict iff the orientation of the remaining
ordered pair with p is positive, or zero and p lies in between. -/
theorem in_conflict_matches_spec (orient : α → α → α → Int)
    (incircle : α → α → α → α → Int) (in_between : α → α → α → Bool)
    (pt : Nat → α) (p : α) (v0 v1 v2 : Nat)
    (h01 : v0 ≠ v1) (h02 : v0 ≠ v2) (h12 : v1 ≠ v2) :
    __in_conflict orient incircle in_between pt p v0 v1 v2 =
      in_conflict_specification orient incircle in_between pt p v0 v1 v2 := by
  by_cases h0 : v0 = 0
  · subst h0
    have h1 : v1 ≠ 0 := fun h => h01 h.symm
    have h2 : v2 ≠ 0 := fun h => h02 h.symm
    simp only [__in_conflict, in_conflict_specification, conflictEdge, ccw, cw,
      if_pos (Or.inl rfl), eq_self_iff_true, if_true]
    have hidx : ([0, v1, v2] : List Nat).indexOf 0 = 0 := by
      simp [List.indexOf_cons_eq]
    rw [hidx]
    by_cases hs : 0 < orient (pt v1) (pt v2) p
    · simp [hs, List.getD]
    · by_cases hz : orient (pt v1) (pt v2) p = 0
      · simp [hs, hz, List.getD]
      · simp [hs, hz, List.getD]
  · by_cases h1 : v1 = 0
    · subst h1
      have h2 : v2 ≠ 0 := fun h => h12 h.symm
      simp only [__in_conflict, in_conflict_specification, conflictEdge, ccw, cw,
        if_pos (Or.inr (Or.inl rfl)), if_neg h0, eq_self_iff_true, if_true]
      have hidx : ([v0, 0, v2] : List Nat).indexOf 0 = 1 := by
        simp [List.indexOf_cons_ne _ h0, List.indexOf_cons_eq]
      rw [hidx]
      by_cases hs : 0 < orient (pt v2) (pt v0) p
      · simp [hs, List.getD]
      · by_cases hz : orient (pt v2) (pt v0) p = 0
        · simp [hs, hz, List.getD]
        · simp [hs, hz, List.getD]
    · by_cases h2 : v2 = 0
      · subst h2
        simp only [__in_conflict, in_conflict_specification, conflictEdge, ccw, cw,
          if_pos (Or.inr (Or.inr rfl)), if_neg h0, if_neg h1, eq_self_iff_true,
          if_true]
        have hidx : ([v0, v1, 0] : List Nat).indexOf 0 = 2 := by
          simp [List.indexOf_cons_ne _ h0, List.indexOf_cons_ne _ h1,
            List.indexOf_cons_eq]
        rw [hidx]
        by_cases hs : 0 < orient (pt v0) (pt v1) p
        · simp [hs, List.getD]
        · by_cases hz : orient (pt v0) (pt v1) p = 0
          · simp [hs, hz, List.getD]
          · simp [hs, hz, List.getD]
      · simp [__in_conflict, in_conflict_specification, h0, h1, h2]

/-- Claim C5, witness: the characterization applied at the face (1, 2, 0)
of a concrete integer data set (orientation a + b - c, incircle a + b + c
- d, betweenness a ≤ c ≤ b, points pt n = n). -/
theorem in_conflict_matches_spec_witness :
    __in_conflict (fun a b c => a + b - c) (fun a b c d => a + b + c - d)
        (fun a b c => decide (a ≤ c ∧ c ≤ b)) (fun n => (n : Int)) 2 1 2 0 =
      in_conflict_specification (fun a b c => a + b - c)
        (fun a b c d => a + b + c - d)
        (fun a b c => decide (a ≤ c ∧ c ≤ b)) (fun n => (n : Int)) 2 1 2 0 :=
  in_conflict_matches_spec (fun a b c => a + b - c)
    (fun a b c d => a + b + c - d)
    (fun a b c => decide (a ≤ c ∧ c ≤ b)) (fun n => (n : Int)) 2 1 2 0
    (by decide) (by decide) (by decide)

/-! Claim C7: the bootstrap of the Bowyer-Watson insertion. -/

theorem findIdx_opt_eq_some_of_min (l : List α) (p : α → Bool) (j : Nat)
    (hj : j < l.length) (hpj : p (l.get ⟨j, hj⟩) = true)
    (hmin : ∀ k (hk : k < l.length), k < j → p (l.get ⟨k, hk⟩) = false) :
    l.findIdx? p = some j := by
  rw [List.findIdx?_eq_some_iff_findIdx_eq]
  refine ⟨hj, (List.findIdx_eq hj).mpr ⟨hpj, fun k hk => hmin k (by omega) hk⟩⟩

theorem findIdx_opt_eq_some_elim (l : List α) (p : α → Bool) (j : Nat)
    (h : l.findIdx? p = some j) : ∃ hj : j < l.length, p (l.get ⟨j, hj⟩) = true := by
  rw [List.findIdx?_eq_some_iff_findIdx_eq] at h
  obtain ⟨hj, hfi⟩ := h
  exact ⟨hj, ((List.findIdx_eq hj).mp hfi).1⟩

/-- Claim C7: for every point array p0 :: p1 :: rest and every orientation
predicate antisymmetric in its first two arguments, the bootstrap
(delaunay.py 278-322) (a) fails by the assert at line 308 exactly when every
remaining point is collinear with p0 and p1; (b) if j is the first index of
rest whose point q has orient(p0, p1, q) > 0, it creates 3 vertices, swaps
that point into position 2 of the array (delaunay.py 310-311, a no-op when
it is already there), inserts exactly the faces (1,2,3), (0,2,1), (0,3,2),
(0,1,3) in this order - vertex 0 first in each infinite face - and assigns
p0, p1, q to vertices 1, 2, 3; (c) if no such index exists, the two front
points swap roles and the same happens for the first j with
orient(p1, p0, rest j) > 0, vertices 1, 2, 3 receiving p1, p0, q. -/
theorem insert_first_three_characterization (orient : α → α → α → Int)
    (hanti : ∀ a b c, orient b a c = -orient a b c) (p0 p1 : α) (rest : List α) :
    (__insert_first_three orient (p0 :: p1 :: rest) = .error "assert found == True"
       ↔ ∀ q ∈ rest, orient p0 p1 q = 0) ∧
    (∀ j (hj : j < rest.length),
        0 < orient p0 p1 (rest.get ⟨j, hj⟩) →
        (∀ k (hk : k < rest.length), k < j → ¬ 0 < orient p0 p1 (rest.get ⟨k, hk⟩)) →
        __insert_first_three orient (p0 :: p1 :: rest) =
          .ok { createdVertices := 3,
                facesInserted := [(1, 2, 3), (0, 2, 1), (0, 3, 2), (0, 1, 3)],
                points := if j + 2 ≠ 2 then swapList (p0 :: p1 :: rest) 2 (j + 2)
                          else p0 :: p1 :: rest,
                assigned := (p0, p1, rest.get ⟨j, hj⟩) }) ∧
    (∀ j (hj : j < rest.length),
        (∀ q ∈ rest, ¬ 0 < orient p0 p1 q) →
        0 < orient p1 p0 (rest.get ⟨j, hj⟩) →
        (∀ k (hk : k < rest.length), k < j → ¬ 0 < orient p1 p0 (rest.get ⟨k, hk⟩)) →
        __insert_first_three orient (p0 :: p1 :: rest) =
          .ok { createdVertices := 3,
                facesInserted := [(1, 2, 3), (0, 2, 1), (0, 3, 2), (0, 1, 3)],
                points := if j + 2 ≠ 2 then swapList (p0 :: p1 :: rest) 2 (j + 2)
                          else p0 :: p1 :: rest,
                assigned := (p1, p0, rest.get ⟨j, hj⟩) }) := by
  refine ⟨?_, ?_, ?_⟩
  · rcases h1 : rest.findIdx? (fun q => decide (0 < orient p0 p1 q)) with - | j
    · rcases h2 : rest.findIdx? (fun q => decide (0 < orient p1 p0 q)) with - | j
      · have hall1 : ∀ q ∈ rest, ¬ 0 < orient p0 p1 q := by
          intro q hq
          have := List.findIdx?_eq_none_iff.mp h1 q hq
          simpa using this
        have hall2 : ∀ q ∈ rest, ¬ 0 < orient p1 p0 q := by
          intro q hq
          have := List.findIdx?_eq_none_iff.mp h2 q hq
          simpa using this
        simp only [__insert_first_three, h1, h2]
        constructor
        · intro _ q hq
          have ha := hall1 q hq
          have hb := hall2 q hq
          rw [hanti] at hb
          omega
        · intro _
          trivial
      · obtain ⟨hj, hpj⟩ := findIdx_opt_eq_some_elim _ _ _ h2
        simp only [decide_eq_true_eq] at hpj
        simp only [__insert_first_three, h1, h2]
        constructor
        · intro h; exact absurd h (by simp)
        · intro hcol
          have := hcol _ (List.get_mem rest j hj)
          rw [hanti] at hpj
          omega
    · obtain ⟨hj, hpj⟩ := findIdx_opt_eq_some_elim _ _ _ h1
      simp only [decide_eq_true_eq] at hpj
      simp only [__insert_first_three, h1]
      constructor
      · intro h; exact absurd h (by simp)
      · intro hcol
        have := hcol _ (List.get_mem rest j hj)
        omega
  · intro j hj hpos hmin
    have h1 : rest.findIdx? (fun q => decide (0 < orient p0 p1 q)) = some j := by
      refine findIdx_opt_eq_some_of_min _ _ _ hj (by simpa using hpos) ?_
      intro k hk hkj
      simpa using hmin k hk hkj
    simp only [__insert_first_three, h1]
    congr 1
    simp [List.getD, List.getElem?_eq_getElem hj]
  · intro j hj hall hpos hmin
    have h1 : rest.findIdx? (fun q => decide (0 < orient p0 p1 q)) = none := by
      rw [List.findIdx?_eq_none_iff]
      intro q hq
      simpa using hall q hq
    have h2 : rest.findIdx? (fun q => decide (0 < orient p1 p0 q)) = some j := by
      refine findIdx_opt_eq_some_of_min _ _ _ hj (by simpa using hpos) ?_
      intro k hk hkj
      simpa using hmin k hk hkj
    simp only [__insert_first_three, h1, h2]
    congr 1
    simp [List.getD, List.getElem?_eq_getElem hj]

/-- Claim C7, witness: orientation a, b, _ to a - b (antisymmetric in the
first two arguments) on the integer points [0, 1, 5]: the first scan finds
nothing, the rescan with the roles of the two front points swapped finds
index 0, which already sits at position 2, and vertices 1, 2, 3 receive
1, 0, 5. -/
theorem insert_first_three_characterization_witness :
    __insert_first_three (fun a b _ => a - b) ([0, 1, 5] : List Int) =
      .ok { createdVertices := 3,
            facesInserted := [(1, 2, 3), (0, 2, 1), (0, 3, 2), (0, 1, 3)],
            points := [0, 1, 5],
            assigned := ((1 : Int), 0, 5) } := by
  have h := (insert_first_three_characterization (fun a b _ => a - b)
      (fun a b c => by ring) 0 1 [5]).2.2 0 (by decide) (by decide) (by decide)
      (fun k hk hkj => absurd hkj (by omega))
  simpa using h

/-! Claim C2: the BRIO kD-tree reorderer.  The in-place swaps of the
partition, quickselect and tree construction are analysed through the
window relation winR below: equality outside a window of indices together
with a permutation of the window's slice. -/

theorem cons_set_perm : ∀ (xs : List α) (k : Nat) (hk : k < xs.length) (x : α),
    (xs.get ⟨k, hk⟩ :: xs.set k x).Perm (x :: xs)
  | y :: ys, 0, _, x => List.Perm.swap x y ys
  | y :: ys, k + 1, hk, x =>
      ((List.Perm.swap y (ys.get ⟨k, Nat.lt_of_succ_lt_succ hk⟩) (ys.set k x)).trans
        ((cons_set_perm ys k (Nat.lt_of_succ_lt_succ hk) x).cons y)).trans
        (List.Perm.swap x y ys)

theorem set_set_perm : ∀ (l : List α) (i j : Nat) (hi : i < l.length)
    (hj : j < l.length),
    ((l.set i (l.get ⟨j, hj⟩)).set j (l.get ⟨i, hi⟩)).Perm l
  | x :: xs, 0, 0, _, _ => by simp
  | x :: xs, 0, k + 1, hi, hj => by
      simpa using cons_set_perm xs k (Nat.lt_of_succ_lt_succ hj) x
  | x :: xs, m + 1, 0, hi, hj => by
      simpa using cons_set_perm xs m (Nat.lt_of_succ_lt_succ hi) x
  | x :: xs, m + 1, k + 1, hi, hj => by
      simpa using (set_set_perm xs m k (Nat.lt_of_succ_lt_succ hi)
        (Nat.lt_of_succ_lt_succ hj)).cons x

theorem swapList_perm (l : List α) (i j : Nat) : (swapList l i j).Perm l := by
  unfold swapList
  rcases hgi : l.get? i with - | a <;> rcases hgj : l.get? j with - | b
  · exact List.Perm.refl l
  · exact List.Perm.refl l
  · exact List.Perm.refl l
  · obtain ⟨hi, ha⟩ := List.get?_eq_some.mp hgi
    obtain ⟨hj, hb⟩ := List.get?_eq_some.mp hgj
    rw [← ha, ← hb]
    exact set_set_perm l i j hi hj

theorem swapList_length (l : List α) (i j : Nat) :
    (swapList l i j).length = l.length := by
  unfold swapList
  rcases l.get? i with - | a <;> rcases l.get? j with - | b <;> simp

theorem swapList_getElem_opt (l : List α) (i j : Nat) (hi : i < l.length)
    (hj : j < l.length) (k : Nat) :
    (swapList l i j)[k]? = if k = j then l[i]? else if k = i then l[j]? else l[k]? := by
  unfold swapList
  have hgi : l.get? i = some (l.get ⟨i, hi⟩) := by
    rw [List.get?_eq_getElem?, List.getElem?_eq_getElem hi]
    rfl
  have hgj : l.get? j = some (l.get ⟨j, hj⟩) := by
    rw [List.get?_eq_getElem?, List.getElem?_eq_getElem hj]
    rfl
  rw [hgi, hgj]
  show ((l.set i _).set j _)[k]? = _
  rcases Nat.decEq k j with hkj | hkj
  · rw [List.getElem?_set_ne (fun h => hkj h.symm)]
    rcases Nat.decEq k i with hki | hki
    · rw [List.getElem?_set_ne (fun h => hki h.symm), if_neg hkj, if_neg hki]
    · subst hki
      rw [List.getElem?_set_self (by simpa using hi), if_neg hkj, if_pos rfl,
        List.getElem?_eq_getElem hj]
      rfl
  · subst hkj
    rw [List.getElem?_set_self (by simpa using hj), if_pos rfl,
      List.getElem?_eq_getElem hi]
    rfl

/-- The slice of a list on the index window [a, b). -/
def winSlice (l : List α) (a b : Nat) : List α := (l.drop a).take (b - a)

theorem winSlice_getElem_opt (l : List α) (a b t : Nat) :
    (winSlice l a b)[t]? = if t < b - a then l[a + t]? else none := by
  unfold winSlice
  rw [List.getElem?_take]
  rcases Nat.decLt t (b - a) with h | h
  · rw [if_neg h, if_neg h]
  · rw [if_pos h, if_pos h, List.getElem?_drop]

theorem winSlice_length (l : List α) (a b : Nat) (hb : b ≤ l.length) (hab : a ≤ b) :
    (winSlice l a b).length = b - a := by
  unfold winSlice
  rw [List.length_take, List.length_drop]
  omega

theorem winSlice_full (l : List α) : winSlice l 0 l.length = l := by
  unfold winSlice
  simp

theorem winSlice_congr (l2 l : List α) (a b : Nat)
    (h : ∀ k, a ≤ k → k < b → l2[k]? = l[k]?) :
    winSlice l2 a b = winSlice l a b := by
  apply List.ext_getElem?
  intro t
  rw [winSlice_getElem_opt, winSlice_getElem_opt]
  rcases Nat.decLt t (b - a) with ht | ht
  · rw [if_neg ht, if_neg ht]
  · rw [if_pos ht, if_pos ht, h (a + t) (by omega) (by omega)]

theorem winSlice_split (l : List α) (a m b : Nat) (ham : a ≤ m) (hmb : m ≤ b) :
    winSlice l a b = winSlice l a m ++ winSlice l m b := by
  unfold winSlice
  have hb : b - a = (m - a) + (b - m) := by omega
  rw [hb, List.take_add, List.drop_drop]
  have hm : a + (m - a) = m := by omega
  rw [hm]

theorem winSlice_one (l : List α) (m : Nat) (hm : m < l.length) :
    winSlice l m (m + 1) = [l.get ⟨m, hm⟩] := by
  apply List.ext_getElem?
  intro t
  rw [winSlice_getElem_opt]
  rcases t with - | t
  · simp [List.getElem?_eq_getElem hm]
  · have : ¬ t + 1 < m + 1 - m := by omega
    rw [if_neg this]
    simp

/-- Window relation: l2 arises from l by a rearrangement confined to the
index window [a, b): equal lengths, equal entries outside the window, and
the window slices are permutations of one another. -/
def winR (l2 l : List α) (a b : Nat) : Prop :=
  l2.length = l.length ∧ (∀ k, k < a ∨ b ≤ k → l2[k]? = l[k]?) ∧
    (winSlice l2 a b).Perm (winSlice l a b)

theorem winR_refl (l : List α) (a b : Nat) : winR l l a b :=
  ⟨rfl, fun _ _ => rfl, List.Perm.refl _⟩

theorem winR_trans {l3 l2 l : List α} {a b : Nat} (h32 : winR l3 l2 a b)
    (h21 : winR l2 l a b) : winR l3 l a b :=
  ⟨h32.1.trans h21.1, fun k hk => (h32.2.1 k hk).trans (h21.2.1 k hk),
    h32.2.2.trans h21.2.2⟩

theorem winR_mono {l2 l : List α} {a b a2 b2 : Nat} (haa : a ≤ a2) (hab : a2 ≤ b2)
    (hbb : b2 ≤ b) (h : winR l2 l a2 b2) : winR l2 l a b := by
  obtain ⟨hlen, hout, hperm⟩ := h
  refine ⟨hlen, fun k hk => hout k (by omega), ?_⟩
  rw [winSlice_split l2 a a2 b haa (by omega), winSlice_split l2 a2 b2 b hab hbb,
    winSlice_split l a a2 b haa (by omega), winSlice_split l a2 b2 b hab hbb]
  have h1 : winSlice l2 a a2 = winSlice l a a2 :=
    winSlice_congr _ _ _ _ (fun k hk1 hk2 => hout k (by omega))
  have h2 : winSlice l2 b2 b = winSlice l b2 b :=
    winSlice_congr _ _ _ _ (fun k hk1 hk2 => hout k (by omega))
  rw [h1, h2]
  exact (hperm.append_right _).append_left _

theorem winR_perm {l2 l : List α} (h : winR l2 l 0 l.length) : l2.Perm l := by
  obtain ⟨hlen, -, hperm⟩ := h
  rw [winSlice_full l] at hperm
  rw [← hlen] at hperm
  rw [winSlice_full l2] at hperm
  exact hperm

theorem swapList_winR (l : List α) (i j a b : Nat) (hai : a ≤ i) (hib : i < b)
    (haj : a ≤ j) (hjb : j < b) (hbl : b ≤ l.length) :
    winR (swapList l i j) l a b := by
  have hi : i < l.length := by omega
  have hj : j < l.length := by omega
  refine ⟨swapList_length l i j, ?_, ?_⟩
  · intro k hk
    rw [swapList_getElem_opt l i j hi hj k, if_neg (by omega), if_neg (by omega)]
  · have hlen2 : (swapList l i j).length = l.length := swapList_length l i j
    have hsl : winSlice (swapList l i j) a b = swapList (winSlice l a b) (i - a) (j - a) := by
      apply List.ext_getElem?
      intro t
      have hwl : (winSlice l a b).length = b - a := winSlice_length l a b hbl (by omega)
      rw [winSlice_getElem_opt]
      rcases Nat.decLt t (b - a) with ht | ht
      · rw [if_neg ht]
        rw [List.getElem?_eq_none]
        rw [swapList_length, hwl]
        omega
      · rw [if_pos ht]
        rw [swapList_getElem_opt l i j hi hj,
          swapList_getElem_opt (winSlice l a b) (i - a) (j - a) (by omega) (by omega) t,
          winSlice_getElem_opt, winSlice_getElem_opt, winSlice_getElem_opt]
        rcases Nat.decEq (a + t) j with h1 | h1
        · rcases Nat.decEq (a + t) i with h2 | h2
          · rw [if_neg h1, if_neg h2, if_neg (by omega), if_neg (by omega), if_pos ht]
          · rw [if_neg h1, if_pos h2, if_neg (by omega), if_pos (by omega),
              if_pos (by omega)]
            have : a + (j - a) = j := by omega
            rw [this]
        · rw [if_pos h1, if_pos (by omega), if_pos (by omega)]
          have : a + (i - a) = i := by omega
          rw [this]
    rw [hsl]
    exact swapList_perm _ _ _

theorem fold_partitionStep_winR (axis : Nat) (pivot : Pt) (pts0 : List Pt)
    (left right : Nat) (hr : right < pts0.length) :
    ∀ (m s : Nat) (acc : List Pt × Nat), left ≤ s → s + m ≤ right →
      left ≤ acc.2 → acc.2 ≤ s → winR acc.1 pts0 left (right + 1) →
      winR ((List.range' s m).foldl (partitionStep axis pivot) acc).1 pts0 left
          (right + 1) ∧
        left ≤ ((List.range' s m).foldl (partitionStep axis pivot) acc).2 ∧
        ((List.range' s m).foldl (partitionStep axis pivot) acc).2 ≤ s + m := by
  intro m
  induction m with
  | zero =>
      intro s acc h1 h2 h3 h4 h5
      simpa using ⟨h5, h3, h4⟩
  | succ m ih =>
      intro s acc h1 h2 h3 h4 h5
      rw [List.range'_succ, List.foldl_cons]
      rcases acc with ⟨cur, iN⟩
      have hlen : cur.length = pts0.length := h5.1
      by_cases hcond : (cur.getD s default).coordAlong axis ≤ pivot.coordAlong axis
      · have hstep : partitionStep axis pivot (cur, iN) s = (swapList cur iN s, iN + 1) := by
          unfold partitionStep
          dsimp only
          rw [if_pos hcond]
        rw [hstep]
        have hsw : winR (swapList cur iN s) cur left (right + 1) :=
          swapList_winR cur iN s left (right + 1) h3 (by omega) (by omega)
            (by omega) (by omega)
        obtain ⟨hA, hB, hC⟩ := ih (s + 1) (swapList cur iN s, iN + 1) (by omega)
          (by omega) (by omega) (by omega) (winR_trans hsw h5)
        exact ⟨hA, hB, by omega⟩
      · have hstep : partitionStep axis pivot (cur, iN) s = (cur, iN) := by
          unfold partitionStep
          dsimp only
          rw [if_neg hcond]
        rw [hstep]
        obtain ⟨hA, hB, hC⟩ := ih (s + 1) (cur, iN) (by omega) (by omega) h3
          (by omega) h5
        exact ⟨hA, hB, by omega⟩

theorem partition_winR (pickIdx axis : Nat) (pts : List Pt) (left right : Nat)
    (hpl : left ≤ pickIdx) (hpr : pickIdx ≤ right) (hr : right < pts.length) :
    winR (__partition pickIdx axis pts left right).1 pts left (right + 1) ∧
      left ≤ (__partition pickIdx axis pts left right).2 ∧
      (__partition pickIdx axis pts left right).2 ≤ right := by
  simp only [__partition]
  have h0 : winR (swapList pts pickIdx right) pts left (right + 1) :=
    swapList_winR pts pickIdx right left (right + 1) hpl (by omega) (by omega)
      (by omega) (by omega)
  obtain ⟨hA, hB, hC⟩ := fold_partitionStep_winR axis (pts.getD pickIdx default)
    pts left right hr (right - left) left (swapList pts pickIdx right, left)
    (Nat.le_refl _) (by omega) (Nat.le_refl _) (Nat.le_refl _) h0
  have hlenA : ((List.range' left (right - left)).foldl
      (partitionStep axis (pts.getD pickIdx default))
      (swapList pts pickIdx right, left)).1.length = pts.length := hA.1
  refine ⟨winR_trans ?_ hA, hB, by omega⟩
  exact swapList_winR _ _ _ left (right + 1) hB (by omega) (by omega) (by omega)
    (by omega)

theorem select_winR (pick : Nat → Nat → Nat) (axis : Nat)
    (hpick : ∀ l u, l ≤ u → l ≤ pick l u ∧ pick l u ≤ u) :
    ∀ (fuel i : Nat) (pts : List Pt) (left right : Nat),
      left ≤ right → right < pts.length → 1 ≤ i → i ≤ right - left + 1 →
      right - left + 1 ≤ fuel →
      winR (__select_median pick axis fuel i pts left right).1 pts left (right + 1) ∧
        left ≤ (__select_median pick axis fuel i pts left right).2 ∧
        (__select_median pick axis fuel i pts left right).2 ≤ right := by
  intro fuel
  induction fuel with
  | zero =>
      intro i pts left right h1 h2 h3 h4 h5
      exfalso
      omega
  | succ fuel ih =>
      intro i pts left right h1 h2 h3 h4 h5
      simp only [__select_median]
      by_cases heq : left = right
      · rw [if_pos heq]
        exact ⟨winR_refl _ _ _, Nat.le_refl _, h1⟩
      · rw [if_neg heq]
        have hlr2 : left < right := Nat.lt_of_le_of_ne h1 heq
        obtain ⟨hpl, hpr⟩ := hpick left right h1
        rcases hPP : __partition (pick left right) axis pts left right with ⟨pts1, pivot⟩
        obtain ⟨hW1, hlo1, hhi1⟩ :=
          partition_winR (pick left right) axis pts left right hpl hpr h2
        rw [hPP] at hW1 hlo1 hhi1
        dsimp only at hW1 hlo1 hhi1
        dsimp only
        have hlen1 : pts1.length = pts.length := hW1.1
        by_cases hc1 : i < pivot - left + 1
        · rw [if_pos hc1]
          have hk : 1 ≤ pivot - left := by omega
          obtain ⟨hA, hB, hC⟩ := ih i pts1 left (pivot - 1) (by omega) (by omega)
            h3 (by omega) (by omega)
          exact ⟨winR_trans (winR_mono (Nat.le_refl left) (by omega) (by omega) hA) hW1,
            hB, by omega⟩
        · rw [if_neg hc1]
          by_cases hc2 : pivot - left + 1 < i
          · rw [if_pos hc2]
            obtain ⟨hA, hB, hC⟩ := ih (i - (pivot - left) - 1) pts1 (pivot + 1) right
              (by omega) (by omega) (by omega) (by omega) (by omega)
            exact ⟨winR_trans (winR_mono (by omega) (by omega) (by omega) hA) hW1,
              by omega, hC⟩
          · rw [if_neg hc2]
            exact ⟨hW1, hlo1, hhi1⟩

theorem insertKd_child (pick : Nat → Nat → Nat) (fuel : Nat)
    (hrec : ∀ (pts : List Pt) (b e : Nat) (box : Int × Int × Int × Int),
        b < e → e ≤ pts.length → e - b ≤ fuel →
        winR (__insertKd pick fuel pts b e box).2 pts b e ∧
          (__sort_inorder_alternating2 (__insertKd pick fuel pts b e box).1).Perm
            (winSlice (__insertKd pick fuel pts b e box).2 b e))
    (pts1 : List Pt) (a c : Nat) (box : Int × Int × Int × Int)
    (res : KdNode × List Pt)
    (hres : (if a < c then __insertKd pick fuel pts1 a c box else (.nil, pts1)) = res)
    (hac : a ≤ c) (hcl : c ≤ pts1.length) (hfuel : c - a ≤ fuel) :
    winR res.2 pts1 a c ∧
      (__sort_inorder_alternating2 res.1).Perm (winSlice res.2 a c) := by
  by_cases h : a < c
  · rw [if_pos h] at hres
    rw [← hres]
    exact hrec pts1 a c box h hcl hfuel
  · rw [if_neg h] at hres
    rw [← hres]
    have hca : a = c := by omega
    refine ⟨winR_refl _ _ _, ?_⟩
    have hslice : winSlice pts1 a c = [] := by
      unfold winSlice
      rw [show c - a = 0 from by omega]
      rfl
    dsimp only
    rw [hslice]
    exact List.Perm.refl _

theorem insertKd_winR (pick : Nat → Nat → Nat)
    (hpick : ∀ l u, l ≤ u → l ≤ pick l u ∧ pick l u ≤ u) :
    ∀ (fuel : Nat) (pts : List Pt) (b e : Nat) (box : Int × Int × Int × Int),
      b < e → e ≤ pts.length → e - b ≤ fuel →
      winR (__insertKd pick fuel pts b e box).2 pts b e ∧
        (__sort_inorder_alternating2 (__insertKd pick fuel pts b e box).1).Perm
          (winSlice (__insertKd pick fuel pts b e box).2 b e) := by
  intro fuel
  induction fuel with
  | zero =>
      intro pts b e box h1 h2 h3
      exfalso
      omega
  | succ fuel ih =>
      intro pts b e box h1 h2 h3
      rcases box with ⟨xmin, ymin, xmax, ymax⟩
      simp only [__insertKd]
      by_cases hn1 : e - b = 1
      · rw [if_pos hn1]
        dsimp only
        refine ⟨winR_refl _ _ _, ?_⟩
        have hb : b < pts.length := by omega
        have he : e = b + 1 := by omega
        rw [he, winSlice_one pts b hb]
        simp only [__sort_inorder_alternating2, List.reverse_nil, List.append_nil,
          List.nil_append]
        have hgd : pts.getD b default = pts.get ⟨b, hb⟩ := by
          simp [List.getD, List.getElem?_eq_getElem hb]
        rw [hgd]
      · rw [if_neg hn1]
        have hn2 : 2 ≤ e - b := by omega
        rcases hS : __select_median pick (if ymax - ymin < xmax - xmin then 0 else 1)
            (e - 1 - b + 1) ((e - b + (e - b) % 2) / 2) pts b (e - 1) with ⟨pts1, median⟩
        have hsel := select_winR pick (if ymax - ymin < xmax - xmin then 0 else 1)
          hpick (e - 1 - b + 1) ((e - b + (e - b) % 2) / 2) pts b (e - 1)
          (by omega) (by omega) (by omega) (by omega) (by omega)
        rw [hS] at hsel
        dsimp only at hsel
        obtain ⟨hW1, hmlo, hmhi⟩ := hsel
        have hWin1 : winR pts1 pts b e := by
          have hE : e - 1 + 1 = e := by omega
          rw [hE] at hW1
          exact hW1
        have hlen1 : pts1.length = pts.length := hWin1.1
        dsimp only
        rcases hL : (if b < median then
            __insertKd pick fuel pts1 b median
              (if (if ymax - ymin < xmax - xmin then 0 else 1) = 0 then
                (xmin, ymin, (pts1.getD median default).x, ymax)
              else (xmin, ymin, xmax, (pts1.getD median default).y))
          else (KdNode.nil, pts1)) with ⟨ltree, pts2⟩
        have hLc := insertKd_child pick fuel ih pts1 b median _ (ltree, pts2) hL
          hmlo (by omega) (by omega)
        dsimp only at hLc
        obtain ⟨hW2, hT2⟩ := hLc
        have hlen2 : pts2.length = pts1.length := hW2.1
        dsimp only
        rcases hR : (if median + 1 < e then
            __insertKd pick fuel pts2 (median + 1) e
              (if (if ymax - ymin < xmax - xmin then 0 else 1) = 0 then
                ((pts1.getD median default).x, ymin, xmax, ymax)
              else (xmin, (pts1.getD median default).y, xmax, ymax))
          else (KdNode.nil, pts2)) with ⟨rtree, pts3⟩
        have hRc := insertKd_child pick fuel ih pts2 (median + 1) e _ (rtree, pts3) hR
          (by omega) (by omega) (by omega)
        dsimp only at hRc
        obtain ⟨hW3, hT3⟩ := hRc
        have hlen3 : pts3.length = pts2.length := hW3.1
        dsimp only
        have hm2 : pts2[median]? = pts1[median]? :=
          hW2.2.1 median (Or.inr (Nat.le_refl median))
        have hm3 : pts3[median]? = pts2[median]? := hW3.2.1 median (Or.inl (by omega))
        have hWfinal : winR pts3 pts b e :=
          winR_trans (winR_mono (by omega) (by omega) (by omega) hW3)
            (winR_trans (winR_mono (Nat.le_refl b) hmlo (by omega) hW2) hWin1)
        refine ⟨hWfinal, ?_⟩
        have hmb3 : median < pts3.length := by omega
        have hsplit1 : winSlice pts3 b e =
            winSlice pts3 b (median + 1) ++ winSlice pts3 (median + 1) e :=
          winSlice_split pts3 b (median + 1) e (by omega) (by omega)
        have hsplit2 : winSlice pts3 b (median + 1) =
            winSlice pts3 b median ++ winSlice pts3 median (median + 1) :=
          winSlice_split pts3 b median (median + 1) hmlo (by omega)
        have hone : winSlice pts3 median (median + 1) = [pts1.getD median default] := by
          rw [winSlice_one pts3 median hmb3]
          have hval : pts3[median]? = some (pts3.get ⟨median, hmb3⟩) :=
            List.getElem?_eq_getElem hmb3
          have hm1 : median < pts1.length := by omega
          have hval1 : pts1[median]? = some (pts1.get ⟨median, hm1⟩) :=
            List.getElem?_eq_getElem hm1
          have hgd : pts1.getD median default = pts1.get ⟨median, hm1⟩ := by
            simp [List.getD, List.getElem?_eq_getElem hm1]
          rw [hgd]
          have : some (pts3.get ⟨median, hmb3⟩) = some (pts1.get ⟨median, hm1⟩) := by
            rw [← hval, hm3, hm2, hval1]
          rw [Option.some.inj this]
        have hleft : winSlice pts3 b median = winSlice pts2 b median :=
          winSlice_congr _ _ _ _ (fun k hk1 hk2 => hW3.2.1 k (Or.inl (by omega)))
        rw [hsplit1, hsplit2, hone, hleft]
        simp only [__sort_inorder_alternating2]
        refine List.Perm.append ?_ ((List.reverse_perm _).trans hT3)
        refine List.Perm.append hT2 ?_
        exact List.Perm.refl _

theorem sort_coords_perm (pick : Nat → Nat → Nat)
    (hpick : ∀ l u, l ≤ u → l ≤ pick l u ∧ pick l u ≤ u) (points : List Pt) :
    ((KdTree.sort pick points).map Pt.coords).Perm (points.map Pt.coords) := by
  cases points with
  | nil => simp [KdTree.sort]
  | cons p rest =>
      simp only [KdTree.sort]
      set PTS := (p :: rest).enum.map (fun ip => ip.2.set_id ip.1) with hPTS
      set BOX := (rest.foldl (fun a q => min q.x a) p.x,
        rest.foldl (fun a q => min q.y a) p.y,
        rest.foldl (fun a q => max q.x a) p.x,
        rest.foldl (fun a q => max q.y a) p.y) with hBOX
      have hplen : PTS.length = (p :: rest).length := by
        rw [hPTS]
        simp
      have hpos : 0 < PTS.length := by
        rw [hplen]
        simp
      rcases hK : __insertKd pick PTS.length PTS 0 PTS.length BOX with ⟨tree, ptsF⟩
      obtain ⟨hW, hT⟩ := insertKd_winR pick hpick PTS.length PTS 0 PTS.length BOX
        hpos (Nat.le_refl _) (by omega)
      rw [hK] at hW hT
      dsimp only at hW hT
      have hlenF : ptsF.length = PTS.length := hW.1
      have hfull : winSlice ptsF 0 PTS.length = ptsF := by
        unfold winSlice
        rw [List.drop_zero, Nat.sub_zero, ← hlenF, List.take_length]
      rw [hfull] at hT
      have hperm2 : ptsF.Perm PTS := winR_perm hW
      have hperm3 : (__sort_inorder_alternating2 tree).Perm PTS := hT.trans hperm2
      have hmap : PTS.map Pt.coords = (p :: rest).map Pt.coords := by
        rw [hPTS, List.map_map]
        have hco : (Pt.coords ∘ fun ip : Nat × Pt => ip.2.set_id ip.1) =
            (Pt.coords ∘ Prod.snd) := by
          funext ip
          rfl
        rw [hco, ← List.map_map, List.enum_map_snd]
      rw [← hmap]
      exact hperm3.map Pt.coords

theorem applyRounds_coords_perm (pick : Nat → Nat → Nat → Nat)
    (hpick : ∀ r l u, l ≤ u → l ≤ pick r l u ∧ pick r l u ≤ u) :
    ∀ (sizes : List Nat) (r : Nat) (pts : List Pt),
      ((applyRounds pick r sizes pts).map Pt.coords).Perm (pts.map Pt.coords) := by
  intro sizes
  induction sizes with
  | nil =>
      intro r pts
      simp [applyRounds]
  | cons s rest ih =>
      intro r pts
      simp only [applyRounds]
      rw [List.map_append]
      have hblk : ((if 1 < s then KdTree.sort (pick r) (pts.take s)
          else pts.take s).map Pt.coords).Perm ((pts.take s).map Pt.coords) := by
        by_cases h : 1 < s
        · rw [if_pos h]
          exact sort_coords_perm (pick r) (hpick r) (pts.take s)
        · rw [if_neg h]
      refine (List.Perm.append hblk (ih (r + 1) (pts.drop s))).trans ?_
      rw [← List.map_append, List.take_append_drop]

theorem drawLoop_sum (draws : Nat → Nat) : ∀ (j rem : Nat),
    (drawLoop draws rem j).1 + ((drawLoop draws rem j).2).sum = rem := by
  intro j
  induction j with
  | zero =>
      intro rem
      simp [drawLoop]
  | succ j ih =>
      intro rem
      simp only [drawLoop]
      rcases hD : drawLoop draws (rem - min (draws (j + 1)) rem) j with ⟨rem2, ks⟩
      have hsum := ih (rem - min (draws (j + 1)) rem)
      rw [hD] at hsum
      dsimp only at hsum ⊢
      rw [List.sum_append]
      have hmin : min (draws (j + 1)) rem ≤ rem := Nat.min_le_right _ _
      simp only [List.sum_cons, List.sum_nil]
      omega

theorem create_round_sizes_sum (draws : Nat → Nat) (n : Nat) (hn : 2 ≤ n) :
    ∃ sizes, create_round_sizes draws n = .ok sizes ∧ sizes.sum = n := by
  have hr : Nat.log2 n ≠ 0 := by
    have h1 : 1 ≤ Nat.log2 n := by
      rw [Nat.log2]
      simp [hn]
    omega
  simp only [create_round_sizes, if_neg hr]
  rcases hD : drawLoop draws n (Nat.log2 n - 1) with ⟨rem, ks⟩
  refine ⟨rem :: ks, rfl, ?_⟩
  have hsum := drawLoop_sum draws (Nat.log2 n - 1) n
  rw [hD] at hsum
  dsimp only at hsum
  simpa using hsum

/-- Claim C2: for every input of at least two points, and every pivot
oracle that answers randint(left, right + 1) inside its support, the BRIO
kD-tree reorderer succeeds and returns a permutation of its input: the
round sizes sum to the input length, the output is the concatenation of
the per-round blocks (applyRounds), each block of size at least 2 being
replaced by its kD-tree sort, and the whole output is a permutation of the
whole input at the level of point coordinates (KdTree.insert stamps the
points with fresh identities in place, which is Point mutation, not
reordering).  Modelled from the spec: Point.set_id itself has no definition
in src/. -/
theorem brio_kdtree_permutation (pick : Nat → Nat → Nat → Nat)
    (draws : Nat → Nat) (points : List Pt)
    (hpick : ∀ r l u, l ≤ u → l ≤ pick r l u ∧ pick r l u ≤ u)
    (hn : 2 ≤ points.length) :
    ∃ sizes, create_round_sizes draws points.length = .ok sizes ∧
      sizes.sum = points.length ∧
      __brio_kdtree pick draws points = .ok (applyRounds pick 0 sizes points) ∧
      ((applyRounds pick 0 sizes points).map Pt.coords).Perm
        (points.map Pt.coords) ∧
      (applyRounds pick 0 sizes points).length = points.length := by
  obtain ⟨sizes, hok, hsum⟩ := create_round_sizes_sum draws points.length hn
  refine ⟨sizes, hok, hsum, ?_, ?_, ?_⟩
  · simp only [__brio_kdtree, hok]
    rfl
  · exact applyRounds_coords_perm pick hpick sizes 0 points
  · have hlen := (applyRounds_coords_perm pick hpick sizes 0 points).length_eq
    simpa using hlen

/-- Claim C2, witness: the always-leftmost pivot oracle and the
all-zero binomial oracle on a concrete two-point input. -/
theorem brio_kdtree_permutation_witness :
    ∃ sizes, create_round_sizes (fun _ => 0)
        ([⟨0, 0, none⟩, ⟨1, 1, none⟩] : List Pt).length = .ok sizes ∧
      sizes.sum = ([⟨0, 0, none⟩, ⟨1, 1, none⟩] : List Pt).length ∧
      __brio_kdtree (fun _ l _ => l) (fun _ => 0) [⟨0, 0, none⟩, ⟨1, 1, none⟩] =
        .ok (applyRounds (fun _ l _ => l) 0 sizes [⟨0, 0, none⟩, ⟨1, 1, none⟩]) ∧
      ((applyRounds (fun _ l _ => l) 0 sizes
          [⟨0, 0, none⟩, ⟨1, 1, none⟩]).map Pt.coords).Perm
        (([⟨0, 0, none⟩, ⟨1, 1, none⟩] : List Pt).map Pt.coords) ∧
      (applyRounds (fun _ l _ => l) 0 sizes
          [⟨0, 0, none⟩, ⟨1, 1, none⟩]).length =
        ([⟨0, 0, none⟩, ⟨1, 1, none⟩] : List Pt).length :=
  brio_kdtree_permutation (fun _ l _ => l) (fun _ => 0)
    [⟨0, 0, none⟩, ⟨1, 1, none⟩]
    (fun r l u h => ⟨Nat.le_refl l, h⟩) (by simp)

/-! Claim C4: the insert/remove round trip.  A link-path list is viewed
through its list of directed successor edges; the development establishes
that under the fan-extension precondition each insertion adds exactly its
edge and each matching removal takes exactly its edge away, with the path
list a disjoint cover of the edge set throughout. -/

/-- Directed successor edges of one path: adjacent pairs.  A closed path
carries its closing duplicate explicitly, so its wrap edge is an adjacent
pair too. -/
def pathEdges (p : List Nat) : List (Nat × Nat) := p.zip p.tail

/-- All directed edges of a link-path list. -/
def linkEdges (L : Link) : List (Nat × Nat) := L.flatMap pathEdges

/-- Edge multisets, for the bookkeeping of the surgeries. -/
def pathEdgesM (p : List Nat) : Multiset (Nat × Nat) := (pathEdges p : Multiset (Nat × Nat))

def linkEdgesM (L : Link) : Multiset (Nat × Nat) := (linkEdges L : Multiset (Nat × Nat))

/-- Two paths with no common vertex. -/
def PathDisj (p q : List Nat) : Prop := ∀ v, v ∈ p → v ∉ q

/-- Shape invariant of a single stored path: at least two entries, entries
pairwise distinct apart from the closing duplicate of a closed path. -/
def GoodPath (p : List Nat) : Prop :=
  2 ≤ p.length ∧ p.dropLast.Nodup ∧
    (p.Nodup ∨ (p.head? = p.getLast? ∧ 3 ≤ p.length))

/-- The invariant of a link-path list: well-shaped paths, pairwise
vertex-disjoint. -/
def Cover (L : Link) : Prop := (∀ p ∈ L, GoodPath p) ∧ L.Pairwise PathDisj

theorem pathEdges_cons_cons (a b : Nat) (t : List Nat) :
    pathEdges (a :: b :: t) = (a, b) :: pathEdges (b :: t) := rfl

theorem pathEdges_pair (x y : Nat) : pathEdges [x, y] = [(x, y)] := rfl

theorem pathEdges_single (x : Nat) : pathEdges [x] = [] := rfl

theorem pathEdges_nil : pathEdges [] = [] := rfl

theorem mem_pathEdges {e : Nat × Nat} {p : List Nat} (h : e ∈ pathEdges p) :
    e.1 ∈ p ∧ e.2 ∈ p := by
  unfold pathEdges at h
  rcases e with ⟨a, b⟩
  have := List.of_mem_zip h
  exact ⟨this.1, List.mem_of_mem_tail this.2⟩

theorem pathEdges_append (p q : List Nat) (hp : p ≠ []) (hq : q ≠ []) :
    pathEdges (p ++ q) = pathEdges p ++ (p.getLastD 0, q.headD 0) :: pathEdges q := by
  induction p with
  | nil => exact absurd rfl hp
  | cons a p ih =>
      cases p with
      | nil =>
          cases q with
          | nil => exact absurd rfl hq
          | cons b t => rfl
      | cons a2 p2 =>
          have h2 : a2 :: p2 ≠ [] := by simp
          rw [List.cons_append]
          have hstep : pathEdges (a :: ((a2 :: p2) ++ q)) =
              (a, a2) :: pathEdges ((a2 :: p2) ++ q) := rfl
          rw [hstep, ih h2]
          rfl

theorem pathEdges_append_single (p : List Nat) (hp : p ≠ []) (y : Nat) :
    pathEdges (p ++ [y]) = pathEdges p ++ [(p.getLastD 0, y)] := by
  rw [pathEdges_append p [y] hp (by simp)]
  rfl

theorem pathEdges_cons (x : Nat) (p : List Nat) (hp : p ≠ []) :
    pathEdges (x :: p) = (x, p.headD 0) :: pathEdges p := by
  have := pathEdges_append [x] p (by simp) hp
  simpa using this

theorem linkEdges_append (A B : Link) :
    linkEdges (A ++ B) = linkEdges A ++ linkEdges B :=
  List.flatMap_append A B pathEdges

theorem linkEdges_cons (p : List Nat) (L : Link) :
    linkEdges (p :: L) = pathEdges p ++ linkEdges L := rfl

theorem linkEdges_nil : linkEdges [] = [] := rfl

theorem mem_linkEdges_iff {e : Nat × Nat} {L : Link} :
    e ∈ linkEdges L ↔ ∃ p ∈ L, e ∈ pathEdges p := by
  unfold linkEdges
  simp [List.mem_flatMap]

theorem linkEdgesM_middle (A B : Link) (p : List Nat) :
    linkEdgesM (A ++ p :: B) = pathEdgesM p + linkEdgesM (A ++ B) := by
  unfold linkEdgesM pathEdgesM
  rw [linkEdges_append, linkEdges_cons, linkEdges_append]
  simp only [← Multiset.coe_add]
  exact add_left_comm _ _ _

theorem PathDisj_symm {p q : List Nat} (h : PathDisj p q) : PathDisj q p :=
  fun v hvq hvp => h v hvp hvq

theorem cover_of_sublist {L2 L : Link} (hs : L2.Sublist L) (hC : Cover L) : Cover L2 :=
  ⟨fun p hp => hC.1 p (hs.mem hp), hC.2.sublist hs⟩

theorem cover_insert_middle (A B : Link) (pnew : List Nat)
    (hC : Cover (A ++ B)) (hGP : GoodPath pnew)
    (hdisj : ∀ q ∈ A ++ B, PathDisj pnew q) : Cover (A ++ pnew :: B) := by
  obtain ⟨hGPs, hPW⟩ := hC
  rw [List.pairwise_append] at hPW
  obtain ⟨hA, hB, hAB⟩ := hPW
  constructor
  · intro p hp
    rcases List.mem_append.mp hp with h | h
    · exact hGPs p (List.mem_append.mpr (Or.inl h))
    · rcases List.mem_cons.mp h with h | h
      · exact h ▸ hGP
      · exact hGPs p (List.mem_append.mpr (Or.inr h))
  · rw [List.pairwise_append]
    refine ⟨hA, ?_, ?_⟩
    · rw [List.pairwise_cons]
      exact ⟨fun q hq => hdisj q (List.mem_append.mpr (Or.inr hq)), hB⟩
    · intro a ha b hb
      rcases List.mem_cons.mp hb with h | h
      · exact h ▸ PathDisj_symm (hdisj a (List.mem_append.mpr (Or.inl ha)))
      · exact hAB a ha b h

theorem eraseIdx_get (L : Link) (i : Nat) (q : List Nat) (hq : q ∈ L.eraseIdx i) :
    ∃ j, ∃ hj : j < L.length, j ≠ i ∧ L.get ⟨j, hj⟩ = q := by
  rw [List.eraseIdx_eq_take_drop_succ] at hq
  rcases List.mem_append.mp hq with h | h
  · obtain ⟨n, hn, hval⟩ := List.mem_iff_getElem.mp h
    have hn2 : n < i := by
      have := List.length_take i L
      omega
    have hn3 : n < L.length := by
      have := List.length_take i L
      omega
    refine ⟨n, hn3, by omega, ?_⟩
    rw [← hval, List.getElem_take]
    rfl
  · obtain ⟨n, hn, hval⟩ := List.mem_iff_getElem.mp h
    have hn3 : i + 1 + n < L.length := by
      have := List.length_drop (i + 1) L
      omega
    refine ⟨i + 1 + n, hn3, by omega, ?_⟩
    rw [← hval, List.getElem_drop]
    rfl

theorem cover_getElem_disj {L : Link} (hC : Cover L) {i j : Nat} (hi : i < L.length)
    (hj : j < L.length) (hne : i ≠ j) : PathDisj (L.get ⟨i, hi⟩) (L.get ⟨j, hj⟩) := by
  have hPW := hC.2
  rw [List.pairwise_iff_getElem] at hPW
  rcases Nat.lt_or_ge i j with h | h
  · exact hPW i j hi hj h
  · have hj2 : j < i := by omega
    exact PathDisj_symm (hPW j i hj hi hj2)

theorem cover_unique_path {L : Link} (hC : Cover L) {v : Nat} {i j : Nat}
    (hi : i < L.length) (hj : j < L.length) (hvi : v ∈ L.get ⟨i, hi⟩)
    (hvj : v ∈ L.get ⟨j, hj⟩) : i = j := by
  by_contra hne
  exact cover_getElem_disj hC hi hj hne v hvi hvj

theorem linkEdgesM_eraseIdx (L : Link) (i : Nat) (hi : i < L.length) :
    linkEdgesM L = pathEdgesM (L.get ⟨i, hi⟩) + linkEdgesM (L.eraseIdx i) := by
  conv_lhs => rw [← List.take_append_drop i L, List.drop_eq_getElem_cons hi]
  rw [linkEdgesM_middle, List.eraseIdx_eq_take_drop_succ]
  rfl

theorem linkEdgesM_set (L : Link) (i : Nat) (hi : i < L.length) (pnew : List Nat) :
    linkEdgesM (L.set i pnew) = pathEdgesM pnew + linkEdgesM (L.eraseIdx i) := by
  rw [List.set_eq_take_cons_drop _ hi, linkEdgesM_middle,
    List.eraseIdx_eq_take_drop_succ]

theorem exists_out_edge_of_ne_last : ∀ (p : List Nat) (v : Nat), v ∈ p →
    v ≠ p.getLastD 0 → ∃ w, (v, w) ∈ pathEdges p
  | [], v, hv, _ => absurd hv (by simp)
  | [a], v, hv, hne => by
      simp at hv
      exact absurd (by simp [hv]) hne
  | a :: b :: t, v, hv, hne => by
      rcases List.mem_cons.mp hv with h | h
      · exact ⟨b, by simp [pathEdges_cons_cons, h]⟩
      · have hlast : (a :: b :: t).getLastD 0 = (b :: t).getLastD 0 := rfl
        obtain ⟨w, hw⟩ := exists_out_edge_of_ne_last (b :: t) v h (by
          rw [hlast] at hne
          exact hne)
        exact ⟨w, by simp [pathEdges_cons_cons, hw]⟩

theorem exists_in_edge_of_ne_head : ∀ (p : List Nat) (v : Nat), v ∈ p →
    v ≠ p.headD 0 → ∃ w, (w, v) ∈ pathEdges p
  | [], v, hv, _ => absurd hv (by simp)
  | [a], v, hv, hne => by
      simp at hv
      exact absurd (by simp [hv]) hne
  | a :: b :: t, v, hv, hne => by
      rcases List.mem_cons.mp hv with h | h
      · exact absurd (by simp [h]) hne
      · rcases Nat.decEq v b with h2 | h2
        · obtain ⟨w, hw⟩ := exists_in_edge_of_ne_head (b :: t) v h (by simpa using h2)
          exact ⟨w, by simp [pathEdges_cons_cons, hw]⟩
        · exact ⟨a, by simp [pathEdges_cons_cons, h2]⟩

theorem getLastD_eq_of_getLast_opt {p : List Nat} {a : Nat} (h : p.getLast? = some a) :
    p.getLastD 0 = a := by
  cases p with
  | nil => cases h
  | cons x t =>
      rw [List.getLastD_eq_getLast?, h]
      rfl

theorem getLast_opt_of_ne_nil (p : List Nat) (hp : p ≠ []) :
    p.getLast? = some (p.getLastD 0) := by
  cases p with
  | nil => exact absurd rfl hp
  | cons x t =>
      rw [List.getLastD_eq_getLast?]
      cases hx : (x :: t).getLast? with
      | none => exact absurd (List.getLast?_eq_none_iff.mp hx) (by simp)
      | some a => rfl

theorem exists_out_edge_closed (p : List Nat) (v : Nat) (hv : v ∈ p)
    (hclosed : p.head? = p.getLast?) (hlen : 2 ≤ p.length) :
    ∃ w, (v, w) ∈ pathEdges p := by
  rcases Nat.decEq v (p.getLastD 0) with hne | heq
  · exact exists_out_edge_of_ne_last p v hv hne
  · cases p with
    | nil => simp at hlen
    | cons a t =>
        cases t with
        | nil => simp at hlen
        | cons b t2 =>
            have hhead : (a :: b :: t2).head? = some a := rfl
            have hlast := getLast_opt_of_ne_nil (a :: b :: t2) (by simp)
            rw [hhead, hlast] at hclosed
            have hva : v = a := by
              rw [heq]
              exact (Option.some.inj hclosed).symm
            exact ⟨b, by simp [pathEdges_cons_cons, hva]⟩

theorem exists_in_edge_closed (p : List Nat) (v : Nat) (hv : v ∈ p)
    (hclosed : p.head? = p.getLast?) (hlen : 2 ≤ p.length) :
    ∃ w, (w, v) ∈ pathEdges p := by
  rcases Nat.decEq v (p.headD 0) with hne | heq
  · exact exists_in_edge_of_ne_head p v hv hne
  · have hp : p ≠ [] := by
      intro h
      rw [h] at hlen
      simp at hlen
    have hd : p.dropLast ≠ [] := by
      intro h
      have := List.length_dropLast p
      rw [h] at this
      simp at this
      omega
    have hgl : p.getLastD 0 = p.getLast hp := by
      have h1 : p.getLast? = some (p.getLast hp) := List.getLast?_eq_getLast p hp
      exact getLastD_eq_of_getLast_opt h1
    have hsplit : p.dropLast ++ [p.getLastD 0] = p := by
      rw [hgl]
      exact List.dropLast_append_getLast hp
    have hvlast : v = p.getLastD 0 := by
      have hhd : p.head? = some (p.headD 0) := by
        cases p with
        | nil => exact absurd rfl hp
        | cons x t => rfl
      rw [hhd, getLast_opt_of_ne_nil p hp] at hclosed
      rw [heq]
      exact Option.some.inj hclosed
    refine ⟨(p.dropLast).getLastD 0, ?_⟩
    rw [← hsplit, pathEdges_append_single _ hd, hvlast]
    simp

theorem last_of_no_out {L : Link} (hC : Cover L) {x pi : Nat} (hpi : pi < L.length)
    (hx : x ∈ L.get ⟨pi, hpi⟩)
    (hout : ∀ e ∈ linkEdges L, e.1 ≠ x) :
    (L.get ⟨pi, hpi⟩).Nodup ∧ (L.get ⟨pi, hpi⟩).getLastD 0 = x ∧
      (L.get ⟨pi, hpi⟩).indexOf x = (L.get ⟨pi, hpi⟩).length - 1 := by
  have hpmem : L.get ⟨pi, hpi⟩ ∈ L := List.get_mem L pi hpi
  obtain ⟨hlen, hdl, hshape⟩ := hC.1 _ hpmem
  have hnodup : (L.get ⟨pi, hpi⟩).Nodup := by
    rcases hshape with h | ⟨hcl, h3⟩
    · exact h
    · obtain ⟨w, hw⟩ := exists_out_edge_closed _ x hx hcl hlen
      exact absurd rfl (hout _ (mem_linkEdges_iff.mpr ⟨_, hpmem, hw⟩))
  have hlast : (L.get ⟨pi, hpi⟩).getLastD 0 = x := by
    by_contra hne
    obtain ⟨w, hw⟩ := exists_out_edge_of_ne_last _ x hx (fun h => hne h.symm)
    exact absurd rfl (hout _ (mem_linkEdges_iff.mpr ⟨_, hpmem, hw⟩))
  refine ⟨hnodup, hlast, ?_⟩
  apply indexOf_of_getLast_opt hnodup
  have hnil : L.get ⟨pi, hpi⟩ ≠ [] := by
    intro h
    rw [h] at hlen
    simp at hlen
  rw [getLast_opt_of_ne_nil _ hnil, hlast]

theorem head_of_no_in {L : Link} (hC : Cover L) {y pj : Nat} (hpj : pj < L.length)
    (hy : y ∈ L.get ⟨pj, hpj⟩)
    (hin : ∀ e ∈ linkEdges L, e.2 ≠ y) :
    (L.get ⟨pj, hpj⟩).Nodup ∧ (L.get ⟨pj, hpj⟩).headD 0 = y ∧
      (L.get ⟨pj, hpj⟩).indexOf y = 0 := by
  have hpmem : L.get ⟨pj, hpj⟩ ∈ L := List.get_mem L pj hpj
  obtain ⟨hlen, hdl, hshape⟩ := hC.1 _ hpmem
  have hnodup : (L.get ⟨pj, hpj⟩).Nodup := by
    rcases hshape with h | ⟨hcl, h3⟩
    · exact h
    · obtain ⟨w, hw⟩ := exists_in_edge_closed _ y hy hcl hlen
      exact absurd rfl (hin _ (mem_linkEdges_iff.mpr ⟨_, hpmem, hw⟩))
  have hhead : (L.get ⟨pj, hpj⟩).headD 0 = y := by
    by_contra hne
    obtain ⟨w, hw⟩ := exists_in_edge_of_ne_head _ y hy (fun h => hne h.symm)
    exact absurd rfl (hin _ (mem_linkEdges_iff.mpr ⟨_, hpmem, hw⟩))
  refine ⟨hnodup, hhead, ?_⟩
  apply head_some_indexOf_zero
  cases hp : L.get ⟨pj, hpj⟩ with
  | nil =>
      rw [hp] at hlen
      simp at hlen
  | cons a t =>
      rw [hp] at hhead
      simp at hhead
      rw [hhead]
      rfl

theorem scanLink_cover_mem {L : Link} (hC : Cover L) {v pi : Nat} (hpi : pi < L.length)
    (hv : v ∈ L.get ⟨pi, hpi⟩) :
    scanLink L v = some (pi, (L.get ⟨pi, hpi⟩).indexOf v) :=
  (scanLink_unique L v pi hpi hv
    (fun _j hj hm => cover_unique_path hC hj hpi hm hv)).1

theorem pyInsertIdx_zero (p : List Nat) (x : Nat) : pyInsertIdx p 0 x = x :: p := by
  rw [pyInsertIdx_le p 0 x (Nat.zero_le _)]
  rfl

theorem pyInsertIdx_length (p : List Nat) (y : Nat) :
    pyInsertIdx p p.length y = p ++ [y] := by
  rw [pyInsertIdx_le p p.length y (Nat.le_refl _)]
  simp

theorem splice_shape (L : Link) (pmin pmax : Nat) (pnew : List Nat)
    (h1 : pmin < pmax) (h2 : pmax < L.length) :
    (L.set pmin pnew).eraseIdx pmax =
      L.take pmin ++ pnew :: (L.drop (pmin + 1)).eraseIdx (pmax - (pmin + 1)) := by
  have hpmin : pmin < L.length := by omega
  rw [List.set_eq_take_cons_drop _ hpmin]
  have hre : L.take pmin ++ pnew :: L.drop (pmin + 1) =
      (L.take pmin ++ [pnew]) ++ L.drop (pmin + 1) := by simp
  have hlen : (L.take pmin ++ [pnew]).length ≤ pmax := by
    simp
    omega
  rw [hre, List.eraseIdx_append_of_length_le hlen]
  have hlen2 : (L.take pmin ++ [pnew]).length = pmin + 1 := by
    simp
    omega
  rw [hlen2]
  simp

theorem splice_rest_sublist (L : Link) (pmin pmax : Nat) :
    (L.take pmin ++ (L.drop (pmin + 1)).eraseIdx (pmax - (pmin + 1))).Sublist L := by
  have h1 : (L.take pmin ++ (L.drop (pmin + 1)).eraseIdx (pmax - (pmin + 1))).Sublist
      (L.take pmin ++ L.drop (pmin + 1)) :=
    List.Sublist.append (List.Sublist.refl _) (List.eraseIdx_sublist _ _)
  refine h1.trans ?_
  rw [← List.eraseIdx_eq_take_drop_succ]
  exact List.eraseIdx_sublist _ _

theorem splice_rest_mem (L : Link) (pmin pmax : Nat) (h1 : pmin < pmax)
    (h2 : pmax < L.length) (q : List Nat)
    (hq : q ∈ L.take pmin ++ (L.drop (pmin + 1)).eraseIdx (pmax - (pmin + 1))) :
    ∃ j, ∃ hj : j < L.length, j ≠ pmin ∧ j ≠ pmax ∧ L.get ⟨j, hj⟩ = q := by
  rcases List.mem_append.mp hq with h | h
  · obtain ⟨n, hn, hval⟩ := List.mem_iff_getElem.mp h
    have hn2 : n < pmin := by
      have := List.length_take pmin L
      omega
    have hn3 : n < L.length := by omega
    refine ⟨n, hn3, by omega, by omega, ?_⟩
    rw [← hval, List.getElem_take]
    rfl
  · obtain ⟨j2, hj2, hne2, hval⟩ := eraseIdx_get _ _ _ h
    have hj3 : pmin + 1 + j2 < L.length := by
      have := List.length_drop (pmin + 1) L
      omega
    refine ⟨pmin + 1 + j2, hj3, by omega, by omega, ?_⟩
    rw [← hval]
    show L[pmin + 1 + j2] = (L.drop (pmin + 1))[j2]
    rw [List.getElem_drop]

theorem linkEdgesM_two (L : Link) (i j : Nat) (hij : i < j) (hj : j < L.length) :
    linkEdgesM L = pathEdgesM (L.get ⟨i, Nat.lt_trans hij hj⟩) +
      pathEdgesM (L.get ⟨j, hj⟩) +
      linkEdgesM (L.take i ++ (L.drop (i + 1)).eraseIdx (j - (i + 1))) := by
  have hi : i < L.length := Nat.lt_trans hij hj
  have hk : j - (i + 1) < (L.drop (i + 1)).length := by
    have := List.length_drop (i + 1) L
    omega
  have hdropget : (L.drop (i + 1)).get ⟨j - (i + 1), hk⟩ = L.get ⟨j, hj⟩ := by
    show (L.drop (i + 1))[j - (i + 1)] = _
    rw [List.getElem_drop]
    congr 1
    omega
  conv_lhs => rw [← List.take_append_drop i L, List.drop_eq_getElem_cons hi]
  rw [linkEdgesM_middle]
  have hA : linkEdgesM (L.take i ++ L.drop (i + 1)) =
      pathEdgesM (L.get ⟨j, hj⟩) +
        linkEdgesM (L.take i ++ (L.drop (i + 1)).eraseIdx (j - (i + 1))) := by
    unfold linkEdgesM
    rw [linkEdges_append, linkEdges_append, ← Multiset.coe_add, ← Multiset.coe_add]
    have := linkEdgesM_eraseIdx (L.drop (i + 1)) (j - (i + 1)) hk
    rw [hdropget] at this
    unfold linkEdgesM at this
    rw [this]
    unfold pathEdgesM
    exact add_left_comm _ _ _
  rw [hA]
  show pathEdgesM (L.get ⟨i, hi⟩) + _ = _
  rw [← add_assoc]

theorem insert_edge_fresh (L : Link) (x y : Nat) (hC : Cover L) (hxy : x ≠ y)
    (hx : ∀ p ∈ L, x ∉ p) (hy : ∀ p ∈ L, y ∉ p) :
    __insert_face L x y = .ok (L ++ [[x, y]]) ∧ Cover (L ++ [[x, y]]) ∧
      linkEdgesM (L ++ [[x, y]]) = (x, y) ::ₘ linkEdgesM L := by
  refine ⟨?_, ?_, ?_⟩
  · unfold __insert_face
    rw [(scanLink_none_iff L x).mpr hx, (scanLink_none_iff L y).mpr hy]
  · have hres : L ++ [[x, y]] = L ++ [x, y] :: [] := rfl
    rw [hres]
    refine cover_insert_middle L [] [x, y] (by simpa using hC) ?_ ?_
    · exact ⟨by simp, by simp, Or.inl (by simp [hxy])⟩
    · intro q hq v hv
      simp at hq
      rcases (by simpa using hv : v = x ∨ v = y) with rfl | rfl
      · exact hx q hq
      · exact hy q hq
  · have hres : L ++ [[x, y]] = L ++ [x, y] :: [] := rfl
    rw [hres, linkEdgesM_middle]
    have : pathEdgesM [x, y] = {(x, y)} := rfl
    rw [this]
    simp [Multiset.singleton_add]

theorem insert_edge_prepend (L : Link) (x y : Nat) (hC : Cover L) (hxy : x ≠ y)
    (hx : ∀ p ∈ L, x ∉ p) (pj : Nat) (hpj : pj < L.length)
    (hy : y ∈ L.get ⟨pj, hpj⟩)
    (hin : ∀ e ∈ linkEdges L, e.2 ≠ y) :
    __insert_face L x y = .ok (L.set pj (x :: L.get ⟨pj, hpj⟩)) ∧
      Cover (L.set pj (x :: L.get ⟨pj, hpj⟩)) ∧
      linkEdgesM (L.set pj (x :: L.get ⟨pj, hpj⟩)) = (x, y) ::ₘ linkEdgesM L := by
  obtain ⟨hnodup, hhead, hidx⟩ := head_of_no_in hC hpj hy hin
  have hplen : 2 ≤ (L.get ⟨pj, hpj⟩).length :=
    (hC.1 _ (List.get_mem L pj hpj)).1
  have hpne : L.get ⟨pj, hpj⟩ ≠ [] := by
    intro h
    rw [h] at hplen
    simp at hplen
  refine ⟨?_, ?_, ?_⟩
  · unfold __insert_face
    rw [(scanLink_none_iff L x).mpr hx, scanLink_cover_mem hC hpj hy, hidx]
    dsimp only
    rw [List.modify_eq_set_get _ hpj, pyInsertIdx_zero]
  · rw [List.set_eq_take_cons_drop _ hpj]
    have hCrest : Cover (L.take pj ++ L.drop (pj + 1)) := by
      rw [← List.eraseIdx_eq_take_drop_succ]
      exact cover_of_sublist (List.eraseIdx_sublist _ _) hC
    refine cover_insert_middle _ _ _ hCrest ?_ ?_
    · refine ⟨by have := hplen; simp only [List.length_cons]; omega, ?_, Or.inl ?_⟩
      · have hdl : (x :: L.get ⟨pj, hpj⟩).dropLast = x :: (L.get ⟨pj, hpj⟩).dropLast := by
          cases hp : L.get ⟨pj, hpj⟩ with
          | nil => exact absurd hp hpne
          | cons a t => rfl
        rw [hdl]
        refine List.Nodup.cons ?_ (hnodup.sublist (List.dropLast_sublist _))
        intro hmem
        exact hx _ (List.get_mem L pj hpj) (List.mem_of_mem_dropLast hmem)
      · refine List.Nodup.cons ?_ hnodup
        exact fun hmem => hx _ (List.get_mem L pj hpj) hmem
    · intro q hq v hv
      rw [← List.eraseIdx_eq_take_drop_succ] at hq
      obtain ⟨j, hj, hne, hval⟩ := eraseIdx_get _ _ _ hq
      rcases List.mem_cons.mp hv with rfl | hv2
      · rw [← hval]
        exact hx _ (List.get_mem L j hj)
      · rw [← hval]
        exact cover_getElem_disj hC hpj hj (fun h => hne h.symm) v hv2
  · rw [linkEdgesM_set _ _ hpj]
    have hpe : pathEdgesM (x :: L.get ⟨pj, hpj⟩) =
        (x, y) ::ₘ pathEdgesM (L.get ⟨pj, hpj⟩) := by
      unfold pathEdgesM
      rw [pathEdges_cons _ _ hpne, hhead]
      rfl
    rw [hpe, linkEdgesM_eraseIdx L pj hpj]
    rfl

theorem msA (a b c : Multiset (Nat × Nat)) : a + b + c = b + (a + c) := by
  rw [add_comm a b, add_assoc]

theorem insert_edge_append (L : Link) (x y : Nat) (hC : Cover L) (hxy : x ≠ y)
    (pi : Nat) (hpi : pi < L.length) (hx : x ∈ L.get ⟨pi, hpi⟩)
    (hout : ∀ e ∈ linkEdges L, e.1 ≠ x) (hy : ∀ p ∈ L, y ∉ p) :
    __insert_face L x y = .ok (L.set pi (L.get ⟨pi, hpi⟩ ++ [y])) ∧
      Cover (L.set pi (L.get ⟨pi, hpi⟩ ++ [y])) ∧
      linkEdgesM (L.set pi (L.get ⟨pi, hpi⟩ ++ [y])) = (x, y) ::ₘ linkEdgesM L := by
  obtain ⟨hnodup, hlast, hidx⟩ := last_of_no_out hC hpi hx hout
  have hplen : 2 ≤ (L.get ⟨pi, hpi⟩).length := (hC.1 _ (List.get_mem L pi hpi)).1
  have hpne : L.get ⟨pi, hpi⟩ ≠ [] := by
    intro h
    rw [h] at hplen
    simp at hplen
  have hlen1 : (L.get ⟨pi, hpi⟩).length - 1 + 1 = (L.get ⟨pi, hpi⟩).length := by omega
  refine ⟨?_, ?_, ?_⟩
  · unfold __insert_face
    rw [scanLink_cover_mem hC hpi hx, (scanLink_none_iff L y).mpr hy, hidx]
    dsimp only
    rw [List.modify_eq_set_get _ hpi, hlen1, pyInsertIdx_length]
  · rw [List.set_eq_take_cons_drop _ hpi]
    have hCrest : Cover (L.take pi ++ L.drop (pi + 1)) := by
      rw [← List.eraseIdx_eq_take_drop_succ]
      exact cover_of_sublist (List.eraseIdx_sublist _ _) hC
    refine cover_insert_middle _ _ _ hCrest ?_ ?_
    · refine ⟨by have := hplen; simp only [List.length_append, List.length_cons,
        List.length_nil]; omega, ?_, Or.inl ?_⟩
      · have hdl : (L.get ⟨pi, hpi⟩ ++ [y]).dropLast = L.get ⟨pi, hpi⟩ := by simp
        rw [hdl]
        exact hnodup
      · refine List.Nodup.append hnodup (by simp) ?_
        intro a ha hb
        simp at hb
        subst hb
        exact hy _ (List.get_mem L pi hpi) ha
    · intro q hq v hv
      rw [← List.eraseIdx_eq_take_drop_succ] at hq
      obtain ⟨j, hj, hne, hval⟩ := eraseIdx_get _ _ _ hq
      rcases List.mem_append.mp hv with hv2 | hv2
      · rw [← hval]
        exact cover_getElem_disj hC hpi hj (fun h => hne h.symm) v hv2
      · simp at hv2
        subst hv2
        rw [← hval]
        exact hy _ (List.get_mem L j hj)
  · rw [linkEdgesM_set _ _ hpi]
    have hpe : pathEdgesM (L.get ⟨pi, hpi⟩ ++ [y]) =
        pathEdgesM (L.get ⟨pi, hpi⟩) + {(x, y)} := by
      unfold pathEdgesM
      rw [pathEdges_append_single _ hpne, hlast]
      rw [← Multiset.coe_add]
      rfl
    rw [hpe, linkEdgesM_eraseIdx L pi hpi, msA, ← Multiset.singleton_add]

theorem insert_edge_close (L : Link) (x y : Nat) (hC : Cover L) (hxy : x ≠ y)
    (pi : Nat) (hpi : pi < L.length) (hx : x ∈ L.get ⟨pi, hpi⟩)
    (hy : y ∈ L.get ⟨pi, hpi⟩)
    (hout : ∀ e ∈ linkEdges L, e.1 ≠ x) (hin : ∀ e ∈ linkEdges L, e.2 ≠ y) :
    __insert_face L x y = .ok (L.set pi (L.get ⟨pi, hpi⟩ ++ [y])) ∧
      Cover (L.set pi (L.get ⟨pi, hpi⟩ ++ [y])) ∧
      linkEdgesM (L.set pi (L.get ⟨pi, hpi⟩ ++ [y])) = (x, y) ::ₘ linkEdgesM L := by
  obtain ⟨hnodup, hlast, hidx1⟩ := last_of_no_out hC hpi hx hout
  obtain ⟨-, hhead, hidx2⟩ := head_of_no_in hC hpi hy hin
  have hplen : 2 ≤ (L.get ⟨pi, hpi⟩).length := (hC.1 _ (List.get_mem L pi hpi)).1
  have hpne : L.get ⟨pi, hpi⟩ ≠ [] := by
    intro h
    rw [h] at hplen
    simp at hplen
  have hlen1 : (L.get ⟨pi, hpi⟩).length - 1 + 1 = (L.get ⟨pi, hpi⟩).length := by omega
  have hgetD : List.getD L pi [] = L.get ⟨pi, hpi⟩ := by
    simp [List.getD, List.getElem?_eq_getElem hpi]
  refine ⟨?_, ?_, ?_⟩
  · unfold __insert_face
    rw [scanLink_cover_mem hC hpi hx, scanLink_cover_mem hC hpi hy, hidx1, hidx2]
    dsimp only
    rw [if_neg (show ¬(pi ≠ pi) from fun h => h rfl),
      if_pos (⟨rfl, by rw [hgetD, hlen1]⟩ : 0 = 0 ∧
        (L.get ⟨pi, hpi⟩).length - 1 + 1 = (List.getD L pi []).length)]
    rw [List.modify_eq_set_get _ hpi]
  · rw [List.set_eq_take_cons_drop _ hpi]
    have hCrest : Cover (L.take pi ++ L.drop (pi + 1)) := by
      rw [← List.eraseIdx_eq_take_drop_succ]
      exact cover_of_sublist (List.eraseIdx_sublist _ _) hC
    refine cover_insert_middle _ _ _ hCrest ?_ ?_
    · refine ⟨by have := hplen; simp only [List.length_append, List.length_cons,
        List.length_nil]; omega, ?_, Or.inr ⟨?_, ?_⟩⟩
      · have hdl : (L.get ⟨pi, hpi⟩ ++ [y]).dropLast = L.get ⟨pi, hpi⟩ := by simp
        rw [hdl]
        exact hnodup
      · have hh : (L.get ⟨pi, hpi⟩ ++ [y]).head? = some y := by
          cases hp : L.get ⟨pi, hpi⟩ with
          | nil => exact absurd hp hpne
          | cons a t =>
              rw [hp] at hhead
              simp at hhead
              rw [← hhead]
              rfl
        rw [hh, List.getLast?_concat]
      · have := hplen
        simp only [List.length_append, List.length_cons, List.length_nil]
        omega
    · intro q hq v hv
      rw [← List.eraseIdx_eq_take_drop_succ] at hq
      obtain ⟨j, hj, hne, hval⟩ := eraseIdx_get _ _ _ hq
      rcases List.mem_append.mp hv with hv2 | hv2
      · rw [← hval]
        exact cover_getElem_disj hC hpi hj (fun h => hne h.symm) v hv2
      · simp at hv2
        subst hv2
        rw [← hval]
        exact cover_getElem_disj hC hpi hj (fun h => hne h.symm) v hy
  · rw [linkEdgesM_set _ _ hpi]
    have hpe : pathEdgesM (L.get ⟨pi, hpi⟩ ++ [y]) =
        pathEdgesM (L.get ⟨pi, hpi⟩) + {(x, y)} := by
      unfold pathEdgesM
      rw [pathEdges_append_single _ hpne, hlast]
      rw [← Multiset.coe_add]
      rfl
    rw [hpe, linkEdgesM_eraseIdx L pi hpi, msA, ← Multiset.singleton_add]

theorem insert_edge_splice (L : Link) (x y : Nat) (hC : Cover L) (_hxy : x ≠ y)
    (pi pj : Nat) (hpi : pi < L.length) (hpj : pj < L.length) (hne : pi ≠ pj)
    (hx : x ∈ L.get ⟨pi, hpi⟩) (hy : y ∈ L.get ⟨pj, hpj⟩)
    (hout : ∀ e ∈ linkEdges L, e.1 ≠ x) (hin : ∀ e ∈ linkEdges L, e.2 ≠ y) :
    __insert_face L x y =
      .ok ((L.set (min pi pj) (L.get ⟨pi, hpi⟩ ++ L.get ⟨pj, hpj⟩)).eraseIdx (max pi pj)) ∧
    Cover ((L.set (min pi pj) (L.get ⟨pi, hpi⟩ ++ L.get ⟨pj, hpj⟩)).eraseIdx (max pi pj)) ∧
    linkEdgesM ((L.set (min pi pj) (L.get ⟨pi, hpi⟩ ++ L.get ⟨pj, hpj⟩)).eraseIdx (max pi pj)) =
      (x, y) ::ₘ linkEdgesM L := by
  obtain ⟨hnodup1, hlast, hidx1⟩ := last_of_no_out hC hpi hx hout
  obtain ⟨hnodup2, hhead, hidx2⟩ := head_of_no_in hC hpj hy hin
  have hplen : 2 ≤ (L.get ⟨pi, hpi⟩).length := (hC.1 _ (List.get_mem L pi hpi)).1
  have hqlen : 2 ≤ (L.get ⟨pj, hpj⟩).length := (hC.1 _ (List.get_mem L pj hpj)).1
  have hpne : L.get ⟨pi, hpi⟩ ≠ [] := by
    intro h
    rw [h] at hplen
    simp at hplen
  have hqne : L.get ⟨pj, hpj⟩ ≠ [] := by
    intro h
    rw [h] at hqlen
    simp at hqlen
  have hlen1 : (L.get ⟨pi, hpi⟩).length - 1 + 1 = (L.get ⟨pi, hpi⟩).length := by omega
  have hgetDi : List.getD L pi [] = L.get ⟨pi, hpi⟩ := by
    simp [List.getD, List.getElem?_eq_getElem hpi]
  have hgetDj : List.getD L pj [] = L.get ⟨pj, hpj⟩ := by
    simp [List.getD, List.getElem?_eq_getElem hpj]
  have hGPnew : GoodPath (L.get ⟨pi, hpi⟩ ++ L.get ⟨pj, hpj⟩) := by
    refine ⟨by simp only [List.length_append]; omega, ?_, Or.inl ?_⟩
    · refine List.Nodup.sublist (List.dropLast_sublist _) ?_
      exact List.Nodup.append hnodup1 hnodup2
        (fun a ha hb => cover_getElem_disj hC hpi hpj hne a ha hb)
    · exact List.Nodup.append hnodup1 hnodup2
        (fun a ha hb => cover_getElem_disj hC hpi hpj hne a ha hb)
  have hpenew : pathEdgesM (L.get ⟨pi, hpi⟩ ++ L.get ⟨pj, hpj⟩) =
      pathEdgesM (L.get ⟨pi, hpi⟩) + ((x, y) ::ₘ pathEdgesM (L.get ⟨pj, hpj⟩)) := by
    unfold pathEdgesM
    rw [pathEdges_append _ _ hpne hqne, hlast, hhead, ← Multiset.coe_add]
    rfl
  have hcover : ∀ (pmin pmax : Nat), pmin < pmax → pmax < L.length →
      (pmin = pi ∧ pmax = pj ∨ pmin = pj ∧ pmax = pi) →
      Cover ((L.set pmin (L.get ⟨pi, hpi⟩ ++ L.get ⟨pj, hpj⟩)).eraseIdx pmax) := by
    intro pmin pmax h1 h2 hor
    rw [splice_shape L pmin pmax _ h1 h2]
    refine cover_insert_middle _ _ _
      (cover_of_sublist (splice_rest_sublist L pmin pmax) hC) hGPnew ?_
    intro q hq v hv
    obtain ⟨j, hj, hne1, hne2, hval⟩ := splice_rest_mem L pmin pmax h1 h2 q hq
    have hjpi : j ≠ pi := by
      rcases hor with ⟨h3, h4⟩ | ⟨h3, h4⟩
      · omega
      · omega
    have hjpj : j ≠ pj := by
      rcases hor with ⟨h3, h4⟩ | ⟨h3, h4⟩
      · omega
      · omega
    rcases List.mem_append.mp hv with hv2 | hv2
    · rw [← hval]
      exact cover_getElem_disj hC hpi hj (fun h => hjpi h.symm) v hv2
    · rw [← hval]
      exact cover_getElem_disj hC hpj hj (fun h => hjpj h.symm) v hv2
  have hedges : ∀ (pmin pmax : Nat), ∀ h1 : pmin < pmax, ∀ h2 : pmax < L.length,
      (pathEdgesM (L.get ⟨pmin, by omega⟩) + pathEdgesM (L.get ⟨pmax, h2⟩) =
        pathEdgesM (L.get ⟨pi, hpi⟩) + pathEdgesM (L.get ⟨pj, hpj⟩)) →
      linkEdgesM ((L.set pmin (L.get ⟨pi, hpi⟩ ++ L.get ⟨pj, hpj⟩)).eraseIdx pmax) =
        (x, y) ::ₘ linkEdgesM L := by
    intro pmin pmax h1 h2 hsum
    rw [splice_shape L pmin pmax _ h1 h2, linkEdgesM_middle, hpenew,
      linkEdgesM_two L pmin pmax h1 h2, hsum]
    simp only [← Multiset.singleton_add]
    abel
  rcases Nat.lt_or_ge pi pj with hlt | hge
  · have hmin : min pi pj = pi := Nat.min_eq_left (Nat.le_of_lt hlt)
    have hmax : max pi pj = pj := Nat.max_eq_right (Nat.le_of_lt hlt)
    rw [hmin, hmax]
    refine ⟨?_, hcover pi pj hlt hpj (Or.inl ⟨rfl, rfl⟩),
      hedges pi pj hlt hpj (by rfl)⟩
    unfold __insert_face
    rw [scanLink_cover_mem hC hpi hx, scanLink_cover_mem hC hpj hy, hidx1, hidx2]
    dsimp only
    rw [if_pos (show pi ≠ pj from hne)]
    simp only [if_pos hlt]
    rw [List.modify_eq_set_get _ hpi, hgetDj, hlen1, List.take_length,
      List.drop_length, List.append_nil]
  · have hlt : pj < pi := by omega
    have hmin : min pi pj = pj := Nat.min_eq_right (Nat.le_of_lt hlt)
    have hmax : max pi pj = pi := Nat.max_eq_left (Nat.le_of_lt hlt)
    rw [hmin, hmax]
    refine ⟨?_, hcover pj pi hlt hpi (Or.inr ⟨rfl, rfl⟩),
      hedges pj pi hlt hpi (add_comm _ _)⟩
    unfold __insert_face
    rw [scanLink_cover_mem hC hpi hx, scanLink_cover_mem hC hpj hy, hidx1, hidx2]
    dsimp only
    rw [if_pos (show pi ≠ pj from hne)]
    have hnotlt : ¬ pi < pj := by omega
    simp only [if_neg hnotlt]
    rw [List.modify_eq_set_get _ hpj, hgetDi, List.take_zero, List.drop_zero,
      List.nil_append]

theorem insert_edge_ok (L : Link) (x y : Nat) (hC : Cover L) (hxy : x ≠ y)
    (hout : ∀ e ∈ linkEdges L, e.1 ≠ x) (hin : ∀ e ∈ linkEdges L, e.2 ≠ y) :
    ∃ L2, __insert_face L x y = .ok L2 ∧ Cover L2 ∧
      linkEdgesM L2 = (x, y) ::ₘ linkEdgesM L := by
  by_cases hxo : ∀ p ∈ L, x ∉ p
  · by_cases hyo : ∀ p ∈ L, y ∉ p
    · exact ⟨_, insert_edge_fresh L x y hC hxy hxo hyo⟩
    · push_neg at hyo
      obtain ⟨p, hp, hyp⟩ := hyo
      obtain ⟨pj, hpj, hval⟩ := List.mem_iff_getElem.mp hp
      have hy : y ∈ L.get ⟨pj, hpj⟩ := by
        show y ∈ L[pj]
        rw [hval]
        exact hyp
      exact ⟨_, insert_edge_prepend L x y hC hxy hxo pj hpj hy hin⟩
  · push_neg at hxo
    obtain ⟨p, hp, hxp⟩ := hxo
    obtain ⟨pi, hpi, hval⟩ := List.mem_iff_getElem.mp hp
    have hx : x ∈ L.get ⟨pi, hpi⟩ := by
      show x ∈ L[pi]
      rw [hval]
      exact hxp
    by_cases hyo : ∀ p ∈ L, y ∉ p
    · exact ⟨_, insert_edge_append L x y hC hxy pi hpi hx hout hyo⟩
    · push_neg at hyo
      obtain ⟨q, hq, hyq⟩ := hyo
      obtain ⟨pj, hpj, hval2⟩ := List.mem_iff_getElem.mp hq
      have hy : y ∈ L.get ⟨pj, hpj⟩ := by
        show y ∈ L[pj]
        rw [hval2]
        exact hyq
      by_cases hij : pi = pj
      · subst hij
        exact ⟨_, insert_edge_close L x y hC hxy pi hpi hx hy hout hin⟩
      · exact ⟨_, insert_edge_splice L x y hC hxy pi pj hpi hpj hij hx hy hout hin⟩

theorem mem_pathEdges_iff {x y : Nat} {p : List Nat} :
    (x, y) ∈ pathEdges p ↔
      ∃ k, ∃ hk : k + 1 < p.length,
        p.get ⟨k, by omega⟩ = x ∧ p.get ⟨k + 1, hk⟩ = y := by
  unfold pathEdges
  rw [List.mem_iff_getElem]
  constructor
  · rintro ⟨n, hn, hval⟩
    have hn2 : n + 1 < p.length := by
      have := List.length_zip p p.tail
      have := List.length_tail p
      omega
    rw [List.getElem_zip] at hval
    have hnt : n < p.tail.length := by
      have := List.length_tail p
      omega
    have htail : p.tail[n] = p[n + 1] := List.getElem_tail p n hnt
    refine ⟨n, hn2, ?_, ?_⟩
    · show p[n] = x
      have := congrArg Prod.fst hval
      simpa using this
    · show p[n + 1] = y
      rw [← htail]
      have := congrArg Prod.snd hval
      simpa using this
  · rintro ⟨k, hk, hx, hy⟩
    have hn : k < (p.zip p.tail).length := by
      have := List.length_zip p p.tail
      have := List.length_tail p
      omega
    refine ⟨k, hn, ?_⟩
    rw [List.getElem_zip]
    have hkt : k < p.tail.length := by
      have := List.length_tail p
      omega
    have htail : p.tail[k] = p[k + 1] := List.getElem_tail p k hkt
    rw [htail]
    exact Prod.ext hx hy

theorem edge_locate {L : Link} {x y : Nat} (hmem : (x, y) ∈ linkEdges L) :
    ∃ pk, ∃ hpk : pk < L.length, ∃ k, ∃ hk : k + 1 < (L.get ⟨pk, hpk⟩).length,
      (L.get ⟨pk, hpk⟩).get ⟨k, by omega⟩ = x ∧
        (L.get ⟨pk, hpk⟩).get ⟨k + 1, hk⟩ = y := by
  obtain ⟨p, hp, he⟩ := mem_linkEdges_iff.mp hmem
  obtain ⟨pk, hpk, hval⟩ := List.mem_iff_getElem.mp hp
  obtain ⟨k, hk, hx, hy⟩ := mem_pathEdges_iff.mp he
  refine ⟨pk, hpk, k, ?_, ?_, ?_⟩
  · show k + 1 < L[pk].length
    rw [hval]
    exact hk
  · show L[pk].get _ = x
    have : L[pk] = p := hval
    subst this
    exact hx
  · show L[pk].get _ = y
    have : L[pk] = p := hval
    subst this
    exact hy

theorem indexOf_le_of_getElem {l : List Nat} {a : Nat} {m : Nat} (hm : m < l.length)
    (h : l.get ⟨m, hm⟩ = a) : l.indexOf a ≤ m := by
  unfold List.indexOf
  by_contra hc
  push_neg at hc
  have := @List.not_of_lt_findIdx _ _ l _ hc
  have hval : l[m] = a := h
  simp [hval] at this

theorem indexOf_eq_of_nodup {l : List Nat} (hn : l.Nodup) {a : Nat} {m : Nat}
    (hm : m < l.length) (h : l.get ⟨m, hm⟩ = a) : l.indexOf a = m := by
  have hmem : a ∈ l := by
    rw [← h]
    exact List.get_mem l m hm
  have hlt : l.indexOf a < l.length := List.indexOf_lt_length.mpr hmem
  have hval : l.get ⟨l.indexOf a, hlt⟩ = a := List.getElem_indexOf hlt
  exact (List.Nodup.getElem_inj_iff hn).mp (hval.trans h.symm)

theorem indexOf_eq_of_dropLast_nodup {l : List Nat} (hdl : l.dropLast.Nodup)
    {a : Nat} {m : Nat} (hm1 : m + 1 < l.length) (h : l.get ⟨m, by omega⟩ = a) :
    l.indexOf a = m := by
  have hmem : a ∈ l := by
    rw [← h]
    exact List.get_mem l m (by omega)
  have hlt : l.indexOf a < l.length := List.indexOf_lt_length.mpr hmem
  have hval : l.get ⟨l.indexOf a, hlt⟩ = a := List.getElem_indexOf hlt
  have hle : l.indexOf a ≤ m := indexOf_le_of_getElem (by omega) h
  have hdlen : l.dropLast.length = l.length - 1 := List.length_dropLast l
  have h1 : l.dropLast.get ⟨l.indexOf a, by omega⟩ = a := by
    show l.dropLast[l.indexOf a] = a
    rw [List.getElem_dropLast]
    exact hval
  have h2 : l.dropLast.get ⟨m, by omega⟩ = a := by
    show l.dropLast[m] = a
    rw [List.getElem_dropLast]
    exact h
  exact (List.Nodup.getElem_inj_iff hdl).mp (h1.trans h2.symm)

theorem mem_pyInsertIdx {q p : List Nat} {M : Link} {k : Nat}
    (h : q ∈ pyInsertIdx M k p) : q = p ∨ q ∈ M := by
  unfold pyInsertIdx at h
  rw [insertIdx_eq_take_cons_drop M (min k M.length) p (Nat.min_le_right _ _)] at h
  rcases List.mem_append.mp h with h2 | h2
  · exact Or.inr ((List.take_sublist _ _).mem h2)
  · rcases List.mem_cons.mp h2 with h3 | h3
    · exact Or.inl h3
    · exact Or.inr ((List.drop_sublist _ _).mem h3)

theorem cover_cond_insert (M : Link) (k : Nat) (p : List Nat) (hC : Cover M)
    (hGP : 2 ≤ p.length → GoodPath p) (hdisj : ∀ q ∈ M, PathDisj p q) :
    Cover (if 1 < p.length then pyInsertIdx M k p else M) ∧
      linkEdgesM (if 1 < p.length then pyInsertIdx M k p else M) =
        pathEdgesM p + linkEdgesM M := by
  by_cases hlen : 1 < p.length
  · rw [if_pos hlen]
    have hrw : pyInsertIdx M k p =
        M.take (min k M.length) ++ p :: M.drop (min k M.length) := by
      unfold pyInsertIdx
      exact insertIdx_eq_take_cons_drop M (min k M.length) p (Nat.min_le_right _ _)
    rw [hrw]
    constructor
    · refine cover_insert_middle _ _ _ ?_ (hGP (by omega)) ?_
      · rw [List.take_append_drop]
        exact hC
      · intro q hq
        rw [List.take_append_drop] at hq
        exact hdisj q hq
    · rw [linkEdgesM_middle, List.take_append_drop]
  · rw [if_neg hlen]
    refine ⟨hC, ?_⟩
    have hpe : pathEdgesM p = 0 := by
      cases p with
      | nil => rfl
      | cons a t =>
          cases t with
          | nil => rfl
          | cons b t2 => simp at hlen
    rw [hpe, zero_add]

theorem headD_eq_getElem (p : List Nat) (h : 0 < p.length) :
    p.headD 0 = p.get ⟨0, h⟩ := by
  cases p with
  | nil => simp at h
  | cons a t => rfl

theorem getLastD_eq_getElem (p : List Nat) (h : 0 < p.length) :
    p.getLastD 0 = p.get ⟨p.length - 1, by omega⟩ := by
  rw [List.getLastD_eq_getLast?, List.getLast?_eq_getElem?,
    List.getElem?_eq_getElem (by omega : p.length - 1 < p.length)]
  rfl

theorem getLastD_take (p : List Nat) (k : Nat) (hk : k < p.length) :
    (p.take (k + 1)).getLastD 0 = p.get ⟨k, hk⟩ := by
  rw [List.take_succ, List.getElem?_eq_getElem hk]
  exact List.getLastD_concat _ _ _

theorem headD_drop (p : List Nat) (i : Nat) (hi : i < p.length) :
    (p.drop i).headD 0 = p.get ⟨i, hi⟩ := by
  rw [List.drop_eq_getElem_cons hi]
  rfl

theorem getLastD_drop (p : List Nat) (i : Nat) (hi : i < p.length) :
    (p.drop i).getLastD 0 = p.getLastD 0 := by
  rw [List.getLastD_eq_getLast?, List.getLastD_eq_getLast?, List.getLast?_drop,
    if_neg (by omega)]

theorem dropLast_drop_comm (p : List Nat) (i : Nat) :
    (p.drop i).dropLast = p.dropLast.drop i := by
  rw [List.dropLast_eq_take, List.dropLast_eq_take, List.drop_take]
  rw [List.length_drop]
  congr 1
  omega

theorem take_dropLast_comm (p : List Nat) (k : Nat) (hk : k ≤ p.length - 1) :
    p.take k = p.dropLast.take k := by
  rw [List.dropLast_eq_take, List.take_take, Nat.min_eq_left hk]

theorem pathEdgesM_split (p : List Nat) (k : Nat) (hk : k + 1 < p.length) :
    pathEdgesM p = pathEdgesM (p.take (k + 1)) +
      ((p.get ⟨k, by omega⟩, p.get ⟨k + 1, hk⟩) ::ₘ pathEdgesM (p.drop (k + 1))) := by
  have hne1 : p.take (k + 1) ≠ [] := by
    intro h
    have h1 := congrArg List.length h
    rw [List.length_take] at h1
    have h0 : min (k + 1) p.length = 0 := by simpa using h1
    omega
  have hne2 : p.drop (k + 1) ≠ [] := by
    intro h
    have h1 := congrArg List.length h
    rw [List.length_drop] at h1
    have h0 : p.length - (k + 1) = 0 := by simpa using h1
    omega
  conv_lhs => rw [← List.take_append_drop (k + 1) p]
  unfold pathEdgesM
  rw [pathEdges_append _ _ hne1 hne2, getLastD_take p k (by omega),
    headD_drop p (k + 1) hk, ← Multiset.coe_add]
  rfl

theorem headD_take (p : List Nat) (k : Nat) :
    (p.take (k + 1)).headD 0 = p.headD 0 := by
  cases p with
  | nil => rfl
  | cons a t => rfl

theorem remove_edge_ok (L : Link) (x y : Nat) (hC : Cover L)
    (hmem : (x, y) ∈ linkEdges L) :
    ∃ L2, __remove_face L x y = .ok L2 ∧ Cover L2 ∧
      linkEdgesM L = (x, y) ::ₘ linkEdgesM L2 := by
  obtain ⟨pk, hpk, k, hk, hxv, hyv⟩ := edge_locate hmem
  obtain ⟨hplen, hdl, hshape⟩ := hC.1 _ (List.get_mem L pk hpk)
  have hxm : x ∈ L.get ⟨pk, hpk⟩ := by
    rw [← hxv]
    exact List.get_mem _ _ _
  have hym : y ∈ L.get ⟨pk, hpk⟩ := by
    rw [← hyv]
    exact List.get_mem _ _ _
  have hgetD : List.getD L pk [] = L.get ⟨pk, hpk⟩ := by
    simp [List.getD, List.getElem?_eq_getElem hpk]
  have hiy : (L.get ⟨pk, hpk⟩).indexOf y < (L.get ⟨pk, hpk⟩).length :=
    List.indexOf_lt_length.mpr hym
  have hred : __remove_face L x y =
      (if ((L.get ⟨pk, hpk⟩).take ((L.get ⟨pk, hpk⟩).indexOf y)).length +
          ((L.get ⟨pk, hpk⟩).drop ((L.get ⟨pk, hpk⟩).indexOf y)).length ≤ 1 then
        .error "degenerate path"
      else if (L.get ⟨pk, hpk⟩).headD 0 = (L.get ⟨pk, hpk⟩).getLastD 0 then
        .ok (L.eraseIdx pk ++
          [((L.get ⟨pk, hpk⟩).drop ((L.get ⟨pk, hpk⟩).indexOf y)).dropLast ++
            (L.get ⟨pk, hpk⟩).take ((L.get ⟨pk, hpk⟩).indexOf y)])
      else
        .ok (if 1 < ((L.get ⟨pk, hpk⟩).drop ((L.get ⟨pk, hpk⟩).indexOf y)).length then
          pyInsertIdx
            (if 1 < ((L.get ⟨pk, hpk⟩).take ((L.get ⟨pk, hpk⟩).indexOf y)).length then
              pyInsertIdx (L.eraseIdx pk) pk
                ((L.get ⟨pk, hpk⟩).take ((L.get ⟨pk, hpk⟩).indexOf y))
            else L.eraseIdx pk) (pk + 1)
            ((L.get ⟨pk, hpk⟩).drop ((L.get ⟨pk, hpk⟩).indexOf y))
        else
          (if 1 < ((L.get ⟨pk, hpk⟩).take ((L.get ⟨pk, hpk⟩).indexOf y)).length then
            pyInsertIdx (L.eraseIdx pk) pk
              ((L.get ⟨pk, hpk⟩).take ((L.get ⟨pk, hpk⟩).indexOf y))
          else L.eraseIdx pk))) := by
    unfold __remove_face
    rw [scanLink_cover_mem hC hpk hxm, scanLink_cover_mem hC hpk hym]
    dsimp only
    rw [if_pos rfl, hgetD]
  have hlens : ¬ (((L.get ⟨pk, hpk⟩).take ((L.get ⟨pk, hpk⟩).indexOf y)).length +
      ((L.get ⟨pk, hpk⟩).drop ((L.get ⟨pk, hpk⟩).indexOf y)).length ≤ 1) := by
    rw [List.length_take, List.length_drop]
    omega
  rw [if_neg hlens] at hred
  have hCrest : Cover (L.eraseIdx pk) :=
    cover_of_sublist (List.eraseIdx_sublist _ _) hC
  have hrestdisj : ∀ q ∈ L.eraseIdx pk, ∀ v, v ∈ L.get ⟨pk, hpk⟩ → v ∉ q := by
    intro q hq v hv
    obtain ⟨j, hj, hne, hval⟩ := eraseIdx_get _ _ _ hq
    rw [← hval]
    exact cover_getElem_disj hC hpk hj (fun h => hne h.symm) v hv
  have hLE : linkEdgesM L =
      pathEdgesM (L.get ⟨pk, hpk⟩) + linkEdgesM (L.eraseIdx pk) :=
    linkEdgesM_eraseIdx L pk hpk
  rcases hshape with hnodup | ⟨hclosed, h3⟩
  · -- open path: split into up to two pieces
    have hidx : (L.get ⟨pk, hpk⟩).indexOf y = k + 1 := indexOf_eq_of_nodup hnodup hk hyv
    have hopen : ¬ ((L.get ⟨pk, hpk⟩).headD 0 = (L.get ⟨pk, hpk⟩).getLastD 0) := by
      rw [headD_eq_getElem _ (by omega), getLastD_eq_getElem _ (by omega)]
      intro hcontra
      have := (List.Nodup.getElem_inj_iff hnodup).mp hcontra
      omega
    rw [if_neg hopen] at hred
    have hsplitP := pathEdgesM_split (L.get ⟨pk, hpk⟩) k hk
    rw [hxv, hyv] at hsplitP
    have hnodup_take : ((L.get ⟨pk, hpk⟩).take (k + 1)).Nodup :=
      hnodup.sublist (List.take_sublist _ _)
    have hnodup_drop : ((L.get ⟨pk, hpk⟩).drop (k + 1)).Nodup :=
      hnodup.sublist (List.drop_sublist _ _)
    have hdisj_td : ∀ v, v ∈ (L.get ⟨pk, hpk⟩).drop (k + 1) →
        v ∉ (L.get ⟨pk, hpk⟩).take (k + 1) := by
      have hsplit : (L.get ⟨pk, hpk⟩).take (k + 1) ++ (L.get ⟨pk, hpk⟩).drop (k + 1) =
          L.get ⟨pk, hpk⟩ := List.take_append_drop _ _
      have hnd : ((L.get ⟨pk, hpk⟩).take (k + 1) ++
          (L.get ⟨pk, hpk⟩).drop (k + 1)).Nodup := by
        rw [hsplit]
        exact hnodup
      obtain ⟨-, -, hdisj⟩ := List.nodup_append.mp hnd
      exact fun v hv hvt => hdisj hvt hv
    obtain ⟨hC1, hE1⟩ := cover_cond_insert (L.eraseIdx pk) pk
      ((L.get ⟨pk, hpk⟩).take (k + 1)) hCrest
      (fun h2 => ⟨h2, hnodup_take.sublist (List.dropLast_sublist _), Or.inl hnodup_take⟩)
      (fun q hq v hv => hrestdisj q hq v ((List.take_sublist _ _).mem hv))
    obtain ⟨hC2, hE2⟩ := cover_cond_insert _ (pk + 1)
      ((L.get ⟨pk, hpk⟩).drop (k + 1)) hC1
      (fun h2 => ⟨h2, hnodup_drop.sublist (List.dropLast_sublist _), Or.inl hnodup_drop⟩)
      (by
        intro q hq v hv
        by_cases hft : 1 < ((L.get ⟨pk, hpk⟩).take (k + 1)).length
        · rw [if_pos hft] at hq
          rcases mem_pyInsertIdx hq with rfl | hq2
          · exact fun hvt => hdisj_td v hv hvt
          · exact hrestdisj q hq2 v ((List.drop_sublist _ _).mem hv)
        · rw [if_neg hft] at hq
          exact hrestdisj q hq v ((List.drop_sublist _ _).mem hv))
    rw [hidx] at hred
    refine ⟨_, hred, hC2, ?_⟩
    rw [hE2, hE1, hLE, hsplitP]
    simp only [← Multiset.singleton_add]
    abel
  · -- closed path
    have hclD : (L.get ⟨pk, hpk⟩).headD 0 = (L.get ⟨pk, hpk⟩).getLastD 0 := by
      rw [List.headD_eq_head?, List.getLastD_eq_getLast?, hclosed]
    rw [if_pos hclD] at hred
    have hlastval : (L.get ⟨pk, hpk⟩).getLastD 0 =
        (L.get ⟨pk, hpk⟩).get ⟨(L.get ⟨pk, hpk⟩).length - 1, by omega⟩ :=
      getLastD_eq_getElem _ (by omega)
    by_cases hya : y = (L.get ⟨pk, hpk⟩).headD 0
    · -- removing the wrap edge: y is the head, x the second-to-last entry
      have hidx : (L.get ⟨pk, hpk⟩).indexOf y = 0 := by
        apply head_some_indexOf_zero
        cases hp : L.get ⟨pk, hpk⟩ with
        | nil =>
            rw [hp] at hplen
            simp at hplen
        | cons a t =>
            rw [hp] at hya
            simp at hya
            rw [hya]
            rfl
      rw [hidx] at hred
      simp only [List.take_zero, List.drop_zero, List.append_nil] at hred
      -- k + 1 must be the closing position
      have hk1 : k + 1 = (L.get ⟨pk, hpk⟩).length - 1 := by
        by_contra hne
        have hkdl : k + 1 < (L.get ⟨pk, hpk⟩).dropLast.length := by
          rw [List.length_dropLast]
          omega
        have h0dl : 0 < (L.get ⟨pk, hpk⟩).dropLast.length := by
          rw [List.length_dropLast]
          omega
        have hv1 : (L.get ⟨pk, hpk⟩).dropLast.get ⟨k + 1, hkdl⟩ = y := by
          show (L.get ⟨pk, hpk⟩).dropLast[k + 1] = y
          rw [List.getElem_dropLast]
          exact hyv
        have hv0 : (L.get ⟨pk, hpk⟩).dropLast.get ⟨0, h0dl⟩ = y := by
          show (L.get ⟨pk, hpk⟩).dropLast[0] = y
          rw [List.getElem_dropLast]
          rw [hya, headD_eq_getElem _ (by omega)]
          rfl
        have := (List.Nodup.getElem_inj_iff hdl).mp (hv1.trans hv0.symm)
        omega
      have hxlast : ((L.get ⟨pk, hpk⟩).dropLast).getLastD 0 = x := by
        have hdll : (L.get ⟨pk, hpk⟩).dropLast = (L.get ⟨pk, hpk⟩).take (k + 1) := by
          rw [List.dropLast_eq_take, hk1]
        rw [hdll, getLastD_take _ k (by omega), hxv]
      have hdlne : (L.get ⟨pk, hpk⟩).dropLast ≠ [] := by
        intro h
        have := congrArg List.length h
        rw [List.length_dropLast] at this
        have h0 : (L.get ⟨pk, hpk⟩).length - 1 = 0 := by simpa using this
        omega
      have hPne : L.get ⟨pk, hpk⟩ ≠ [] := by
        intro h
        rw [h] at hplen
        simp at hplen
      have hPsplit : (L.get ⟨pk, hpk⟩).dropLast ++ [y] = L.get ⟨pk, hpk⟩ := by
        have h1 := List.dropLast_append_getLast hPne
        have h2 : (L.get ⟨pk, hpk⟩).getLast hPne = y := by
          have h3 : (L.get ⟨pk, hpk⟩).getLastD 0 = (L.get ⟨pk, hpk⟩).getLast hPne :=
            getLastD_eq_of_getLast_opt (List.getLast?_eq_getLast _ hPne)
          rw [← h3, ← hclD, hya]
        rw [← h2]
        exact h1
      have hpedge : pathEdgesM (L.get ⟨pk, hpk⟩) =
          pathEdgesM ((L.get ⟨pk, hpk⟩).dropLast) + {(x, y)} := by
        unfold pathEdgesM
        conv_lhs => rw [← hPsplit]
        rw [pathEdges_append_single _ hdlne, hxlast, ← Multiset.coe_add]
        rfl
      refine ⟨_, hred, ?_, ?_⟩
      · refine cover_insert_middle (L.eraseIdx pk) [] _ (by simpa using hCrest) ?_ ?_
        · refine ⟨?_, hdl.sublist (List.dropLast_sublist _), Or.inl hdl⟩
          rw [List.length_dropLast]
          omega
        · intro q hq v hv
          simp at hq
          exact hrestdisj q hq v (List.mem_of_mem_dropLast hv)
      · rw [hLE, hpedge]
        have : linkEdgesM (L.eraseIdx pk ++ [(L.get ⟨pk, hpk⟩).dropLast]) =
            pathEdgesM ((L.get ⟨pk, hpk⟩).dropLast) + linkEdgesM (L.eraseIdx pk) := by
          have hsh : L.eraseIdx pk ++ [(L.get ⟨pk, hpk⟩).dropLast] =
              L.eraseIdx pk ++ (L.get ⟨pk, hpk⟩).dropLast :: [] := rfl
          rw [hsh, linkEdgesM_middle]
          simp
        rw [this]
        simp only [← Multiset.singleton_add]
        abel
    · -- removing an interior edge of the cycle: rotate the path
      have hyne : y ≠ (L.get ⟨pk, hpk⟩).getLastD 0 := by
        intro hcontra
        exact hya (by rw [hclD, ← hcontra])
      have hk2 : k + 1 < (L.get ⟨pk, hpk⟩).length - 1 := by
        rcases Nat.lt_or_ge (k + 1) ((L.get ⟨pk, hpk⟩).length - 1) with h | h
        · exact h
        · exfalso
          apply hyne
          have hkk : k + 1 = (L.get ⟨pk, hpk⟩).length - 1 := by omega
          rw [← hyv, hlastval]
          congr 1
          exact Fin.ext hkk
      have hidx : (L.get ⟨pk, hpk⟩).indexOf y = k + 1 :=
        indexOf_eq_of_dropLast_nodup hdl (by omega) hyv
      rw [hidx] at hred
      refine ⟨_, hred, ?_, ?_⟩
      · refine cover_insert_middle (L.eraseIdx pk) [] _ (by simpa using hCrest) ?_ ?_
        · -- GoodPath of the rotated path
          have hnodup_new : (((L.get ⟨pk, hpk⟩).drop (k + 1)).dropLast ++
              (L.get ⟨pk, hpk⟩).take (k + 1)).Nodup := by
            rw [dropLast_drop_comm, take_dropLast_comm _ (k + 1) (by omega)]
            have hsplit2 : ((L.get ⟨pk, hpk⟩).dropLast.take (k + 1) ++
                (L.get ⟨pk, hpk⟩).dropLast.drop (k + 1)).Nodup := by
              rw [List.take_append_drop]
              exact hdl
            obtain ⟨h1, h2, h3⟩ := List.nodup_append.mp hsplit2
            exact List.nodup_append.mpr ⟨h2, h1, fun a ha hb => h3 hb ha⟩
          refine ⟨?_, hnodup_new.sublist (List.dropLast_sublist _), Or.inl hnodup_new⟩
          rw [List.length_append, List.length_dropLast, List.length_drop,
            List.length_take]
          omega
        · intro q hq v hv
          simp at hq
          rcases List.mem_append.mp hv with hv2 | hv2
          · exact hrestdisj q hq v
              ((List.drop_sublist _ _).mem (List.mem_of_mem_dropLast hv2))
          · exact hrestdisj q hq v ((List.take_sublist _ _).mem hv2)
      · -- edge bookkeeping for the rotation
        have hanew : linkEdgesM (L.eraseIdx pk ++
            [((L.get ⟨pk, hpk⟩).drop (k + 1)).dropLast ++
              (L.get ⟨pk, hpk⟩).take (k + 1)]) =
            pathEdgesM (((L.get ⟨pk, hpk⟩).drop (k + 1)).dropLast ++
              (L.get ⟨pk, hpk⟩).take (k + 1)) + linkEdgesM (L.eraseIdx pk) := by
          have hsh : L.eraseIdx pk ++
              [((L.get ⟨pk, hpk⟩).drop (k + 1)).dropLast ++
                (L.get ⟨pk, hpk⟩).take (k + 1)] =
              L.eraseIdx pk ++
                (((L.get ⟨pk, hpk⟩).drop (k + 1)).dropLast ++
                  (L.get ⟨pk, hpk⟩).take (k + 1)) :: [] := rfl
          rw [hsh, linkEdgesM_middle]
          simp
        have hdropne : ((L.get ⟨pk, hpk⟩).drop (k + 1)).dropLast ≠ [] := by
          intro h
          have h1 := congrArg List.length h
          rw [List.length_dropLast, List.length_drop] at h1
          have h0 : (L.get ⟨pk, hpk⟩).length - (k + 1) - 1 = 0 := by simpa using h1
          omega
        have htakene : (L.get ⟨pk, hpk⟩).take (k + 1) ≠ [] := by
          intro h
          have h1 := congrArg List.length h
          rw [List.length_take] at h1
          have h0 : min (k + 1) (L.get ⟨pk, hpk⟩).length = 0 := by simpa using h1
          omega
        have hdropne2 : (L.get ⟨pk, hpk⟩).drop (k + 1) ≠ [] := by
          intro h
          have h1 := congrArg List.length h
          rw [List.length_drop] at h1
          have h0 : (L.get ⟨pk, hpk⟩).length - (k + 1) = 0 := by simpa using h1
          omega
        have hlatest_split : (L.get ⟨pk, hpk⟩).drop (k + 1) =
            ((L.get ⟨pk, hpk⟩).drop (k + 1)).dropLast ++ [(L.get ⟨pk, hpk⟩).headD 0] := by
          have h1 := List.dropLast_append_getLast hdropne2
          have h2 : ((L.get ⟨pk, hpk⟩).drop (k + 1)).getLast hdropne2 =
              (L.get ⟨pk, hpk⟩).headD 0 := by
            have h3 : ((L.get ⟨pk, hpk⟩).drop (k + 1)).getLastD 0 =
                ((L.get ⟨pk, hpk⟩).drop (k + 1)).getLast hdropne2 :=
              getLastD_eq_of_getLast_opt (List.getLast?_eq_getLast _ hdropne2)
            rw [← h3, getLastD_drop _ _ (by omega), ← hclD]
          rw [← h2]
          exact h1.symm
        have hsplitP := pathEdgesM_split (L.get ⟨pk, hpk⟩) k hk
        rw [hxv, hyv] at hsplitP
        have hdropedges : pathEdgesM ((L.get ⟨pk, hpk⟩).drop (k + 1)) =
            pathEdgesM (((L.get ⟨pk, hpk⟩).drop (k + 1)).dropLast) +
              ((((L.get ⟨pk, hpk⟩).drop (k + 1)).dropLast.getLastD 0,
                (L.get ⟨pk, hpk⟩).headD 0) ::ₘ 0) := by
          unfold pathEdgesM
          conv_lhs => rw [hlatest_split]
          rw [pathEdges_append_single _ hdropne, ← Multiset.coe_add]
          rfl
        have hnewedges : pathEdgesM (((L.get ⟨pk, hpk⟩).drop (k + 1)).dropLast ++
            (L.get ⟨pk, hpk⟩).take (k + 1)) =
            pathEdgesM (((L.get ⟨pk, hpk⟩).drop (k + 1)).dropLast) +
              ((((L.get ⟨pk, hpk⟩).drop (k + 1)).dropLast.getLastD 0,
                (L.get ⟨pk, hpk⟩).headD 0) ::ₘ
                pathEdgesM ((L.get ⟨pk, hpk⟩).take (k + 1))) := by
          unfold pathEdgesM
          rw [pathEdges_append _ _ hdropne htakene, headD_take, ← Multiset.coe_add]
          rfl
        rw [hanew, hnewedges, hLE, hsplitP, hdropedges]
        simp only [← Multiset.singleton_add]
        abel

theorem cover_edges_nil (L : Link) (hC : Cover L) (hE : linkEdgesM L = 0) :
    L = [] := by
  cases hL : L with
  | nil => rfl
  | cons p t =>
      exfalso
      have hp : p ∈ L := by
        rw [hL]
        exact List.mem_cons_self _ _
      obtain ⟨hlen, -, -⟩ := hC.1 p hp
      have hpe : pathEdges p ≠ [] := by
        cases p with
        | nil => simp at hlen
        | cons a t2 =>
            cases t2 with
            | nil => simp at hlen
            | cons b t3 => simp [pathEdges_cons_cons]
      have : linkEdges L ≠ [] := by
        rw [hL, linkEdges_cons]
        intro h
        exact hpe (List.append_eq_nil.mp h).1
      apply this
      have h2 := hE
      unfold linkEdgesM at h2
      exact (Multiset.coe_eq_zero _).mp h2

theorem links_setLinks (s : LinkVertices) (i : Nat) (l : Link) (j : Nat) :
    (s.setLinks i l).links j =
      if i = j ∧ i < s.vertices.length then l else s.links j := by
  unfold LinkVertices.setLinks LinkVertices.links
  show ((s.vertices.modify _ i).getD j _).links = _
  rcases Nat.lt_or_ge i s.vertices.length with hi | hi
  · rcases Nat.decEq i j with h | h
    · simp [List.getD, List.getElem?_modify, h, hi]
    · subst h
      simp [List.getD, List.getElem?_modify, hi, List.getElem?_eq_getElem hi]
  · have : s.vertices.modify (fun _ => ⟨l⟩) i = s.vertices := by
      rw [List.modify_eq_set_get? _ i, List.get?_eq_none.mpr hi]
      rfl
    simp [this, Nat.not_lt.mpr hi]

theorem length_setLinks (s : LinkVertices) (i : Nat) (l : Link) :
    (s.setLinks i l).vertices.length = s.vertices.length := by
  simp [LinkVertices.setLinks]

/-- The directed link edges that face (a, b, c) contributes to the link of
vertex u: one rotation per vertex of the face. -/
def rotEdge (u : Nat) (f : Nat × Nat × Nat) : Multiset (Nat × Nat) :=
  (if u = f.1 then {(f.2.1, f.2.2)} else 0) +
    (if u = f.2.1 then {(f.2.2, f.1)} else 0) +
    (if u = f.2.2 then {(f.1, f.2.1)} else 0)

/-- The fan-extension precondition of one link-level face insertion:
the new neighbors are distinct, v1 has no successor yet and v2 no
predecessor. -/
def ValidNewEdge (L : Link) (x y : Nat) : Prop :=
  x ≠ y ∧ (∀ e ∈ linkEdges L, e.1 ≠ x) ∧ (∀ e ∈ linkEdges L, e.2 ≠ y)

theorem exceptBind_ok {α β : Type} (a : α) (f : α → Except String β) :
    ((Except.ok a : Except String α) >>= f) = f a := rfl

theorem insert_face_tds (s : LinkVertices) (a b c : Nat)
    (hab : a ≠ b) (hbc : b ≠ c) (hac : a ≠ c)
    (hra : a < s.vertices.length) (hrb : b < s.vertices.length)
    (hrc : c < s.vertices.length)
    (hC : ∀ u, Cover (s.links u))
    (ha : ValidNewEdge (s.links a) b c) (hb : ValidNewEdge (s.links b) c a)
    (hc : ValidNewEdge (s.links c) a b) :
    ∃ s2, s.insert_face a b c = .ok s2 ∧
      (∀ u, Cover (s2.links u)) ∧
      (∀ u, linkEdgesM (s2.links u) = linkEdgesM (s.links u) + rotEdge u (a, b, c)) ∧
      s2.vertices.length = s.vertices.length := by
  obtain ⟨l0, h0, hC0, hE0⟩ :=
    insert_edge_ok (s.links a) b c (hC a) ha.1 ha.2.1 ha.2.2
  have hs1b : (s.setLinks a l0).links b = s.links b := by
    rw [links_setLinks]
    simp [hab]
  have hs1c : (s.setLinks a l0).links c = s.links c := by
    rw [links_setLinks]
    simp [hac]
  obtain ⟨l1, h1, hC1, hE1⟩ :=
    insert_edge_ok (s.links b) c a (hC b) hb.1 hb.2.1 hb.2.2
  have hs2c : ((s.setLinks a l0).setLinks b l1).links c = s.links c := by
    rw [links_setLinks]
    simp [hbc, hs1c]
  obtain ⟨l2, h2, hC2, hE2⟩ :=
    insert_edge_ok (s.links c) a b (hC c) hc.1 hc.2.1 hc.2.2
  have hlinks : ∀ u, (((s.setLinks a l0).setLinks b l1).setLinks c l2).links u =
      if u = c then l2 else if u = b then l1 else if u = a then l0 else s.links u := by
    intro u
    rw [links_setLinks, links_setLinks, links_setLinks, length_setLinks,
      length_setLinks]
    by_cases huc : u = c
    · subst huc
      simp [hrc]
    · rw [if_neg (fun h => huc ((h : c = u ∧ _).1.symm)), if_neg huc]
      by_cases hub : u = b
      · subst hub
        simp [hrb]
      · rw [if_neg (fun h => hub ((h : b = u ∧ _).1.symm)), if_neg hub]
        by_cases hua : u = a
        · subst hua
          simp [hra]
        · rw [if_neg (fun h => hua ((h : a = u ∧ _).1.symm)), if_neg hua]
  refine ⟨((s.setLinks a l0).setLinks b l1).setLinks c l2, ?_, ?_, ?_, ?_⟩
  · unfold LinkVertices.insert_face
    simp only [h0, exceptBind_ok]
    simp only [hs1b, h1, exceptBind_ok]
    simp only [hs2c, h2, exceptBind_ok]
    rfl
  · intro u
    rw [hlinks u]
    by_cases huc : u = c
    · rw [if_pos huc]
      exact hC2
    · rw [if_neg huc]
      by_cases hub : u = b
      · rw [if_pos hub]
        exact hC1
      · rw [if_neg hub]
        by_cases hua : u = a
        · rw [if_pos hua]
          exact hC0
        · rw [if_neg hua]
          exact hC u
  · intro u
    rw [hlinks u]
    by_cases huc : u = c
    · rw [if_pos huc]
      have hrot : rotEdge u (a, b, c) = {(a, b)} := by
        unfold rotEdge
        rw [if_neg (by rw [huc]; exact Ne.symm hac),
          if_neg (by rw [huc]; exact Ne.symm hbc), if_pos huc]
        simp
      rw [hrot, huc, hE2, ← Multiset.singleton_add]
      exact add_comm _ _
    · rw [if_neg huc]
      by_cases hub : u = b
      · rw [if_pos hub]
        have hrot : rotEdge u (a, b, c) = {(c, a)} := by
          unfold rotEdge
          rw [if_neg (by rw [hub]; exact Ne.symm hab), if_pos hub,
            if_neg (by rw [hub]; exact hbc)]
          simp
        rw [hrot, hub, hE1, ← Multiset.singleton_add]
        exact add_comm _ _
      · rw [if_neg hub]
        by_cases hua : u = a
        · rw [if_pos hua]
          have hrot : rotEdge u (a, b, c) = {(b, c)} := by
            unfold rotEdge
            rw [if_pos hua, if_neg (by rw [hua]; exact hab),
              if_neg (by rw [hua]; exact hac)]
            simp
          rw [hrot, hua, hE0, ← Multiset.singleton_add]
          exact add_comm _ _
        · rw [if_neg hua]
          have hrot : rotEdge u (a, b, c) = 0 := by
            unfold rotEdge
            rw [if_neg hua, if_neg hub, if_neg huc]
            simp
          rw [hrot, add_zero]
  · rw [length_setLinks, length_setLinks, length_setLinks]

theorem remove_face_tds (s : LinkVertices) (a b c : Nat)
    (hab : a ≠ b) (hbc : b ≠ c) (hac : a ≠ c)
    (hra : a < s.vertices.length) (hrb : b < s.vertices.length)
    (hrc : c < s.vertices.length)
    (hC : ∀ u, Cover (s.links u))
    (hma : (b, c) ∈ linkEdges (s.links a))
    (hmb : (c, a) ∈ linkEdges (s.links b))
    (hmc : (a, b) ∈ linkEdges (s.links c)) :
    ∃ s2, s.remove_face a b c = .ok s2 ∧
      (∀ u, Cover (s2.links u)) ∧
      (∀ u, linkEdgesM (s.links u) = linkEdgesM (s2.links u) + rotEdge u (a, b, c)) ∧
      s2.vertices.length = s.vertices.length := by
  obtain ⟨l0, h0, hC0, hE0⟩ := remove_edge_ok (s.links a) b c (hC a) hma
  have hs1b : (s.setLinks a l0).links b = s.links b := by
    rw [links_setLinks]
    simp [hab]
  have hs1c : (s.setLinks a l0).links c = s.links c := by
    rw [links_setLinks]
    simp [hac]
  obtain ⟨l1, h1, hC1, hE1⟩ := remove_edge_ok (s.links b) c a (hC b) hmb
  have hs2c : ((s.setLinks a l0).setLinks b l1).links c = s.links c := by
    rw [links_setLinks]
    simp [hbc, hs1c]
  obtain ⟨l2, h2, hC2, hE2⟩ := remove_edge_ok (s.links c) a b (hC c) hmc
  have hlinks : ∀ u, (((s.setLinks a l0).setLinks b l1).setLinks c l2).links u =
      if u = c then l2 else if u = b then l1 else if u = a then l0 else s.links u := by
    intro u
    rw [links_setLinks, links_setLinks, links_setLinks, length_setLinks,
      length_setLinks]
    by_cases huc : u = c
    · subst huc
      simp [hrc]
    · rw [if_neg (fun h => huc ((h : c = u ∧ _).1.symm)), if_neg huc]
      by_cases hub : u = b
      · subst hub
        simp [hrb]
      · rw [if_neg (fun h => hub ((h : b = u ∧ _).1.symm)), if_neg hub]
        by_cases hua : u = a
        · subst hua
          simp [hra]
        · rw [if_neg (fun h => hua ((h : a = u ∧ _).1.symm)), if_neg hua]
  refine ⟨((s.setLinks a l0).setLinks b l1).setLinks c l2, ?_, ?_, ?_, ?_⟩
  · unfold LinkVertices.remove_face
    simp only [h0, exceptBind_ok]
    simp only [hs1b, h1, exceptBind_ok]
    simp only [hs2c, h2, exceptBind_ok]
    rfl
  · intro u
    rw [hlinks u]
    by_cases huc : u = c
    · rw [if_pos huc]
      exact hC2
    · rw [if_neg huc]
      by_cases hub : u = b
      · rw [if_pos hub]
        exact hC1
      · rw [if_neg hub]
        by_cases hua : u = a
        · rw [if_pos hua]
          exact hC0
        · rw [if_neg hua]
          exact hC u
  · intro u
    rw [hlinks u]
    by_cases huc : u = c
    · rw [if_pos huc]
      have hrot : rotEdge u (a, b, c) = {(a, b)} := by
        unfold rotEdge
        rw [if_neg (by rw [huc]; exact Ne.symm hac),
          if_neg (by rw [huc]; exact Ne.symm hbc), if_pos huc]
        simp
      rw [hrot, huc, hE2, ← Multiset.singleton_add]
      exact add_comm _ _
    · rw [if_neg huc]
      by_cases hub : u = b
      · rw [if_pos hub]
        have hrot : rotEdge u (a, b, c) = {(c, a)} := by
          unfold rotEdge
          rw [if_neg (by rw [hub]; exact Ne.symm hab), if_pos hub,
            if_neg (by rw [hub]; exact hbc)]
          simp
        rw [hrot, hub, hE1, ← Multiset.singleton_add]
        exact add_comm _ _
      · rw [if_neg hub]
        by_cases hua : u = a
        · rw [if_pos hua]
          have hrot : rotEdge u (a, b, c) = {(b, c)} := by
            unfold rotEdge
            rw [if_pos hua, if_neg (by rw [hua]; exact hab),
              if_neg (by rw [hua]; exact hac)]
            simp
          rw [hrot, hua, hE0, ← Multiset.singleton_add]
          exact add_comm _ _
        · rw [if_neg hua]
          have hrot : rotEdge u (a, b, c) = 0 := by
            unfold rotEdge
            rw [if_neg hua, if_neg hub, if_neg huc]
            simp
          rw [hrot, add_zero]
  · rw [length_setLinks, length_setLinks, length_setLinks]

/-- A client running a list of insert_face calls in order. -/
def insertAll (s : LinkVertices) : List (Nat × Nat × Nat) → Except String LinkVertices
  | [] => .ok s
  | f :: rest => do
      let s2 ← s.insert_face f.1 f.2.1 f.2.2
      insertAll s2 rest

/-- A client running a list of remove_face calls in order. -/
def removeAll (s : LinkVertices) : List (Nat × Nat × Nat) → Except String LinkVertices
  | [] => .ok s
  | f :: rest => do
      let s2 ← s.remove_face f.1 f.2.1 f.2.2
      removeAll s2 rest

def faceDistinct (f : Nat × Nat × Nat) : Prop :=
  f.1 ≠ f.2.1 ∧ f.2.1 ≠ f.2.2 ∧ f.1 ≠ f.2.2

/-- Each insertion of the sequence is a valid face of the current state:
distinct in-range vertices and, in each of the three links, the new
neighbor pair extends a fan (no successor of v1, no predecessor of v2). -/
def ValidFaceSeq (s : LinkVertices) : List (Nat × Nat × Nat) → Prop
  | [] => True
  | f :: rest =>
      faceDistinct f ∧ f.1 < s.vertices.length ∧ f.2.1 < s.vertices.length ∧
      f.2.2 < s.vertices.length ∧
      ValidNewEdge (s.links f.1) f.2.1 f.2.2 ∧
      ValidNewEdge (s.links f.2.1) f.2.2 f.1 ∧
      ValidNewEdge (s.links f.2.2) f.1 f.2.1 ∧
      ∀ s2, s.insert_face f.1 f.2.1 f.2.2 = .ok s2 → ValidFaceSeq s2 rest

/-- All edges contributed to the link of u by a list of faces. -/
def faceListEdges (u : Nat) (faces : List (Nat × Nat × Nat)) : Multiset (Nat × Nat) :=
  (faces.map (rotEdge u)).sum

theorem insertAll_ok : ∀ (faces : List (Nat × Nat × Nat)) (s : LinkVertices),
    (∀ u, Cover (s.links u)) → ValidFaceSeq s faces →
    ∃ s2, insertAll s faces = .ok s2 ∧ (∀ u, Cover (s2.links u)) ∧
      (∀ u, linkEdgesM (s2.links u) = linkEdgesM (s.links u) + faceListEdges u faces) ∧
      s2.vertices.length = s.vertices.length ∧
      (∀ f ∈ faces, faceDistinct f ∧ f.1 < s.vertices.length ∧
        f.2.1 < s.vertices.length ∧ f.2.2 < s.vertices.length) := by
  intro faces
  induction faces with
  | nil =>
      intro s hC _
      refine ⟨s, rfl, hC, ?_, rfl, by simp⟩
      intro u
      have : faceListEdges u [] = 0 := rfl
      rw [this, add_zero]
  | cons f rest ih =>
      intro s hC hvalid
      obtain ⟨⟨hd1, hd2, hd3⟩, hr1, hr2, hr3, hv1, hv2, hv3, hnext⟩ := hvalid
      obtain ⟨s1, hstep, hC1, hE1, hlen1⟩ :=
        insert_face_tds s f.1 f.2.1 f.2.2 hd1 hd2 hd3 hr1 hr2 hr3 hC hv1 hv2 hv3
      obtain ⟨s2, hrun, hC2, hE2, hlen2, hfacts⟩ := ih s1 hC1 (hnext s1 hstep)
      refine ⟨s2, ?_, hC2, ?_, by omega, ?_⟩
      · unfold insertAll
        simp only [hstep, exceptBind_ok]
        exact hrun
      · intro u
        rw [hE2 u, hE1 u]
        have hfl : faceListEdges u (f :: rest) = rotEdge u f + faceListEdges u rest := by
          unfold faceListEdges
          rw [List.map_cons, List.sum_cons]
        rw [hfl]
        abel
      · intro g hg
        rcases List.mem_cons.mp hg with rfl | hg2
        · exact ⟨⟨hd1, hd2, hd3⟩, hr1, hr2, hr3⟩
        · obtain ⟨hgd, hga, hgb, hgc⟩ := hfacts g hg2
          exact ⟨hgd, by omega, by omega, by omega⟩

theorem removeAll_ok : ∀ (rem : List (Nat × Nat × Nat)) (s : LinkVertices),
    (∀ u, Cover (s.links u)) →
    (∀ u, linkEdgesM (s.links u) = faceListEdges u rem) →
    (∀ f ∈ rem, faceDistinct f ∧ f.1 < s.vertices.length ∧
      f.2.1 < s.vertices.length ∧ f.2.2 < s.vertices.length) →
    ∃ s2, removeAll s rem = .ok s2 ∧ (∀ u, Cover (s2.links u)) ∧
      (∀ u, linkEdgesM (s2.links u) = 0) ∧
      s2.vertices.length = s.vertices.length := by
  intro rem
  induction rem with
  | nil =>
      intro s hC hE _
      refine ⟨s, rfl, hC, ?_, rfl⟩
      intro u
      rw [hE u]
      rfl
  | cons f rest ih =>
      intro s hC hE hfacts
      obtain ⟨⟨hd1, hd2, hd3⟩, hr1, hr2, hr3⟩ := hfacts f (List.mem_cons_self _ _)
      have hfl : ∀ u, faceListEdges u (f :: rest) =
          rotEdge u f + faceListEdges u rest := by
        intro u
        unfold faceListEdges
        rw [List.map_cons, List.sum_cons]
      have hmemrot : ∀ (u : Nat) (e : Nat × Nat), rotEdge u f = {e} →
          (e.1, e.2) ∈ linkEdges (s.links u) := by
        intro u e hrot
        have h1 : e ∈ linkEdgesM (s.links u) := by
          rw [hE u, hfl u, hrot]
          simp
        unfold linkEdgesM at h1
        rcases e with ⟨e1, e2⟩
        exact Multiset.mem_coe.mp h1
      have hrot1 : rotEdge f.1 (f.1, f.2.1, f.2.2) = {(f.2.1, f.2.2)} := by
        unfold rotEdge
        rw [if_pos rfl, if_neg hd1, if_neg hd3]
        simp
      have hrot2 : rotEdge f.2.1 (f.1, f.2.1, f.2.2) = {(f.2.2, f.1)} := by
        unfold rotEdge
        rw [if_neg (Ne.symm hd1), if_pos rfl, if_neg hd2]
        simp
      have hrot3 : rotEdge f.2.2 (f.1, f.2.1, f.2.2) = {(f.1, f.2.1)} := by
        unfold rotEdge
        rw [if_neg (Ne.symm hd3), if_neg (Ne.symm hd2), if_pos rfl]
        simp
      obtain ⟨s1, hstep, hC1, hE1, hlen1⟩ :=
        remove_face_tds s f.1 f.2.1 f.2.2 hd1 hd2 hd3 hr1 hr2 hr3 hC
          (hmemrot f.1 (f.2.1, f.2.2) hrot1)
          (hmemrot f.2.1 (f.2.2, f.1) hrot2)
          (hmemrot f.2.2 (f.1, f.2.1) hrot3)
      have hE1b : ∀ u, linkEdgesM (s1.links u) = faceListEdges u rest := by
        intro u
        have h1 := hE1 u
        rw [hE u, hfl u] at h1
        have h2 : rotEdge u (f.1, f.2.1, f.2.2) + faceListEdges u rest =
            rotEdge u (f.1, f.2.1, f.2.2) + linkEdgesM (s1.links u) := by
          rw [h1]
          abel
        exact (add_left_cancel h2).symm
      obtain ⟨s2, hrun, hC2, hE2, hlen2⟩ := ih s1 hC1 hE1b (by
        intro g hg
        obtain ⟨hgd, hga, hgb, hgc⟩ := hfacts g (List.mem_cons_of_mem _ hg)
        exact ⟨hgd, by omega, by omega, by omega⟩)
      refine ⟨s2, ?_, hC2, hE2, by omega⟩
      unfold removeAll
      simp only [hstep, exceptBind_ok]
      exact hrun

theorem links_eq_getElem (s : LinkVertices) (i : Nat) (hi : i < s.vertices.length) :
    s.links i = (s.vertices[i]).links := by
  unfold LinkVertices.links
  rw [List.getD_eq_getElem?_getD, List.getElem?_eq_getElem hi]
  rfl

theorem lvertex_eq_empty (v : LVertex) (h : v.links = []) : v = ⟨[]⟩ := by
  cases v
  exact congrArg LVertex.mk h

theorem state_eq_of_links_empty (s t : LinkVertices)
    (hlen : s.vertices.length = t.vertices.length)
    (hs : ∀ u, s.links u = []) (ht : ∀ u, t.links u = []) : s = t := by
  cases s with
  | mk vs =>
    cases t with
    | mk vt =>
      congr 1
      refine List.ext_getElem hlen ?_
      intro n h1 h2
      have e1 : vs[n] = (⟨[]⟩ : LVertex) :=
        lvertex_eq_empty _ (((links_eq_getElem ⟨vs⟩ n h1).symm).trans (hs n))
      have e2 : vt[n] = (⟨[]⟩ : LVertex) :=
        lvertex_eq_empty _ (((links_eq_getElem ⟨vt⟩ n h2).symm).trans (ht n))
      rw [e1, e2]

/-- Claim C4 (amended).  In the link variant, for every sequence of
insert_face calls on a state in which every link is empty, in which each
inserted face has three distinct in-range vertices and each of its three
directed link edges extends a fan of the corresponding current link (the
new first vertex has no successor there and the new second vertex has no
predecessor there), followed by remove_face calls on the same faces in any
order, every insert_face and remove_face call returns normally — in
particular every removal precondition (the scan assertions) holds
automatically — and the final state equals the initial state: every
vertex's link-path list is empty.  Without the fan-extension hypothesis on
the inserts the round trip can leave stale links (and, in the guard
variant, stale guard sets); see the counterexample. -/
theorem link_insert_remove_round_trip (s0 : LinkVertices)
    (faces rem : List (Nat × Nat × Nat))
    (hinit : ∀ u, s0.links u = [])
    (hvalid : ValidFaceSeq s0 faces)
    (hperm : rem.Perm faces) :
    ∃ s1 s2, insertAll s0 faces = .ok s1 ∧ removeAll s1 rem = .ok s2 ∧
      (∀ u, s2.links u = []) ∧ s2 = s0 := by
  have hC0 : ∀ u, Cover (s0.links u) := by
    intro u
    rw [hinit u]
    exact ⟨fun p hp => absurd hp (List.not_mem_nil p), List.Pairwise.nil⟩
  obtain ⟨s1, hins, hC1, hE1, hlen1, hfacts⟩ := insertAll_ok faces s0 hC0 hvalid
  have hE1b : ∀ u, linkEdgesM (s1.links u) = faceListEdges u rem := by
    intro u
    rw [hE1 u, hinit u]
    have h0 : linkEdgesM ([] : Link) = 0 := rfl
    rw [h0, zero_add]
    unfold faceListEdges
    exact ((hperm.map (rotEdge u)).sum_eq).symm
  have hfacts1 : ∀ f ∈ rem, faceDistinct f ∧ f.1 < s1.vertices.length ∧
      f.2.1 < s1.vertices.length ∧ f.2.2 < s1.vertices.length := by
    intro f hf
    obtain ⟨hd, ha, hb, hc⟩ := hfacts f (hperm.mem_iff.mp hf)
    exact ⟨hd, by omega, by omega, by omega⟩
  obtain ⟨s2, hrem, hC2, hE2, hlen2⟩ := removeAll_ok rem s1 hC1 hE1b hfacts1
  have hempty : ∀ u, s2.links u = [] := fun u => cover_edges_nil _ (hC2 u) (hE2 u)
  exact ⟨s1, s2, hins, hrem, hempty,
    state_eq_of_links_empty s2 s0 (by omega) hempty hinit⟩

/-- Freshly constructed link structure after four create_vertex calls:
the infinite vertex from construction plus four finite vertices, all
links empty. -/
def fresh5 : LinkVertices :=
  ((((LinkVertices.init.create_vertex).1.create_vertex).1.create_vertex).1.create_vertex).1

/-- Freshly constructed guard structure after four create_vertex calls. -/
def gfresh5 : GuardVertices :=
  ((((GuardVertices.init.create_vertex).1.create_vertex).1.create_vertex).1.create_vertex).1

/-- Link-variant round trip: insert faces (0,1,2), (0,2,1), (0,1,3), then
remove the same three faces in the order (0,1,2), (0,1,3), (0,2,1). -/
def ceChainLink : Except String LinkVertices :=
  fresh5.insert_face 0 1 2 >>= fun s => s.insert_face 0 2 1 >>= fun s =>
    s.insert_face 0 1 3 >>= fun s => s.remove_face 0 1 2 >>= fun s =>
      s.remove_face 0 1 3 >>= fun s => s.remove_face 0 2 1

/-- Guard-variant round trip: the same inserts, removals in the order
(0,1,3), (0,1,2), (0,2,1). -/
def ceChainGuard : Except String GuardVertices :=
  (((gfresh5.insert_face 0 1 2).insert_face 0 2 1).insert_face 0 1 3).remove_face 0 1 3
    >>= fun s => s.remove_face 0 1 2 >>= fun s => s.remove_face 0 2 1

/-- Claim C4, counterexample.  Both runs insert three faces into a freshly
constructed TDS and remove exactly the same three faces; every call returns
normally (no assertion fails, so each removal's precondition holds), yet
the final state is not the initial empty state: in the link variant vertex
1 keeps the stale link path [2, 3], and in the guard variant vertex 3 keeps
the stale guard set [0]. -/
theorem insert_remove_round_trip_fails :
    ceChainLink.toOption.map (fun s => s.links 1) = some [[2, 3]] ∧
    ceChainLink.toOption ≠ some fresh5 ∧
    ceChainGuard.toOption.map (fun t => (t.vertex 3).guards) = some [0] ∧
    ceChainGuard.toOption ≠ some gfresh5 :=
  ⟨by decide, by decide, by decide, by decide⟩

theorem validNewEdge_nil (x y : Nat) (hxy : x ≠ y) : ValidNewEdge [] x y :=
  ⟨hxy, fun e he => absurd he (List.not_mem_nil e),
    fun e he => absurd he (List.not_mem_nil e)⟩

theorem fresh5_links_empty : ∀ u, fresh5.links u = []
  | 0 => rfl
  | 1 => rfl
  | 2 => rfl
  | 3 => rfl
  | 4 => rfl
  | _ + 5 => rfl

/-- Claim C4, witness: the face (1, 2, 3) inserted into the fresh
five-vertex state and removed again restores the state exactly. -/
theorem link_insert_remove_round_trip_witness :
    ∃ s1 s2, insertAll fresh5 [(1, 2, 3)] = .ok s1 ∧
      removeAll s1 [(1, 2, 3)] = .ok s2 ∧ (∀ u, s2.links u = []) ∧ s2 = fresh5 := by
  apply link_insert_remove_round_trip fresh5 [(1, 2, 3)] [(1, 2, 3)]
  · exact fresh5_links_empty
  · show faceDistinct (1, 2, 3) ∧ 1 < fresh5.vertices.length ∧
        2 < fresh5.vertices.length ∧ 3 < fresh5.vertices.length ∧
        ValidNewEdge (fresh5.links 1) 2 3 ∧ ValidNewEdge (fresh5.links 2) 3 1 ∧
        ValidNewEdge (fresh5.links 3) 1 2 ∧
        ∀ s2, fresh5.insert_face 1 2 3 = .ok s2 → ValidFaceSeq s2 []
    refine ⟨⟨by decide, by decide, by decide⟩, by decide, by decide, by decide,
      ?_, ?_, ?_, fun s2 _ => trivial⟩
    · rw [fresh5_links_empty 1]
      exact validNewEdge_nil 2 3 (by decide)
    · rw [fresh5_links_empty 2]
      exact validNewEdge_nil 3 1 (by decide)
    · rw [fresh5_links_empty 3]
      exact validNewEdge_nil 1 2 (by decide)
  · exact List.Perm.refl _

end GuardVerticesRepo
